import Mathlib

/-!
SoftwareSerial (espsoftwareserial): bit-level receive decoder and transmitter.

Shallow embedding of `src/SoftwareSerial.cpp`.

* `long unsigned` values (cycle counts, edge words) are natural numbers reduced
  modulo `2^32` (`toU32`); `long` values are integers wrapped to the signed
  32 bit range (`toI32`); `uint8_t` values are natural numbers reduced modulo
  `256` at every assignment.
* The two heap buffers are total maps from index to value.
* Every hardware call is an explicit input (`curCycle`, `level`, `clk`) or an
  entry of the returned `HalOp` trace.
* The `do ... while` loop of `rxBits` takes fuel; `none` stands for a run that
  does not return (fuel exhausted, division by zero, negative loop count).
-/

namespace SoftwareSerial

/-! ## Machine integers -/

/-- Value of an integer expression stored in a `long unsigned` (32 bit). -/
def toU32 (x : Int) : Nat := (x % 4294967296).toNat

/-- Value of an integer expression stored in a `long` (32 bit, two's complement). -/
def toI32 (x : Int) : Int := (x + 2147483648) % 4294967296 - 2147483648

/-- A `bool` promoted to an integer operand. -/
def b2n (b : Bool) : Nat := if b then 1 else 0

/-! ## Hardware abstraction -/

/-- Pin modes passed to `pinMode`. With the output latch held `LOW`
(`ALT_DIGITAL_WRITE`), `OUTPUT` drives the line low and `INPUT_PULLUP`
lets it float high. -/
inductive PinMode where
  | INPUT
  | INPUT_PULLUP
  | OUTPUT
  deriving DecidableEq, Repr

/-- Calls made to the hardware layer by the transmitter, in program order. -/
inductive HalOp where
  | noInterrupts
  | interrupts
  | pinMode (pin : Int) (mode : PinMode)
  | getCycleCount (value : Nat)
  | waitBitCycles (deadline : Nat)
  deriving DecidableEq, Repr

/-! ## Object state -/

/-- Modelled from the spec: the member variables of `class SoftwareSerial`. The
class declaration (`SoftwareSerial.h`) is not part of the sources; field types
follow the uses in `SoftwareSerial.cpp` and the data model of the
specification. `m_bitCycles` is taken as a signed `long`
(it is assigned a `long` quotient in `begin` and compared with the signed
`cycles` in `rxBits`); the members that `begin` does not assign start as
`false`, `0`.

`lostEdges` and `lostBytes` are ghost counters: they count the events and
bytes discarded by the two `else` branches that raise an overflow flag. No
operation reads them. -/
structure Port where
  m_oneWire : Bool
  m_rxPin : Int
  m_txPin : Int
  m_txEnablePin : Int
  m_rxValid : Bool
  m_rxEnabled : Bool
  m_txValid : Bool
  m_txEnableValid : Bool
  m_invert : Bool
  m_overflow : Bool
  m_bitCycles : Int
  m_inPos : Nat
  m_outPos : Nat
  m_bufSize : Nat
  m_bufferSet : Bool
  m_buffer : Nat → Nat
  m_isrInPos : Nat
  m_isrOutPos : Nat
  m_isrBufSize : Nat
  m_isrBufferSet : Bool
  m_isrBuffer : Nat → Nat
  m_isrOverflow : Bool
  m_rxCurBit : Int
  m_rxCurByte : Nat
  m_lastCycle : Nat
  lostEdges : Nat
  lostBytes : Nat

/-! ## Edge capture -/

/-- An edge event word: the cycle count with its lowest bit replaced by the
inverted level (`(cycle | 1) ^ level`). -/
def edgeWord (cycle : Nat) (level : Bool) : Nat := (cycle ||| 1) ^^^ b2n level

/-- `SoftwareSerial::rxRead`, with the cycle counter reading and the sampled
pin level as inputs. -/
def rxRead (s : Port) (curCycle : Nat) (level : Bool) : Port :=
  let next := (s.m_isrInPos + 1) % s.m_isrBufSize
  if next ≠ s.m_isrOutPos then
    { s with
      m_isrBuffer := Function.update s.m_isrBuffer s.m_isrInPos (edgeWord curCycle level)
      m_isrInPos := next }
  else
    { s with m_isrOverflow := true, lostEdges := s.lostEdges + 1 }

/-! ## Edge decoder -/

/-- The "preceding masked bits" block of `rxBits` (`if (cycles >= m_bitCycles)`),
returning the new state and the remaining `cycles`. -/
def rxHiddenBits (s : Port) (cycles : Int) : Port × Int :=
  let hiddenBits0 := Int.tdiv cycles s.m_bitCycles
  let hiddenBits := if hiddenBits0 > 7 - s.m_rxCurBit then 7 - s.m_rxCurBit else hiddenBits0
  let lastBit := s.m_rxCurByte &&& 0x80 ≠ 0
  let shifted := (s.m_rxCurByte >>> hiddenBits.toNat) % 256
  let filled := if lastBit then (shifted ||| (0xff <<< (8 - hiddenBits).toNat)) % 256 else shifted
  ({ s with m_rxCurByte := filled, m_rxCurBit := s.m_rxCurBit + hiddenBits },
   toI32 (cycles - hiddenBits * s.m_bitCycles))

/-- The explicit data bit block of `rxBits` (`if (m_rxCurBit < 7)`). -/
def rxDataBit (s : Port) (level : Bool) (cycles : Int) : Port × Int :=
  let shifted := (s.m_rxCurByte >>> 1) % 256
  ({ s with
     m_rxCurBit := s.m_rxCurBit + 1
     m_rxCurByte := if level then (shifted ||| 0x80) % 256 else shifted },
   toI32 (cycles - s.m_bitCycles))

/-- The byte finalisation block of `rxBits` (`if (m_rxCurBit == 7)`), without
the `cycles` update. -/
def rxStoreByte (s : Port) : Port :=
  let next := (s.m_inPos + 1) % s.m_bufSize
  if next ≠ s.m_outPos then
    { s with
      m_rxCurBit := 8
      m_buffer := Function.update s.m_buffer s.m_inPos s.m_rxCurByte
      m_rxCurByte := 0
      m_inPos := next }
  else
    { s with m_rxCurBit := 8, m_overflow := true, lostBytes := s.lostBytes + 1 }

/-- The data bit branch of the decode loop (`if (m_rxCurBit >= -1 && m_rxCurBit < 7)`):
masked bits first, then one explicit bit if the byte is not complete. -/
def rxDataBits (s : Port) (level : Bool) (cycles : Int) : Port × Int :=
  let r1 := if cycles ≥ s.m_bitCycles then rxHiddenBits s cycles else (s, cycles)
  if r1.1.m_rxCurBit < 7 then rxDataBit r1.1 level r1.2 else r1

/-- The `do { ... } while (cycles >= 0)` loop of `rxBits` for one edge event. -/
def rxBitLoop (level : Bool) : Nat → Int → Port → Option Port
  | 0, _, _ => none
  | fuel + 1, cycles, s =>
    if -1 ≤ s.m_rxCurBit ∧ s.m_rxCurBit < 7 then
      if cycles ≥ s.m_bitCycles ∧ s.m_bitCycles = 0 then none
      else
        let r := rxDataBits s level cycles
        if r.2 ≥ 0 then rxBitLoop level fuel r.2 r.1 else some r.1
    else if s.m_rxCurBit = 7 then
      let s1 := rxStoreByte s
      let c1 := toI32 (cycles - s.m_bitCycles)
      if c1 ≥ 0 then rxBitLoop level fuel c1 s1 else some s1
    else if s.m_rxCurBit = 8 then
      some (if !level then { s with m_rxCurBit := -1 } else s)
    else some s

/-- Fuel handed to `rxBitLoop`; eleven iterations suffice for a positive bit
period (see `rxBitLoop_total`). -/
def loopFuel : Nat := 12

/-- One iteration of `while (avail--)` in `rxBits`: take the oldest edge word
and replay it. -/
def rxEvent (s : Port) : Option Port :=
  let isrCycle := s.m_isrBuffer s.m_isrOutPos
  let level := (isrCycle &&& 1) == b2n s.m_invert
  let cycles := toI32 ((isrCycle : Int) - s.m_lastCycle - Int.tdiv s.m_bitCycles 2)
  rxBitLoop level loopFuel cycles
    { s with
      m_isrOutPos := (s.m_isrOutPos + 1) % s.m_isrBufSize
      m_lastCycle := isrCycle }

/-- The `while (avail--)` loop of `rxBits`. -/
def rxEvents : Nat → Port → Option Port
  | 0, s => some s
  | n + 1, s => (rxEvent s).bind (rxEvents n)

/-- The overflow latch at the head of `rxBits`. -/
def rxLatch (s : Port) : Port :=
  if s.m_isrOverflow then { s with m_overflow := true, m_isrOverflow := false } else s

/-- The undetected stop bit block of `rxBits`, returning the new state and
the new value of `avail`. -/
def rxStopBit (s : Port) (avail : Int) (curCycle : Nat) : Port × Int :=
  if avail = 0 ∧ s.m_rxCurBit < 8 ∧ s.m_isrInPos = s.m_isrOutPos ∧ s.m_rxCurBit ≥ 0 then
    let delta := toU32 ((curCycle : Int) - s.m_lastCycle)
    let expectedDelta := toU32 ((11 - s.m_rxCurBit) * s.m_bitCycles)
    if delta > expectedDelta then
      let next := (s.m_isrInPos + 1) % s.m_isrBufSize
      if next ≠ s.m_isrOutPos then
        let expectedCycle := toU32 ((s.m_lastCycle : Int) + expectedDelta)
        ({ s with
           m_isrBuffer :=
             Function.update s.m_isrBuffer s.m_isrInPos (edgeWord expectedCycle s.m_invert)
           m_isrInPos := next },
         avail + 1)
      else
        ({ s with m_isrOverflow := true, lostEdges := s.lostEdges + 1 }, avail)
    else (s, avail)
  else (s, avail)

/-- `SoftwareSerial::rxBits`; `curCycle` is the reading `ESP.getCycleCount()`
gives in the stop bit block. -/
def rxBits (s : Port) (curCycle : Nat) : Option Port :=
  let avail0 : Int := (s.m_isrInPos : Int) - s.m_isrOutPos
  let avail := if avail0 < 0 then avail0 + s.m_isrBufSize else avail0
  let r := rxStopBit (rxLatch s) avail curCycle
  if r.2 < 0 then none else rxEvents r.2.toNat r.1

/-! ## Byte level read interface -/

/-- `SoftwareSerial::read`. -/
def read (s : Port) (curCycle : Nat) : Option (Int × Port) :=
  if !s.m_rxValid then some (-1, s)
  else
    let take := fun (t : Port) =>
      (((t.m_buffer t.m_outPos % 256 : Nat) : Int), { t with m_outPos := (t.m_outPos + 1) % t.m_bufSize })
    if s.m_inPos = s.m_outPos then
      (rxBits s curCycle).bind fun s1 =>
        if s1.m_inPos = s1.m_outPos then some (-1, s1) else some (take s1)
    else some (take s)

/-- `SoftwareSerial::available`; `cyc1` and `cyc2` are the counter readings of
the two decode passes. No edge is captured during `optimistic_yield`. -/
def available (s : Port) (cyc1 cyc2 : Nat) : Option (Int × Port) :=
  if !s.m_rxValid then some (0, s)
  else
    (rxBits s cyc1).bind fun s1 =>
      let avail : Int := (s1.m_inPos : Int) - s1.m_outPos
      let fin := fun (a : Int) (t : Port) => ((if a < 0 then a + t.m_bufSize else a), t)
      if avail = 0 then
        (rxBits s1 cyc2).bind fun s2 => some (fin ((s2.m_inPos : Int) - s2.m_outPos) s2)
      else some (fin avail s1)

/-- `SoftwareSerial::peek`. -/
def peek (s : Port) (curCycle : Nat) : Option (Int × Port) :=
  if !s.m_rxValid then some (-1, s)
  else
    (rxBits s curCycle).bind fun s1 =>
      if s1.m_inPos = s1.m_outPos then some (-1, s1)
      else some (((s1.m_buffer s1.m_outPos % 256 : Nat) : Int), s1)

/-- `SoftwareSerial::flush`. -/
def flush (s : Port) : Port :=
  { s with m_inPos := 0, m_outPos := 0, m_isrInPos := 0, m_isrOutPos := 0 }

/-- `SoftwareSerial::overflow`. -/
def overflow (s : Port) : Bool × Port :=
  (s.m_overflow, { s with m_overflow := false })

/-! ## Transmitter -/

/-- Mode written to the transmit pin for logic level `b`
(`pinMode(m_txPin, b ? INPUT_PULLUP : OUTPUT)`). -/
def levelMode (b : Bool) : PinMode := if b then .INPUT_PULLUP else .OUTPUT

/-- The `for (int i = 0; i < 9; ++i)` loop of `write` followed by the closing
`waitBitCycles(deadline)`; `n` counts the iterations left. The members read by
the loop (`m_txPin`, `m_invert`, `m_bitCycles`) are passed as arguments. -/
def txBits (txPin : Int) (invert : Bool) (bitCycles : Int) :
    Nat → Nat → Bool → Nat → Nat → List HalOp
  | 0, _, _, _, deadline => [.waitBitCycles deadline]
  | n + 1, i, b, o, deadline =>
    let pb := b
    let b1 : Bool := if i < 8 then (o &&& 1) != 0 else !invert
    let o1 := o >>> 1
    if pb = b1 then txBits txPin invert bitCycles n (i + 1) b1 o1 (toU32 (deadline + bitCycles))
    else
      .waitBitCycles deadline :: .pinMode txPin (levelMode b1) ::
        txBits txPin invert bitCycles n (i + 1) b1 o1 (toU32 (deadline + bitCycles))

/-- Body of the byte loop of `write`; `cycle` is the reading of
`ESP.getCycleCount()` for this byte. -/
def txByte (txPin : Int) (invert : Bool) (bitCycles : Int) (cycle : Nat) (byte : Nat) :
    List HalOp :=
  let o := if invert then 255 - byte % 256 else byte % 256
  let b := invert
  let deadline := toU32 (cycle + bitCycles)
  .getCycleCount cycle :: .pinMode txPin (levelMode b) ::
    txBits txPin invert bitCycles 9 0 b o deadline

/-- The byte loop of `write`; `clk cnt` is the counter reading taken for byte
number `cnt`. -/
def txBytes (txPin : Int) (invert : Bool) (bitCycles : Int) (clk : Nat → Nat) :
    Nat → List Nat → List HalOp
  | _, [] => []
  | cnt, byte :: rest =>
    txByte txPin invert bitCycles (clk cnt) byte ++
      txBytes txPin invert bitCycles clk (cnt + 1) rest

/-- `SoftwareSerial::write(const uint8_t *buffer, size_t size)`. Returns the
byte count, the new state and the hardware calls made. -/
def write (s : Port) (buffer : List Nat) (clk : Nat → Nat) (curCycle : Nat) :
    Option (Nat × Port × List HalOp) :=
  (if s.m_rxValid then rxBits s curCycle else some s).bind fun s1 =>
    if !s1.m_txValid then some (0, s1, [])
    else
      some (buffer.length, s1,
        [.noInterrupts] ++
        (if s1.m_txEnableValid then [.pinMode s1.m_txEnablePin .INPUT_PULLUP] else []) ++
        [.pinMode s1.m_txPin (if s1.m_invert then .OUTPUT else .INPUT_PULLUP)] ++
        txBytes s1.m_txPin s1.m_invert s1.m_bitCycles clk 0 buffer ++
        (if s1.m_txEnableValid then [.pinMode s1.m_txEnablePin .OUTPUT] else []) ++
        [.interrupts])

/-! ## The transmitted waveform and its capture -/

/-- Line level that results from a pin mode (output latch held `LOW`). -/
def modeLevel : PinMode → Bool
  | .OUTPUT => false
  | _ => true

/-- The level changes requested on `pin`, each with its scheduled cycle count:
the counter value most recently read (`getCycleCount`) or waited for
(`waitBitCycles`); `t` is that value before the first call. -/
def pinEvents (pin : Int) : Nat → List HalOp → List (Nat × Bool)
  | _, [] => []
  | _, .getCycleCount v :: r => pinEvents pin v r
  | _, .waitBitCycles d :: r => pinEvents pin d r
  | t, .pinMode p m :: r =>
    if p = pin then (t, modeLevel m) :: pinEvents pin t r else pinEvents pin t r
  | t, .noInterrupts :: r => pinEvents pin t r
  | t, .interrupts :: r => pinEvents pin t r

/-- The requests that change the line level, starting from level `cur`. -/
def pinChanges : Bool → List (Nat × Bool) → List (Nat × Bool)
  | _, [] => []
  | cur, (t, l) :: r => if l = cur then pinChanges cur r else (t, l) :: pinChanges l r

/-- Level of the line `x` cycles after counter value `t0`: the level of the
last request scheduled no later, `cur` if there is none. -/
def levelAt (t0 x : Nat) (cur : Bool) (events : List (Nat × Bool)) : Bool :=
  events.foldl (fun c e => if toU32 ((e.1 : Int) - t0) ≤ x then e.2 else c) cur

/-- Level in bit slot `k` of a list of (slot, level) requests. -/
def slotLevel (k : Nat) (cur : Bool) (events : List (Nat × Bool)) : Bool :=
  events.foldl (fun c e => if e.1 ≤ k then e.2 else c) cur

/-- Requests of one frame by bit slot: the trace of `txByte` at a bit period of
one cycle, starting at cycle 0. -/
def frameEdges (invert : Bool) (byte : Nat) : List (Nat × Bool) :=
  pinEvents 0 0 (txByte 0 invert 1 0 byte)

/-- Scheduled cycle count of the request made in bit slot `e.1` of a frame that
starts at counter value `t0`. -/
def slotTime (t0 : Nat) (B : Int) (e : Nat × Bool) : Nat × Bool := (toU32 (t0 + e.1 * B), e.2)

/-- Places a call of the one-cycle trace on pin `txPin`, at bit period
`bitCycles` from counter value `t0`. -/
def retime (txPin : Int) (t0 : Nat) (bitCycles : Int) : HalOp → HalOp
  | .waitBitCycles k => .waitBitCycles (toU32 (t0 + k * bitCycles))
  | .getCycleCount k => .getCycleCount (toU32 (t0 + k * bitCycles))
  | .pinMode _ m => .pinMode txPin m
  | .noInterrupts => .noInterrupts
  | .interrupts => .interrupts

/-- Each level change captured by `rxRead` at its scheduled cycle count. -/
def capture (s : Port) (edges : List (Nat × Bool)) : Port :=
  edges.foldl (fun t e => rxRead t e.1 e.2) s

/-- A `write` on a port whose transmit pin is wired to its receive pin: the
state after the call, with every level change of the transmit pin captured.
The line idles at the stop level before the call. -/
def loopback (s : Port) (buffer : List Nat) (clk : Nat → Nat) (curCycle : Nat) : Option Port :=
  (write s buffer clk curCycle).map fun r =>
    capture r.2.1 (pinChanges (!s.m_invert) (pinEvents s.m_txPin curCycle r.2.2))

/-! ## Views used in the statements -/

/-- Contents of a ring buffer: `count` cells starting at index `pos`. -/
def ringSeq (buf : Nat → Nat) (size pos count : Nat) : List Nat :=
  (List.range count).map fun i => buf ((pos + i) % size)

/-- Number of queued cells, as computed in `available` and `rxBits`
(`avail = in - out; if (avail < 0) avail += size`). -/
def ringCount (inPos outPos size : Nat) : Nat :=
  if inPos < outPos then inPos + size - outPos else inPos - outPos

/-- Bytes waiting in the byte buffer, oldest first. -/
def queued (s : Port) : List Nat :=
  (ringSeq s.m_buffer s.m_bufSize s.m_outPos (ringCount s.m_inPos s.m_outPos s.m_bufSize)).map
    (· % 256)

/-- Edge words waiting in the edge buffer, oldest first. -/
def isrQueued (s : Port) : List Nat :=
  ringSeq s.m_isrBuffer s.m_isrBufSize s.m_isrOutPos
    (ringCount s.m_isrInPos s.m_isrOutPos s.m_isrBufSize)

/-- State invariant of a started port: ring indices inside their buffers, a
positive bit period and `m_rxCurBit` in `-1 .. 8`. -/
def Port.wf (s : Port) : Prop :=
  s.m_inPos < s.m_bufSize ∧ s.m_outPos < s.m_bufSize ∧
  s.m_isrInPos < s.m_isrBufSize ∧ s.m_isrOutPos < s.m_isrBufSize ∧
  1 ≤ s.m_bitCycles ∧ -1 ≤ s.m_rxCurBit ∧ s.m_rxCurBit ≤ 8

instance (s : Port) : Decidable s.wf := by
  unfold Port.wf; infer_instance

/-- The stop bit block of `rxBits` would fire at counter reading `curCycle`:
a byte is mid-assembly and more than `11 - m_rxCurBit` bit periods have
passed since the last edge. -/
def stopBitDue (s : Port) (curCycle : Nat) : Prop :=
  0 ≤ s.m_rxCurBit ∧ s.m_rxCurBit < 8 ∧
  toU32 ((curCycle : Int) - s.m_lastCycle) > toU32 ((11 - s.m_rxCurBit) * s.m_bitCycles)

instance (s : Port) (c : Nat) : Decidable (stopBitDue s c) := by
  unfold stopBitDue; infer_instance

/-- A call on the receive side of the port, with the counter readings it
consumes. -/
inductive RxCall where
  | read (curCycle : Nat)
  | peek (curCycle : Nat)
  | available (cyc1 cyc2 : Nat)
  | rxRead (curCycle : Nat) (level : Bool)

/-- State after one receive side call. -/
def RxCall.run : RxCall → Port → Option Port
  | .read c, s => (SoftwareSerial.read s c).map Prod.snd
  | .peek c, s => (SoftwareSerial.peek s c).map Prod.snd
  | .available c1 c2, s => (SoftwareSerial.available s c1 c2).map Prod.snd
  | .rxRead c l, s => some (SoftwareSerial.rxRead s c l)

/-- State after a sequence of receive side calls. -/
def runCalls : List RxCall → Port → Option Port
  | [], s => some s
  | c :: cs, s => (c.run s).bind (runCalls cs)

/-- Results of consecutive `read()` calls, one per counter reading. -/
def reads : List Nat → Port → Option (List Int × Port)
  | [], s => some ([], s)
  | c :: cs, s =>
    (read s c).bind fun r => (reads cs r.2).map fun q => (r.1 :: q.1, q.2)

/-! ## Relations between a state and a later state -/

/-- What every receive side step keeps or only increases: configuration, the
read index, the ghost counters and the provenance of the overflow flags. -/
structure Ext (s t : Port) : Prop where
  oneWire : t.m_oneWire = s.m_oneWire
  rxPin : t.m_rxPin = s.m_rxPin
  txPin : t.m_txPin = s.m_txPin
  txEnablePin : t.m_txEnablePin = s.m_txEnablePin
  rxValid : t.m_rxValid = s.m_rxValid
  rxEnabled : t.m_rxEnabled = s.m_rxEnabled
  txValid : t.m_txValid = s.m_txValid
  txEnableValid : t.m_txEnableValid = s.m_txEnableValid
  invert : t.m_invert = s.m_invert
  bitCycles : t.m_bitCycles = s.m_bitCycles
  bufSize : t.m_bufSize = s.m_bufSize
  isrBufSize : t.m_isrBufSize = s.m_isrBufSize
  outPos : t.m_outPos = s.m_outPos
  lostBytes_le : s.lostBytes ≤ t.lostBytes
  lostEdges_le : s.lostEdges ≤ t.lostEdges
  ov_mono : s.m_overflow = true → t.m_overflow = true
  ov_lost : s.lostBytes < t.lostBytes → t.m_overflow = true
  ov_src : t.m_overflow = true →
    s.m_overflow = true ∨ s.m_isrOverflow = true ∨ s.lostBytes < t.lostBytes ∨
      s.lostEdges < t.lostEdges
  isr_src : t.m_isrOverflow = true → s.m_isrOverflow = true ∨ s.lostEdges < t.lostEdges

/-- Well-formed successor state whose byte queue extends the old one. -/
structure Grow (s t : Port) : Prop where
  wf : t.wf
  queue : ∃ l, queued t = queued s ++ l

/-- Fields of the edge buffer and the last edge time are not touched by the
decode loop of one event. -/
structure IsrSame (s t : Port) : Prop where
  isrInPos : t.m_isrInPos = s.m_isrInPos
  isrOutPos : t.m_isrOutPos = s.m_isrOutPos
  isrBuffer : t.m_isrBuffer = s.m_isrBuffer
  lastCycle : t.m_lastCycle = s.m_lastCycle

/-! ## Further definitions used in the statements -/

/-- A started, idle port: bit period 16 cycles, byte buffer of 8 cells, edge
buffer of 80 cells, both empty, normal logic. -/
def idlePort : Port :=
  { m_oneWire := false, m_rxPin := 4, m_txPin := 5, m_txEnablePin := -1,
    m_rxValid := true, m_rxEnabled := true, m_txValid := true, m_txEnableValid := false,
    m_invert := false, m_overflow := false, m_bitCycles := 16,
    m_inPos := 0, m_outPos := 0, m_bufSize := 8, m_bufferSet := true, m_buffer := fun _ => 0,
    m_isrInPos := 0, m_isrOutPos := 0, m_isrBufSize := 80, m_isrBufferSet := true,
    m_isrBuffer := fun _ => 0, m_isrOverflow := false,
    m_rxCurBit := 8, m_rxCurByte := 0, m_lastCycle := 0, lostEdges := 0, lostBytes := 0 }

/-- State after the dequeue at the end of `read`. -/
def Port.pop (s : Port) : Port := { s with m_outPos := (s.m_outPos + 1) % s.m_bufSize }

/-- What the read side calls keep: as `Ext`, except that the read index may move. -/
structure Ext2 (s t : Port) : Prop where
  lostBytes_le : s.lostBytes ≤ t.lostBytes
  lostEdges_le : s.lostEdges ≤ t.lostEdges
  ov_src : t.m_overflow = true →
    s.m_overflow = true ∨ s.m_isrOverflow = true ∨ s.lostBytes < t.lostBytes ∨
      s.lostEdges < t.lostEdges
  isr_src : t.m_isrOverflow = true → s.m_isrOverflow = true ∨ s.lostEdges < t.lostEdges

/-! ## The decoder in bit slots -/

/-- Decoder state kept between edge events: `m_rxCurBit` and `m_rxCurByte`. -/
structure Dec where
  c : Int
  y : Nat
  deriving DecidableEq, Repr

/-- The accumulator after `h` masked bits (the update of `m_rxCurByte` in the
"preceding masked bits" block). -/
def hiddenFill (y h : Nat) : Nat :=
  if y &&& 0x80 ≠ 0 then ((y >>> h) % 256 ||| (0xff <<< (8 - h))) % 256 else (y >>> h) % 256

/-- The accumulator after one explicit bit. -/
def shiftIn (y : Nat) (level : Bool) : Nat :=
  if level then ((y >>> 1) % 256 ||| 0x80) % 256 else (y >>> 1) % 256

/-- Effect of one edge event on the decoder, in bit slots: the edge comes `d`
slots after the previous one (`exact`: to the cycle, otherwise `d` slots or
later) and carries logic level `level`. Returns the new decoder state and the
bytes pushed; `none` where the outcome depends on the exact cycle counts. -/
def absEvent (a : Dec) (d : Nat) (exact level : Bool) : Option (Dec × List Nat) :=
  if a.c = 8 then some (if level then a else { a with c := -1 }, [])
  else if a.c = 7 then
    if 2 ≤ d then some (if level then ⟨8, 0⟩ else ⟨-1, 0⟩, [a.y])
    else if d = 1 ∧ exact then some (⟨8, 0⟩, [a.y])
    else none
  else if -1 ≤ a.c ∧ a.c < 7 then
    if d = 0 then none
    else if 7 - a.c ≤ (d : Int) - 1 then
      if 7 - a.c + 2 ≤ (d : Int) then
        some (if level then ⟨8, 0⟩ else ⟨-1, 0⟩, [hiddenFill a.y (7 - a.c).toNat])
      else if exact then some (⟨8, 0⟩, [hiddenFill a.y (7 - a.c).toNat])
      else none
    else if exact then
      some (⟨a.c + d, shiftIn (if 2 ≤ d then hiddenFill a.y (d - 1) else a.y) level⟩, [])
    else none
  else none

/-- The decoder state of a port. -/
def Port.dec (s : Port) : Dec := ⟨s.m_rxCurBit, s.m_rxCurByte⟩

/-- `w` is a 32 bit word within one cycle of the 32 bit counter value `T`. -/
def Near (w T : Nat) : Prop :=
  w < 4294967296 ∧ T < 4294967296 ∧ (T : Int) - 1 ≤ w ∧ (w : Int) ≤ T + 1

/-- The word captured for the level change in bit slot `e.1` of a frame that
starts at counter value `t0`. -/
def edgeAt (t0 : Nat) (B : Int) (e : Nat × Bool) : Nat :=
  edgeWord (toU32 (t0 + e.1 * B)) e.2

/-- The decoder run over level changes given by bit slot (slot, line level),
the previous change being in slot `k`; returns the final decoder state, the
slot of the last change and the bytes pushed. Slots must not decrease nor
pass 9. -/
def absRun (inv : Bool) : Dec → Nat → List (Nat × Bool) → Option (Dec × Nat × List Nat)
  | a, k, [] => some (a, k, [])
  | a, k, e :: r =>
    if k ≤ e.1 ∧ e.1 ≤ 9 then
      (absEvent a (e.1 - k) true (e.2 != inv)).bind fun x =>
        (absRun inv x.1 e.1 r).map fun z => (z.1, z.2.1, x.2 ++ z.2.2)
    else none

/-- Level of the line after the requests `l`, starting from level `cur`. -/
def endLevel : Bool → List (Nat × Bool) → Bool
  | cur, [] => cur
  | _, e :: r => endLevel e.2 r

/-- Decoder state, slot of the last level change and bytes pushed once the
level changes of a frame that follow its start edge are decoded. -/
def frameEnd (inv : Bool) (b : Nat) : Option (Dec × Nat × List Nat) :=
  absRun inv ⟨-1, 0⟩ 0 (frameEdges inv b).tail

/-- Check of one frame at slot level: the frame opens with the start edge in
slot 0, all its requests change the level and leave the line at the stop
level, it has at most ten of them, and decoding them completes byte `b`
either within the frame, or on the start edge of a following frame (ten slots
or more after the frame began), or on the stop bit event that `rxBits` makes
up `11 - m_rxCurBit` slots after the last change. -/
def frameOk (inv : Bool) (b : Nat) : Bool :=
  (frameEdges inv b).head? == some (0, inv) &&
  pinChanges (!inv) (frameEdges inv b) == frameEdges inv b &&
  endLevel (!inv) (frameEdges inv b) == !inv &&
  decide ((frameEdges inv b).length ≤ 10) &&
  match frameEnd inv b with
  | none => false
  | some (a1, k1, p1) =>
    decide (1 ≤ k1) && decide (k1 ≤ 9) && decide (a1.y < 256) && decide (p1.length ≤ 1) &&
    (match absEvent a1 (10 - k1) false false with
      | some (a2, p2) => a2 == ⟨-1, 0⟩ && p1 ++ p2 == [b]
      | none => false) &&
    (if a1.c = 8 then p1 == [b]
      else decide (0 ≤ a1.c) && decide (a1.c + 1 = k1) && p1 == [] &&
        match absEvent a1 (11 - a1.c).toNat true false with
        | some (_, p3) => p3 == [b]
        | none => false)

/-- Counter value last read or waited for after the calls `ops`. -/
def lastClock : Nat → List HalOp → Nat
  | t, [] => t
  | _, .getCycleCount v :: r => lastClock v r
  | _, .waitBitCycles d :: r => lastClock d r
  | t, .pinMode _ _ :: r => lastClock t r
  | t, .noInterrupts :: r => lastClock t r
  | t, .interrupts :: r => lastClock t r

/-- The level changes of a stream of frames, byte number `cnt` starting at
counter value `clk cnt`. -/
def streamEdges (inv : Bool) (B : Int) (clk : Nat → Nat) : Nat → List Nat → List (Nat × Bool)
  | _, [] => []
  | cnt, b :: r => (frameEdges inv b).map (slotTime (clk cnt) B) ++ streamEdges inv B clk (cnt + 1) r

/-- The words captured for a list of level changes. -/
def edgeWords (es : List (Nat × Bool)) : List Nat := es.map fun e => edgeWord e.1 e.2

/-- Counter readings of an ideal transmitter: the first byte starts at a 32 bit
counter value, each later byte when the stop bit of the byte before it has
ended, or up to `2^28` cycles later. -/
def ClockOk (B : Int) (clk : Nat → Nat) : Prop :=
  clk 0 < 4294967296 ∧
    ∀ j, ∃ g : Nat, g ≤ 268435456 ∧ clk (j + 1) = toU32 (clk j + 10 * B + g)

/-! ## Scenarios -/

/-- Bytes queued after a looped-back `write` followed by one decode pass at
counter value `cyc`. -/
def decodeOnce (s : Port) (bytes : List Nat) (clk : Nat → Nat) (cyc : Nat) : Option (List Nat) :=
  ((loopback s bytes clk 0).bind fun s1 => rxBits s1 cyc).map queued

/-- Bytes queued after a looped-back `write` followed by two decode passes at
counter values `cyc1` and `cyc2`. -/
def decodeTwice (s : Port) (bytes : List Nat) (clk : Nat → Nat) (cyc1 cyc2 : Nat) :
    Option (List Nat) :=
  ((loopback s bytes clk 0).bind fun s1 =>
    (rxBits s1 cyc1).bind fun s2 => rxBits s2 cyc2).map queued

/-- A started port whose byte buffer (two cells, so room for one byte) is full. -/
def fullPort : Port := { idlePort with m_bufSize := 2, m_inPos := 1, m_buffer := fun _ => 0x41 }

/-- Level changes of two frames sent back to back from cycle 1000 at 16 cycles
per bit, normal logic. -/
def twoFrames (b1 b2 : Nat) : List (Nat × Bool) :=
  pinChanges true (pinEvents 5 0 (txBytes 5 false 16 (fun n => 1000 + 160 * n) 0 [b1, b2]))

/-- Frame `b1` arrives while the byte buffer is full and is followed at once by
frame `b2`; a decode pass runs after the start edge of `b2`, the reader then
takes one byte with `read()`, the rest of frame `b2` arrives and a decode pass
runs again. Returns the bytes lost and the byte queue at the end. -/
def dropThenReceive (b1 b2 : Nat) : Option (Nat × List Nat) :=
  (rxBits (capture fullPort ((twoFrames b1 b2).take 3)) 1170).bind fun s1 =>
    (read s1 1171).bind fun r =>
      (rxBits (capture r.2 ((twoFrames b1 b2).drop 3)) 1400).map fun s2 =>
        (s2.lostBytes, queued s2)

/-- Byte start times of a writer that sends frames of `10 * B` cycles back to
back from cycle `t0`, as read from the 32-bit cycle counter. -/
def steadyClock (t0 B n : Nat) : Nat := (t0 + 10 * B * n) % 4294967296

/-! ## Construction and configuration

The calls that these functions make to the pin and interrupt layer
(`pinMode`, `digitalWrite`, `attachInterrupt`, `detachInterrupt`) and the
registry `ObjList` of interrupt owners write no member variable and are left
out. -/

/-- `SoftwareSerial::isValidGPIOpin` (`MAX_PIN` is 15). -/
def isValidGPIOpin (pin : Int) : Bool := (pin ≥ 0 && pin ≤ 5) || (pin ≥ 12 && pin ≤ 15)

/-- Modelled from the spec: the member values before the constructor body runs.
The in-class initialisers are part of the class declaration
(`SoftwareSerial.h`), which is not among the sources. A port that was never
configured has no valid direction and no buffer; every other member starts as
`false` or `0`. -/
def unconfigured : Port :=
  { m_oneWire := false, m_rxPin := 0, m_txPin := 0, m_txEnablePin := 0,
    m_rxValid := false, m_rxEnabled := false, m_txValid := false, m_txEnableValid := false,
    m_invert := false, m_overflow := false, m_bitCycles := 0,
    m_inPos := 0, m_outPos := 0, m_bufSize := 0, m_bufferSet := false, m_buffer := fun _ => 0,
    m_isrInPos := 0, m_isrOutPos := 0, m_isrBufSize := 0, m_isrBufferSet := false,
    m_isrBuffer := fun _ => 0, m_isrOverflow := false,
    m_rxCurBit := 0, m_rxCurByte := 0, m_lastCycle := 0, lostEdges := 0, lostBytes := 0 }

/-- The constructor `SoftwareSerial::SoftwareSerial`. `bufAlloc` and `isrAlloc`
tell whether the two `malloc` calls return a buffer. -/
def construct (receivePin transmitPin : Int) (inverse_logic : Bool) (bufSize isrBufSize : Nat)
    (bufAlloc isrAlloc : Bool) : Port :=
  let s0 := { unconfigured with m_oneWire := receivePin == transmitPin, m_invert := inverse_logic }
  let s1 :=
    if isValidGPIOpin receivePin then
      { s0 with
        m_rxPin := receivePin
        m_bufSize := bufSize
        m_bufferSet := bufAlloc
        m_isrBufSize := if isrBufSize ≠ 0 then isrBufSize else 10 * bufSize
        m_isrBufferSet := isrAlloc }
    else s0
  if isValidGPIOpin transmitPin || (!s1.m_oneWire && transmitPin == 16) then
    { s1 with m_txValid := true, m_txPin := transmitPin }
  else s1

/-- `SoftwareSerial::enableRx`. -/
def enableRx (s : Port) (on_ : Bool) : Port :=
  if s.m_rxValid then
    { (if on_ then { s with m_rxCurBit := 8 } else s) with m_rxEnabled := on_ }
  else s

/-- `SoftwareSerial::begin`; `cpuFreqMHz` is the value of `ESP.getCpuFreqMHz()`.
`none` stands for the division by a zero baud rate. -/
def begin (s : Port) (cpuFreqMHz : Nat) (baud : Int) : Option Port :=
  if baud = 0 then none
  else
    let s1 := { s with m_bitCycles := toI32 (Int.tdiv (toI32 ((cpuFreqMHz : Int) * 1000000)) baud) }
    let s2 :=
      if s1.m_bufferSet && s1.m_isrBufferSet then
        { s1 with m_rxValid := true, m_inPos := 0, m_outPos := 0, m_isrInPos := 0, m_isrOutPos := 0 }
      else s1
    some (if !s2.m_rxEnabled then enableRx s2 true else s2)

/-- `SoftwareSerial::baudRate`; `none` stands for the division by a zero bit
period. -/
def baudRate (s : Port) (cpuFreqMHz : Nat) : Option Int :=
  if s.m_bitCycles = 0 then none
  else some (toI32 (Int.tdiv (toI32 ((cpuFreqMHz : Int) * 1000000)) s.m_bitCycles))

/-- `SoftwareSerial::setTransmitEnablePin`. -/
def setTransmitEnablePin (s : Port) (transmitEnablePin : Int) : Port :=
  if isValidGPIOpin transmitEnablePin then
    { s with m_txEnableValid := true, m_txEnablePin := transmitEnablePin }
  else { s with m_txEnableValid := false }

/-- `SoftwareSerial::enableTx`: in one-wire mode, turning the transmitter on
turns the receiver off and back. -/
def enableTx (s : Port) (on_ : Bool) : Port :=
  if s.m_oneWire && s.m_txValid then enableRx s (!on_) else s

/-- A call of a public member function that can change the state, with the
hardware readings it consumes. -/
inductive PortCall where
  | begin (cpuFreqMHz : Nat) (baud : Int)
  | setTransmitEnablePin (pin : Int)
  | enableTx (on_ : Bool)
  | enableRx (on_ : Bool)
  | read (curCycle : Nat)
  | peek (curCycle : Nat)
  | available (cyc1 cyc2 : Nat)
  | write (buffer : List Nat) (clk : Nat → Nat) (curCycle : Nat)
  | flush
  | overflow

/-- Whether the call is `begin`. -/
def PortCall.isBegin : PortCall → Bool
  | .begin _ _ => true
  | _ => false

/-- State after one call. -/
def PortCall.run : PortCall → Port → Option Port
  | .begin f b, s => SoftwareSerial.begin s f b
  | .setTransmitEnablePin p, s => some (SoftwareSerial.setTransmitEnablePin s p)
  | .enableTx e, s => some (SoftwareSerial.enableTx s e)
  | .enableRx e, s => some (SoftwareSerial.enableRx s e)
  | .read c, s => (SoftwareSerial.read s c).map Prod.snd
  | .peek c, s => (SoftwareSerial.peek s c).map Prod.snd
  | .available c1 c2, s => (SoftwareSerial.available s c1 c2).map Prod.snd
  | .write buf clk c, s => (SoftwareSerial.write s buf clk c).map fun r => r.2.1
  | .flush, s => some (SoftwareSerial.flush s)
  | .overflow, s => some (SoftwareSerial.overflow s).2

/-- State after a sequence of calls. -/
def runPort : List PortCall → Port → Option Port
  | [], s => some s
  | c :: cs, s => (c.run s).bind (runPort cs)

/-! ## Moving the counter origin -/

/-- A counter value or edge word moved by `K` cycles, modulo `2^32`. -/
def shiftWord (K w : Nat) : Nat := toU32 ((w : Int) + K)

/-- The port with the contents of its edge buffer and its last edge time
replaced. -/
def Port.withEdges (s : Port) (buf : Nat → Nat) (last : Nat) : Port :=
  { s with m_isrBuffer := buf, m_lastCycle := last }

/-- The port `s'` is the port `s` with the counter origin moved by `K` cycles:
every word queued in the edge buffer and `m_lastCycle` are those of `s` moved
by `K`, every other member is that of `s`. Cells of the edge buffer outside
the queue are free. -/
def Shifted (K : Nat) (s s' : Port) : Prop :=
  s' = s.withEdges s'.m_isrBuffer (shiftWord K s.m_lastCycle) ∧
    ∀ j < ringCount s.m_isrInPos s.m_isrOutPos s.m_isrBufSize,
      s'.m_isrBuffer ((s.m_isrOutPos + j) % s.m_isrBufSize)
        = shiftWord K (s.m_isrBuffer ((s.m_isrOutPos + j) % s.m_isrBufSize))

/-- A move of the counter origin that puts cycle 1100 on the wrap of the 32 bit
counter (`2^32 - 1100`). -/
def wrapShift : Nat := 4294966196

/-- An idle port that has captured frame `0x55` and the frame `0x0F` after it,
sent from cycle 1000 at 16 cycles per bit. -/
def awayPort : Port := capture idlePort (twoFrames 0x55 0x0F)

/-- The port `awayPort` had the counter stood `wrapShift` cycles further: the
counter wraps to zero inside the first frame. -/
def wrapPort : Port :=
  capture { idlePort with m_lastCycle := shiftWord wrapShift 0 }
    ((twoFrames 0x55 0x0F).map fun e => (shiftWord wrapShift e.1, e.2))

/-! ## Further scenarios -/

/-- Level changes of the frame for byte `b` sent from cycle `t0` at 16 cycles
per bit on a line that idles at the stop level. -/
def frameAt (inv : Bool) (t0 b : Nat) : List (Nat × Bool) :=
  pinChanges (!inv) (pinEvents 5 0 (txByte 5 inv 16 t0 b))

/-- Frame `b1` arrives from cycle 1000 on an idle port and is decoded by two
passes, the second after the stop bit timeout; `m_rxCurBit` is then recorded.
Frame `b2` arrives from cycle `t2` and is decoded by two passes as well.
Returns `m_rxCurBit` after the first frame and the byte queue at the end. -/
def recoverThenReceive (inv : Bool) (b1 b2 t2 : Nat) : Option (Int × List Nat) :=
  (rxBits (capture { idlePort with m_invert := inv } (frameAt inv 1000 b1)) 1170).bind fun s1 =>
    (rxBits s1 1400).bind fun s2 =>
      (rxBits (capture s2 (frameAt inv t2 b2)) (t2 + 170)).bind fun s3 =>
        (rxBits s3 (t2 + 400)).map fun s4 => (s2.m_rxCurBit, queued s4)

/-! ## The transmit schedule, as specified -/

/-- Level of bit slot `k` of the frame for `byte`: the start level in slot 0,
data bit `k - 1` in slots 1 to 8, the stop level in slot 9. -/
def frameLevel (invert : Bool) (byte k : Nat) : Bool :=
  if k = 0 then invert else if k ≤ 8 then (byte.testBit (k - 1) != invert) else !invert

/-- The calls that the specification prescribes for one byte: the counter is
read (`t0`) and the start level is written; then, for each slot `k` in
`1 .. 9` whose level differs from that of slot `k - 1`, a wait for the
deadline `t0 + k * bitCycles` followed by the write of the new level, and
nothing for the other slots; at the end one wait for `t0 + 10 * bitCycles`. -/
def txSchedule (txPin : Int) (invert : Bool) (bitCycles : Int) (t0 byte : Nat) : List HalOp :=
  .getCycleCount t0 :: .pinMode txPin (levelMode invert) ::
    ((List.range 9).flatMap fun i =>
      if frameLevel invert byte (i + 1) = frameLevel invert byte i then []
      else [.waitBitCycles (toU32 (t0 + ((i + 1 : Nat) : Int) * bitCycles)),
            .pinMode txPin (levelMode (frameLevel invert byte (i + 1)))]) ++
    [.waitBitCycles (toU32 (t0 + 10 * bitCycles))]

/-! ## Timing of one event -/

/-- The elapsed cycles that `rxBits` computes for the edge word at the head of
the queue (`long cycles = (isrCycle - m_lastCycle) - m_bitCycles / 2`). -/
def eventCycles (s : Port) : Int :=
  toI32 ((s.m_isrBuffer s.m_isrOutPos : Int) - s.m_lastCycle - Int.tdiv s.m_bitCycles 2)

/-- The level that `rxBits` reads off the edge word at the head of the queue
(`bool level = (isrCycle & 1) == m_invert`). -/
def eventLevel (s : Port) : Bool := (s.m_isrBuffer s.m_isrOutPos &&& 1) == b2n s.m_invert

/-- The port with the word `w` in the cell at the read index of the edge
buffer. -/
def Port.withHead (s : Port) (w : Nat) : Port :=
  { s with m_isrBuffer := Function.update s.m_isrBuffer s.m_isrOutPos w }

/-- A port with the first data bit received, the last edge word being 1001, and
one word `w` queued in the edge buffer. -/
def oneEvent (w : Nat) : Port :=
  ({ idlePort with m_rxCurBit := 0, m_rxCurByte := 0x80, m_lastCycle := 1001,
                   m_isrInPos := 1 } : Port).withHead w

/-! ## Scenarios for flush and overflow reporting -/

/-- Frame `b` arrives from cycle 1000 on an idle port and a decode pass runs at
cycle 1170; the buffers are then flushed, `available()` is called with the
counter readings `c1` and `c2`, and `read()` is called once. Returns
`m_rxCurBit` at the time of the flush, the value of `available()` and the
value of `read()`. -/
def flushThenAvailable (b c1 c2 : Nat) : Option (Int × Int × Int) :=
  (rxBits (capture idlePort (frameAt false 1000 b)) 1170).bind fun s1 =>
    (available (flush s1) c1 c2).bind fun r =>
      (read r.2 (c2 + 1)).map fun q => (s1.m_rxCurBit, r.1, q.1)

/-- A started port whose edge buffer (two cells, so room for one word) is full. -/
def edgeFullPort : Port :=
  { idlePort with m_isrBufSize := 2, m_isrInPos := 1, m_isrBuffer := fun _ => edgeWord 1000 false }

/-- A started port that has dropped a byte: the overflow flag is raised and
one byte, `0x41`, is queued. -/
def overflowedPort : Port :=
  { idlePort with m_overflow := true, lostBytes := 1, m_inPos := 1, m_buffer := fun _ => 0x41 }

/-! ## Ring buffers and the decode pass: general facts -/

theorem succ_mod_eq {x size : Nat} (h : x < size) :
    (x + 1) % size = if x + 1 = size then 0 else x + 1 := by
  split
  · next h1 => rw [h1, Nat.mod_self]
  · next h1 => exact Nat.mod_eq_of_lt (by omega)

theorem ringCount_self (p size : Nat) : ringCount p p size = 0 := by
  simp [ringCount]

theorem ringCount_lt {i o size : Nat} (hi : i < size) (ho : o < size) :
    ringCount i o size < size := by
  unfold ringCount; split <;> omega

theorem ringCount_eq_zero {i o size : Nat} (_hi : i < size) (ho : o < size) :
    ringCount i o size = 0 ↔ i = o := by
  unfold ringCount; split <;> omega

theorem ringCount_push {i o size : Nat} (hi : i < size) (ho : o < size)
    (hfull : (i + 1) % size ≠ o) :
    ringCount ((i + 1) % size) o size = ringCount i o size + 1 := by
  rw [succ_mod_eq hi] at hfull ⊢
  unfold ringCount
  split_ifs at hfull ⊢ <;> omega

theorem ringCount_pop {i o size : Nat} (hi : i < size) (ho : o < size) (hne : i ≠ o) :
    ringCount i o size = ringCount i ((o + 1) % size) size + 1 := by
  rw [succ_mod_eq ho]
  unfold ringCount
  split_ifs <;> omega

theorem ringCount_end {i o size : Nat} (hi : i < size) (ho : o < size) :
    (o + ringCount i o size) % size = i := by
  unfold ringCount
  split
  · next h =>
    have : o + (i + size - o) = i + size := by omega
    rw [this, Nat.add_mod_right, Nat.mod_eq_of_lt hi]
  · next h =>
    have : o + (i - o) = i := by omega
    rw [this, Nat.mod_eq_of_lt hi]

theorem succ_mod_lt {x size : Nat} (h : x < size) : (x + 1) % size < size :=
  Nat.mod_lt _ (by omega)

theorem ringSeq_zero (buf : Nat → Nat) (size pos : Nat) : ringSeq buf size pos 0 = [] := rfl

theorem ringSeq_succ_back (buf : Nat → Nat) (size pos n : Nat) :
    ringSeq buf size pos (n + 1) = ringSeq buf size pos n ++ [buf ((pos + n) % size)] := by
  simp [ringSeq, List.range_succ]

theorem ringSeq_succ_front (buf : Nat → Nat) {size pos : Nat} (h : pos < size) (n : Nat) :
    ringSeq buf size pos (n + 1) = buf pos :: ringSeq buf size ((pos + 1) % size) n := by
  simp only [ringSeq, List.range_succ_eq_map, List.map_cons, List.map_map, Nat.add_zero,
    Nat.mod_eq_of_lt h]
  congr 1
  apply List.map_congr_left
  intro i _
  simp only [Function.comp, Nat.succ_eq_add_one]
  congr 1
  rw [Nat.mod_add_mod]; congr 1; omega

theorem ringSeq_update {buf : Nat → Nat} {size pos n k : Nat} (v : Nat)
    (h : ∀ i, i < n → (pos + i) % size ≠ k) :
    ringSeq (Function.update buf k v) size pos n = ringSeq buf size pos n := by
  unfold ringSeq
  apply List.map_congr_left
  intro i hi
  rw [Function.update_noteq (h i (List.mem_range.mp hi))]

/-- Cells of a ring buffer reached in fewer than `size` steps are pairwise distinct. -/
theorem ring_index_ne {size pos i n : Nat} (hpos : pos < size) (hi : i < n) (hn : n < size) :
    (pos + i) % size ≠ (pos + n) % size := by
  intro h
  have h1 : (pos + i) % size = if pos + i < size then pos + i else pos + i - size := by
    split
    · exact Nat.mod_eq_of_lt ‹_›
    · rw [Nat.mod_eq_sub_mod (by omega)]; exact Nat.mod_eq_of_lt (by omega)
  have h2 : (pos + n) % size = if pos + n < size then pos + n else pos + n - size := by
    split
    · exact Nat.mod_eq_of_lt ‹_›
    · rw [Nat.mod_eq_sub_mod (by omega)]; exact Nat.mod_eq_of_lt (by omega)
  rw [h1, h2] at h
  split at h <;> split at h <;> omega

/-- Storing at the write index of a ring that is not full appends to its contents. -/
theorem ringSeq_push (buf : Nat → Nat) {size i o : Nat} (v : Nat) (hi : i < size) (ho : o < size)
    (hfull : (i + 1) % size ≠ o) :
    ringSeq (Function.update buf i v) size o (ringCount ((i + 1) % size) o size)
      = ringSeq buf size o (ringCount i o size) ++ [v] := by
  rw [ringCount_push hi ho hfull, ringSeq_succ_back, ringCount_end hi ho, Function.update_same]
  congr 1
  apply ringSeq_update
  intro k hk
  have := ring_index_ne ho hk (ringCount_lt hi ho)
  rwa [ringCount_end hi ho] at this

/-- The cell at the read index of a non-empty ring is the head of its contents. -/
theorem ringSeq_pop (buf : Nat → Nat) {size i o : Nat} (hi : i < size) (ho : o < size)
    (hne : i ≠ o) :
    ringSeq buf size o (ringCount i o size)
      = buf o :: ringSeq buf size ((o + 1) % size) (ringCount i ((o + 1) % size) size) := by
  rw [ringCount_pop hi ho hne, ringSeq_succ_front buf ho]

theorem Ext.extRefl (s : Port) : Ext s s := by
  constructor <;> simp <;> tauto

theorem Ext.extTrans {s t u : Port} (h1 : Ext s t) (h2 : Ext t u) : Ext s u := by
  constructor
  · rw [h2.oneWire, h1.oneWire]
  · rw [h2.rxPin, h1.rxPin]
  · rw [h2.txPin, h1.txPin]
  · rw [h2.txEnablePin, h1.txEnablePin]
  · rw [h2.rxValid, h1.rxValid]
  · rw [h2.rxEnabled, h1.rxEnabled]
  · rw [h2.txValid, h1.txValid]
  · rw [h2.txEnableValid, h1.txEnableValid]
  · rw [h2.invert, h1.invert]
  · rw [h2.bitCycles, h1.bitCycles]
  · rw [h2.bufSize, h1.bufSize]
  · rw [h2.isrBufSize, h1.isrBufSize]
  · rw [h2.outPos, h1.outPos]
  · exact le_trans h1.lostBytes_le h2.lostBytes_le
  · exact le_trans h1.lostEdges_le h2.lostEdges_le
  · exact fun h => h2.ov_mono (h1.ov_mono h)
  · intro h
    by_cases h3 : s.lostBytes < t.lostBytes
    · exact h2.ov_mono (h1.ov_lost h3)
    · exact h2.ov_lost (by have := h1.lostBytes_le; omega)
  · intro h
    have a1 := h1.lostBytes_le
    have a2 := h2.lostBytes_le
    have a3 := h1.lostEdges_le
    have a4 := h2.lostEdges_le
    rcases h2.ov_src h with h | h | h | h
    · rcases h1.ov_src h with h | h | h | h
      · exact Or.inl h
      · exact Or.inr (Or.inl h)
      · exact Or.inr (Or.inr (Or.inl (by omega)))
      · exact Or.inr (Or.inr (Or.inr (by omega)))
    · rcases h1.isr_src h with h | h
      · exact Or.inr (Or.inl h)
      · exact Or.inr (Or.inr (Or.inr (by omega)))
    · exact Or.inr (Or.inr (Or.inl (by omega)))
    · exact Or.inr (Or.inr (Or.inr (by omega)))
  · intro h
    have a3 := h1.lostEdges_le
    have a4 := h2.lostEdges_le
    rcases h2.isr_src h with h | h
    · rcases h1.isr_src h with h | h
      · exact Or.inl h
      · exact Or.inr (by omega)
    · exact Or.inr (by omega)

theorem ext_rxHiddenBits (s : Port) (c : Int) : Ext s (rxHiddenBits s c).1 := by
  constructor <;> simp [rxHiddenBits] <;> tauto

theorem ext_rxDataBit (s : Port) (l : Bool) (c : Int) : Ext s (rxDataBit s l c).1 := by
  constructor <;> simp [rxDataBit] <;> tauto

theorem ext_rxStoreByte (s : Port) : Ext s (rxStoreByte s) := by
  unfold rxStoreByte
  constructor <;> (simp only []; split_ifs <;> simp <;> tauto)

theorem ext_startBit (s : Port) : Ext s { s with m_rxCurBit := -1 } := by
  constructor <;> simp <;> tauto

theorem ext_rxDataBits (s : Port) (l : Bool) (c : Int) : Ext s (rxDataBits s l c).1 := by
  unfold rxDataBits
  simp only []
  split_ifs
  · exact (ext_rxHiddenBits s c).extTrans (ext_rxDataBit _ l _)
  · exact ext_rxHiddenBits s c
  · exact ext_rxDataBit s l c
  · exact Ext.extRefl s

theorem rxBitLoop_succ (level : Bool) (fuel : Nat) (cycles : Int) (s : Port) :
    rxBitLoop level (fuel + 1) cycles s =
      if -1 ≤ s.m_rxCurBit ∧ s.m_rxCurBit < 7 then
        if cycles ≥ s.m_bitCycles ∧ s.m_bitCycles = 0 then none
        else if (rxDataBits s level cycles).2 ≥ 0 then
          rxBitLoop level fuel (rxDataBits s level cycles).2 (rxDataBits s level cycles).1
        else some (rxDataBits s level cycles).1
      else if s.m_rxCurBit = 7 then
        if toI32 (cycles - s.m_bitCycles) ≥ 0 then
          rxBitLoop level fuel (toI32 (cycles - s.m_bitCycles)) (rxStoreByte s)
        else some (rxStoreByte s)
      else if s.m_rxCurBit = 8 then
        some (if !level then { s with m_rxCurBit := -1 } else s)
      else some s := by
  rw [rxBitLoop]

theorem rxBitLoop_ext (level : Bool) :
    ∀ (fuel : Nat) (cycles : Int) (s t : Port),
      rxBitLoop level fuel cycles s = some t → Ext s t := by
  intro fuel
  induction fuel with
  | zero => intro cycles s t h; simp [rxBitLoop] at h
  | succ n ih =>
    intro cycles s t h
    rw [rxBitLoop_succ] at h
    split_ifs at h with h1 h2 h3 h4 h5 h6 h7
    · exact (ext_rxDataBits s level cycles).extTrans (ih _ _ _ h)
    · cases h; exact ext_rxDataBits s level cycles
    · exact (ext_rxStoreByte s).extTrans (ih _ _ _ h)
    · cases h; exact ext_rxStoreByte s
    · cases h; exact ext_startBit s
    · cases h; exact Ext.extRefl s
    · cases h; exact Ext.extRefl s

theorem ext_rxEvent {s t : Port} (h : rxEvent s = some t) : Ext s t := by
  unfold rxEvent at h
  refine Ext.extTrans ?_ (rxBitLoop_ext _ _ _ _ _ h)
  constructor <;> simp <;> tauto

theorem rxEvents_ext : ∀ (n : Nat) (s t : Port), rxEvents n s = some t → Ext s t := by
  intro n
  induction n with
  | zero => intro s t h; cases h; exact Ext.extRefl s
  | succ n ih =>
    intro s t h
    rw [rxEvents] at h
    cases h1 : rxEvent s with
    | none => simp [h1] at h
    | some u =>
      simp only [h1, Option.some_bind] at h
      exact (ext_rxEvent h1).extTrans (ih _ _ h)

theorem ext_rxLatch (s : Port) : Ext s (rxLatch s) := by
  unfold rxLatch
  constructor <;> (split_ifs <;> simp <;> tauto)

theorem ext_rxStopBit (s : Port) (a : Int) (c : Nat) : Ext s (rxStopBit s a c).1 := by
  unfold rxStopBit
  constructor <;> (simp only []; split_ifs <;> simp <;> tauto)

theorem rxBits_ext {s t : Port} {c : Nat} (h : rxBits s c = some t) : Ext s t := by
  unfold rxBits at h
  simp only [] at h
  split_ifs at h
  all_goals exact ((ext_rxLatch s).extTrans (ext_rxStopBit _ _ _)).extTrans (rxEvents_ext _ _ _ h)

/-- A pending edge overflow is moved into `m_overflow` by every decode pass. -/
theorem rxBits_latch {s t : Port} {c : Nat} (h : rxBits s c = some t)
    (hp : s.m_isrOverflow = true) : t.m_overflow = true := by
  unfold rxBits at h
  simp only [] at h
  have h0 : (rxLatch s).m_overflow = true := by simp [rxLatch, hp]
  split_ifs at h
  all_goals exact ((ext_rxStopBit _ _ _).extTrans (rxEvents_ext _ _ _ h)).ov_mono h0

theorem Grow.growRefl {s : Port} (h : s.wf) : Grow s s := ⟨h, [], by simp⟩

theorem Grow.growTrans {s t u : Port} (h1 : Grow s t) (h2 : Grow t u) : Grow s u := by
  refine ⟨h2.wf, ?_⟩
  obtain ⟨l1, e1⟩ := h1.queue
  obtain ⟨l2, e2⟩ := h2.queue
  exact ⟨l1 ++ l2, by rw [e2, e1, List.append_assoc]⟩

theorem tdiv_pos_of_le {c b : Int} (hb : 1 ≤ b) (hc : b ≤ c) : 1 ≤ Int.tdiv c b := by
  rw [Int.tdiv_eq_ediv (by omega) (by omega)]
  exact Int.le_ediv_of_mul_le (by omega) (by omega)

/-- The data bit branch keeps the byte queue, and moves `m_rxCurBit` forward
without passing 7. -/
theorem rxDataBits_spec (s : Port) (level : Bool) (cycles : Int) (hb : 1 ≤ s.m_bitCycles)
    (h1 : -1 ≤ s.m_rxCurBit) (h2 : s.m_rxCurBit < 7) :
    let t := (rxDataBits s level cycles).1
    s.m_rxCurBit < t.m_rxCurBit ∧ t.m_rxCurBit ≤ 7 ∧ t.m_inPos = s.m_inPos ∧
      t.m_buffer = s.m_buffer ∧ t.m_isrInPos = s.m_isrInPos ∧ t.m_isrOutPos = s.m_isrOutPos ∧
      t.m_isrBuffer = s.m_isrBuffer ∧ t.m_lastCycle = s.m_lastCycle := by
  unfold rxDataBits
  simp only []
  by_cases hc : cycles ≥ s.m_bitCycles
  · have hd := tdiv_pos_of_le hb hc
    simp only [hc, if_true]
    unfold rxHiddenBits rxDataBit
    simp only []
    split_ifs <;> simp <;> omega
  · simp only [hc, if_false, h2, if_true]
    unfold rxDataBit
    simp
    omega

theorem queued_congr {s t : Port} (h1 : t.m_buffer = s.m_buffer) (h2 : t.m_inPos = s.m_inPos)
    (h3 : t.m_outPos = s.m_outPos) (h4 : t.m_bufSize = s.m_bufSize) : queued t = queued s := by
  unfold queued; rw [h1, h2, h3, h4]

/-- Byte finalisation appends the accumulator to the byte queue, or, when the
buffer is full, leaves the queue alone. -/
theorem rxStoreByte_queued (s : Port) (hi : s.m_inPos < s.m_bufSize)
    (ho : s.m_outPos < s.m_bufSize) :
    queued (rxStoreByte s) =
      if (s.m_inPos + 1) % s.m_bufSize ≠ s.m_outPos then queued s ++ [s.m_rxCurByte % 256]
      else queued s := by
  unfold rxStoreByte
  simp only []
  split_ifs with h
  · unfold queued
    simp only []
    rw [ringSeq_push _ _ hi ho h]
    simp
  · rfl

theorem rxStoreByte_wf (s : Port) (h : s.wf) : (rxStoreByte s).wf := by
  obtain ⟨h1, h2, h3, h4, h5, h6, h7⟩ := h
  have := succ_mod_lt h1
  unfold rxStoreByte
  simp only []
  split_ifs <;> exact ⟨by simpa, h2, h3, h4, h5, by simp, by simp⟩

theorem grow_rxStoreByte (s : Port) (h : s.wf) : Grow s (rxStoreByte s) := by
  refine ⟨rxStoreByte_wf s h, ?_⟩
  rw [rxStoreByte_queued s h.1 h.2.1]
  split_ifs
  · exact ⟨_, rfl⟩
  · exact ⟨[], by simp⟩

theorem grow_rxDataBits (s : Port) (level : Bool) (cycles : Int) (h : s.wf)
    (h2 : s.m_rxCurBit < 7) : Grow s (rxDataBits s level cycles).1 := by
  have e := ext_rxDataBits s level cycles
  have sp := rxDataBits_spec s level cycles h.2.2.2.2.1 h.2.2.2.2.2.1 h2
  simp only [] at sp
  obtain ⟨a1, a2, a3, a4, a5, a6, a7, a8⟩ := sp
  obtain ⟨h1, h2, h3, h4, h5, h6, h7⟩ := h
  refine ⟨⟨?_, ?_, ?_, ?_, ?_, ?_, ?_⟩, [], ?_⟩
  · rw [a3, e.bufSize]; exact h1
  · rw [e.outPos, e.bufSize]; exact h2
  · rw [a5, e.isrBufSize]; exact h3
  · rw [a6, e.isrBufSize]; exact h4
  · rw [e.bitCycles]; exact h5
  · omega
  · omega
  · rw [List.append_nil]; exact queued_congr a4 a3 e.outPos e.bufSize

theorem IsrSame.isrRefl (s : Port) : IsrSame s s := ⟨rfl, rfl, rfl, rfl⟩

theorem IsrSame.isrTrans {s t u : Port} (h1 : IsrSame s t) (h2 : IsrSame t u) : IsrSame s u :=
  ⟨h2.isrInPos.trans h1.isrInPos, h2.isrOutPos.trans h1.isrOutPos,
   h2.isrBuffer.trans h1.isrBuffer, h2.lastCycle.trans h1.lastCycle⟩

theorem isrSame_rxStoreByte (s : Port) : IsrSame s (rxStoreByte s) := by
  unfold rxStoreByte
  constructor <;> (simp only []; split_ifs <;> rfl)

theorem isrSame_rxDataBits (s : Port) (level : Bool) (cycles : Int) :
    IsrSame s (rxDataBits s level cycles).1 := by
  unfold rxDataBits rxHiddenBits rxDataBit
  constructor <;> (simp only []; split_ifs <;> rfl)

/-- The decode loop of one event returns whenever the bit period is positive
and the fuel covers the bits still missing. -/
theorem rxBitLoop_total (level : Bool) :
    ∀ (fuel : Nat) (cycles : Int) (s : Port), s.wf → 9 - s.m_rxCurBit ≤ fuel →
      ∃ t, rxBitLoop level fuel cycles s = some t ∧ Grow s t ∧ IsrSame s t := by
  intro fuel
  induction fuel with
  | zero => intro cycles s h hf; have := h.2.2.2.2.2.2; omega
  | succ n ih =>
    intro cycles s h hf
    have hb := h.2.2.2.2.1
    rw [rxBitLoop_succ]
    split_ifs with h1 h2 h3 h4 h5 h6 h7
    · omega
    · have sp := rxDataBits_spec s level cycles hb h1.1 h1.2
      simp only [] at sp
      have g := grow_rxDataBits s level cycles h h1.2
      obtain ⟨t, e, g2, i2⟩ := ih (rxDataBits s level cycles).2 _ g.wf (by omega)
      exact ⟨t, e, g.growTrans g2, (isrSame_rxDataBits s level cycles).isrTrans i2⟩
    · exact ⟨_, rfl, grow_rxDataBits s level cycles h h1.2, isrSame_rxDataBits s level cycles⟩
    · have g := grow_rxStoreByte s h
      have hc : (rxStoreByte s).m_rxCurBit = 8 := by
        unfold rxStoreByte; simp only []; split_ifs <;> rfl
      obtain ⟨t, e, g2, i2⟩ := ih (toI32 (cycles - s.m_bitCycles)) _ g.wf (by omega)
      exact ⟨t, e, g.growTrans g2, (isrSame_rxStoreByte s).isrTrans i2⟩
    · exact ⟨_, rfl, grow_rxStoreByte s h, isrSame_rxStoreByte s⟩
    · refine ⟨_, rfl, ⟨?_, [], ?_⟩, ⟨rfl, rfl, rfl, rfl⟩⟩
      · obtain ⟨a1, a2, a3, a4, a5, a6, a7⟩ := h
        exact ⟨a1, a2, a3, a4, a5, by simp, by simp⟩
      · rw [List.append_nil]; rfl
    · exact ⟨_, rfl, Grow.growRefl h, IsrSame.isrRefl s⟩
    · exact ⟨_, rfl, Grow.growRefl h, IsrSame.isrRefl s⟩

theorem rxEvent_total (s : Port) (h : s.wf) :
    ∃ t, rxEvent s = some t ∧ Grow s t ∧ t.m_isrInPos = s.m_isrInPos ∧
      t.m_isrBuffer = s.m_isrBuffer ∧
      t.m_isrOutPos = (s.m_isrOutPos + 1) % s.m_isrBufSize := by
  unfold rxEvent
  simp only []
  obtain ⟨a1, a2, a3, a4, a5, a6, a7⟩ := h
  have hw : Port.wf { s with m_isrOutPos := (s.m_isrOutPos + 1) % s.m_isrBufSize,
                             m_lastCycle := s.m_isrBuffer s.m_isrOutPos } :=
    ⟨a1, a2, a3, succ_mod_lt a4, a5, a6, a7⟩
  obtain ⟨t, e, g, i⟩ := rxBitLoop_total _ loopFuel _ _ hw (by simp [loopFuel]; omega)
  refine ⟨t, e, ⟨g.wf, ?_⟩, i.isrInPos, i.isrBuffer, i.isrOutPos⟩
  obtain ⟨l, hl⟩ := g.queue
  exact ⟨l, hl⟩

theorem rxEvents_total : ∀ (n : Nat) (s : Port), s.wf →
    ∃ t, rxEvents n s = some t ∧ Grow s t := by
  intro n
  induction n with
  | zero => intro s h; exact ⟨s, rfl, Grow.growRefl h⟩
  | succ n ih =>
    intro s h
    obtain ⟨t, e, g, _⟩ := rxEvent_total s h
    obtain ⟨u, e2, g2⟩ := ih t g.wf
    exact ⟨u, by rw [rxEvents, e]; exact e2, g.growTrans g2⟩

theorem grow_rxLatch (s : Port) (h : s.wf) : Grow s (rxLatch s) := by
  unfold rxLatch
  split_ifs
  · exact ⟨h, [], by rw [List.append_nil]; rfl⟩
  · exact Grow.growRefl h

theorem grow_rxStopBit (s : Port) (a : Int) (c : Nat) (h : s.wf) :
    Grow s (rxStopBit s a c).1 := by
  obtain ⟨a1, a2, a3, a4, a5, a6, a7⟩ := h
  have := succ_mod_lt a3
  unfold rxStopBit
  simp only []
  split_ifs
  · exact ⟨⟨a1, a2, by simpa, a4, a5, a6, a7⟩, [], by rw [List.append_nil]; rfl⟩
  · exact ⟨⟨a1, a2, a3, a4, a5, a6, a7⟩, [], by rw [List.append_nil]; rfl⟩
  · exact Grow.growRefl ⟨a1, a2, a3, a4, a5, a6, a7⟩
  · exact Grow.growRefl ⟨a1, a2, a3, a4, a5, a6, a7⟩

theorem rxStopBit_avail (s : Port) (a : Int) (c : Nat) (ha : 0 ≤ a) : 0 ≤ (rxStopBit s a c).2 := by
  unfold rxStopBit
  simp only []
  split_ifs <;> simp <;> omega

/-- The queued edge count computed at the head of `rxBits`. -/
theorem avail_eq_ringCount {i o size : Nat} (ho : o < size) :
    (if ((i : Int) - o) < 0 then ((i : Int) - o) + size else (i : Int) - o)
      = (ringCount i o size : Int) := by
  unfold ringCount
  split_ifs <;> omega

/-- A decode pass on a well-formed port returns, keeps the port well-formed
and only appends to the byte queue. -/
theorem rxBits_total (s : Port) (c : Nat) (h : s.wf) :
    ∃ t, rxBits s c = some t ∧ Grow s t := by
  unfold rxBits
  simp only []
  rw [avail_eq_ringCount h.2.2.2.1]
  have g1 := grow_rxLatch s h
  have g2 := grow_rxStopBit (rxLatch s) (ringCount s.m_isrInPos s.m_isrOutPos s.m_isrBufSize) c g1.wf
  have hn := rxStopBit_avail (rxLatch s) (ringCount s.m_isrInPos s.m_isrOutPos s.m_isrBufSize) c
    (by omega)
  rw [if_neg (by omega)]
  obtain ⟨t, e, g3⟩ := rxEvents_total _ _ g2.wf
  exact ⟨t, e, (g1.growTrans g2).growTrans g3⟩

/-! ## The read interface: general facts -/

theorem queued_eq_nil_iff (s : Port) (hi : s.m_inPos < s.m_bufSize) (ho : s.m_outPos < s.m_bufSize) :
    queued s = [] ↔ s.m_inPos = s.m_outPos := by
  unfold queued ringSeq
  simp only [List.map_eq_nil_iff, List.range_eq_nil]
  exact ringCount_eq_zero hi ho

theorem queued_pop (s : Port) (hi : s.m_inPos < s.m_bufSize) (ho : s.m_outPos < s.m_bufSize)
    (hne : s.m_inPos ≠ s.m_outPos) :
    queued s = (s.m_buffer s.m_outPos % 256) :: queued s.pop := by
  unfold queued Port.pop
  simp only []
  rw [ringSeq_pop _ hi ho hne]
  rfl

theorem queued_length (s : Port) :
    (queued s).length = ringCount s.m_inPos s.m_outPos s.m_bufSize := by
  simp [queued, ringSeq]

theorem read_nonempty (s : Port) (c : Nat) (hv : s.m_rxValid = true)
    (hne : s.m_inPos ≠ s.m_outPos) :
    read s c = some (((s.m_buffer s.m_outPos % 256 : Nat) : Int), s.pop) := by
  unfold read
  simp [hv, hne, Port.pop]

theorem read_empty (s : Port) (c : Nat) (hv : s.m_rxValid = true)
    (he : s.m_inPos = s.m_outPos) :
    read s c = (rxBits s c).bind fun s1 =>
      if s1.m_inPos = s1.m_outPos then some (-1, s1)
      else some (((s1.m_buffer s1.m_outPos % 256 : Nat) : Int), s1.pop) := by
  unfold read
  simp [hv, he, Port.pop]

theorem pop_wf (s : Port) (h : s.wf) : s.pop.wf := by
  obtain ⟨a1, a2, a3, a4, a5, a6, a7⟩ := h
  exact ⟨a1, succ_mod_lt a2, a3, a4, a5, a6, a7⟩

theorem queued_lt (s : Port) : ∀ v ∈ queued s, v < 256 := by
  intro v hv
  unfold queued at hv
  simp only [List.mem_map] at hv
  obtain ⟨a, _, rfl⟩ := hv
  exact Nat.mod_lt _ (by norm_num)

theorem pop_drain (s : Port) : ({ s.pop with m_outPos := s.pop.m_inPos } : Port)
    = { s with m_outPos := s.m_inPos } := rfl

/-- Reading as many times as bytes are queued returns the queue, oldest byte
first, and changes nothing but the read index. -/
theorem reads_queue : ∀ (cs : List Nat) (s : Port), s.m_rxValid = true → s.wf →
    cs.length = (queued s).length →
    reads cs s = some ((queued s).map Int.ofNat, { s with m_outPos := s.m_inPos }) := by
  intro cs
  induction cs with
  | nil =>
    intro s _ h hl
    have hq : queued s = [] := List.length_eq_zero.mp hl.symm
    have he := (queued_eq_nil_iff s h.1 h.2.1).mp hq
    rw [hq, reads]
    simp only [List.map_nil, Option.some.injEq, Prod.mk.injEq, true_and]
    cases s
    simp only at he
    subst he
    rfl
  | cons c cs ih =>
    intro s hv h hl
    have hne : s.m_inPos ≠ s.m_outPos := by
      intro hc
      rw [(queued_eq_nil_iff s h.1 h.2.1).mpr hc] at hl
      simp at hl
    have hq := queued_pop s h.1 h.2.1 hne
    rw [hq] at hl ⊢
    simp only [List.length_cons, Nat.add_right_cancel_iff] at hl
    rw [reads, read_nonempty s c hv hne]
    simp only [Option.some_bind]
    rw [ih s.pop hv (pop_wf s h) hl, pop_drain]
    rfl

theorem avail_eq_emod {i o size : Nat} (hi : i < size) (ho : o < size) :
    (ringCount i o size : Int) = ((i : Int) - o) % size := by
  unfold ringCount
  split_ifs with h
  · rw [← Int.add_mul_emod_self_left (↑i - ↑o) (↑size) 1, Int.emod_eq_of_lt] <;> omega
  · rw [Int.emod_eq_of_lt] <;> omega

/-- Value and final state of `available` in terms of its decode passes. -/
theorem available_eq (s : Port) (c1 c2 : Nat) (hv : s.m_rxValid = true) (h : s.wf) :
    ∃ t, available s c1 c2 = some ((ringCount t.m_inPos t.m_outPos t.m_bufSize : Int), t) ∧
      Grow s t ∧ Ext s t := by
  obtain ⟨s1, e1, g1⟩ := rxBits_total s c1 h
  have x1 := rxBits_ext e1
  unfold available
  simp only [hv, Bool.not_true, Bool.false_eq_true, if_false, e1, Option.some_bind]
  by_cases h0 : (s1.m_inPos : Int) - s1.m_outPos = 0
  · obtain ⟨s2, e2, g2⟩ := rxBits_total s1 c2 g1.wf
    have x2 := rxBits_ext e2
    refine ⟨s2, ?_, g1.growTrans g2, x1.extTrans x2⟩
    simp only [h0, if_true, e2, Option.some_bind]
    rw [avail_eq_ringCount g2.wf.2.1]
  · refine ⟨s1, ?_, g1, x1⟩
    simp only [h0, if_false]
    rw [avail_eq_ringCount g1.wf.2.1]

/-- The decode passes of `available`: one pass, and a second one when the first
leaves the byte buffer empty; the value returned is the number of bytes queued
in the state that the last pass leaves. -/
theorem available_passes (s : Port) (c1 c2 : Nat) (hv : s.m_rxValid = true) (h : s.wf) :
    ∃ s1 t, rxBits s c1 = some s1 ∧
      (if s1.m_inPos = s1.m_outPos then rxBits s1 c2 = some t else t = s1) ∧
      available s c1 c2 = some ((ringCount t.m_inPos t.m_outPos t.m_bufSize : Int), t) ∧
      Grow s t ∧ Ext s t := by
  obtain ⟨s1, e1, g1⟩ := rxBits_total s c1 h
  have x1 := rxBits_ext e1
  unfold available
  simp only [hv, Bool.not_true, Bool.false_eq_true, if_false, e1, Option.some_bind]
  by_cases h0 : s1.m_inPos = s1.m_outPos
  · have h0i : (s1.m_inPos : Int) - s1.m_outPos = 0 := by omega
    obtain ⟨s2, e2, g2⟩ := rxBits_total s1 c2 g1.wf
    have x2 := rxBits_ext e2
    refine ⟨s1, s2, rfl, by rw [if_pos h0]; exact e2, ?_, g1.growTrans g2, x1.extTrans x2⟩
    simp only [h0i, if_true, e2, Option.some_bind]
    rw [avail_eq_ringCount g2.wf.2.1]
  · have h0i : ¬ ((s1.m_inPos : Int) - s1.m_outPos = 0) := by omega
    refine ⟨s1, s1, rfl, by rw [if_neg h0], ?_, g1, x1⟩
    simp only [h0i, if_false]
    rw [avail_eq_ringCount g1.wf.2.1]

/-- With an empty edge queue and no stop bit timeout due, a decode pass only
moves a pending edge overflow into `m_overflow`. -/
theorem rxBits_idle (s : Port) (c : Nat) (he : s.m_isrInPos = s.m_isrOutPos)
    (hd : ¬ stopBitDue s c) : rxBits s c = some (rxLatch s) := by
  have h1 : (rxLatch s).m_rxCurBit = s.m_rxCurBit := by unfold rxLatch; split_ifs <;> rfl
  have h2 : (rxLatch s).m_lastCycle = s.m_lastCycle := by unfold rxLatch; split_ifs <;> rfl
  have h3 : (rxLatch s).m_bitCycles = s.m_bitCycles := by unfold rxLatch; split_ifs <;> rfl
  have hs : rxStopBit (rxLatch s) 0 c = (rxLatch s, 0) := by
    unfold rxStopBit
    simp only [h1, h2, h3]
    split_ifs with a b
    · exact absurd ⟨a.2.2.2, a.2.1, b⟩ hd
    · exfalso; exact hd ⟨a.2.2.2, a.2.1, b⟩
    · rfl
    · rfl
  unfold rxBits
  simp only [he, sub_self, lt_self_iff_false, if_false, hs]
  rfl

theorem rxLatch_idem (s : Port) : rxLatch (rxLatch s) = rxLatch s := by
  unfold rxLatch
  split_ifs <;> simp_all

theorem rxLatch_of_clear (s : Port) (h : s.m_isrOverflow = false) : rxLatch s = s := by
  unfold rxLatch; simp [h]

theorem stopBitDue_rxLatch (s : Port) (c : Nat) : stopBitDue (rxLatch s) c ↔ stopBitDue s c := by
  unfold rxLatch; split_ifs <;> rfl

theorem stopBitDue_flush (s : Port) (c : Nat) : stopBitDue (flush s) c ↔ stopBitDue s c := Iff.rfl

theorem ext_rxRead (s : Port) (c : Nat) (l : Bool) : Ext s (rxRead s c l) := by
  unfold rxRead
  constructor <;> (simp only []; split_ifs <;> simp <;> tauto)

theorem Ext.toExt2 {s t : Port} (h : Ext s t) : Ext2 s t :=
  ⟨h.lostBytes_le, h.lostEdges_le, h.ov_src, h.isr_src⟩

theorem Ext2.ext2Refl (s : Port) : Ext2 s s := (Ext.extRefl s).toExt2

theorem Ext2.afterPop {s t : Port} (h : Ext2 s t) : Ext2 s t.pop :=
  ⟨h.lostBytes_le, h.lostEdges_le, h.ov_src, h.isr_src⟩

theorem read_ext2 {s : Port} {c : Nat} {r : Int × Port} (h : read s c = some r) : Ext2 s r.2 := by
  unfold read at h
  split_ifs at h with h1 h2
  · cases h; exact Ext2.ext2Refl s
  · cases e : rxBits s c with
    | none => simp [e] at h
    | some s1 =>
      have x := (rxBits_ext e).toExt2
      simp only [e, Option.some_bind] at h
      split_ifs at h
      · cases h; exact x
      · cases h; exact x.afterPop
  · cases h; exact (Ext2.ext2Refl s).afterPop

theorem peek_ext2 {s : Port} {c : Nat} {r : Int × Port} (h : peek s c = some r) : Ext2 s r.2 := by
  unfold peek at h
  split_ifs at h with h1
  · cases h; exact Ext2.ext2Refl s
  · cases e : rxBits s c with
    | none => simp [e] at h
    | some s1 =>
      have x := (rxBits_ext e).toExt2
      simp only [e, Option.some_bind] at h
      split_ifs at h <;> (cases h; exact x)

theorem available_ext2 {s : Port} {c1 c2 : Nat} {r : Int × Port}
    (h : available s c1 c2 = some r) : Ext2 s r.2 := by
  unfold available at h
  by_cases h1 : (!s.m_rxValid) = true
  · rw [if_pos h1] at h; cases h; exact Ext2.ext2Refl s
  · rw [if_neg h1] at h
    cases e : rxBits s c1 with
    | none => simp [e] at h
    | some s1 =>
      have x := rxBits_ext e
      simp only [e, Option.some_bind] at h
      by_cases h0 : (s1.m_inPos : Int) - s1.m_outPos = 0
      · rw [if_pos h0] at h
        cases e2 : rxBits s1 c2 with
        | none => simp [e2] at h
        | some s2 =>
          simp only [e2, Option.some_bind] at h
          cases h
          exact (x.extTrans (rxBits_ext e2)).toExt2
      · rw [if_neg h0] at h
        cases h; exact x.toExt2

theorem Ext2.ext2Trans {s t u : Port} (h1 : Ext2 s t) (h2 : Ext2 t u) : Ext2 s u := by
  have a1 := h1.lostBytes_le
  have a2 := h2.lostBytes_le
  have a3 := h1.lostEdges_le
  have a4 := h2.lostEdges_le
  refine ⟨by omega, by omega, ?_, ?_⟩
  · intro h
    rcases h2.ov_src h with h | h | h | h
    · rcases h1.ov_src h with h | h | h | h
      · exact Or.inl h
      · exact Or.inr (Or.inl h)
      · exact Or.inr (Or.inr (Or.inl (by omega)))
      · exact Or.inr (Or.inr (Or.inr (by omega)))
    · rcases h1.isr_src h with h | h
      · exact Or.inr (Or.inl h)
      · exact Or.inr (Or.inr (Or.inr (by omega)))
    · exact Or.inr (Or.inr (Or.inl (by omega)))
    · exact Or.inr (Or.inr (Or.inr (by omega)))
  · intro h
    rcases h2.isr_src h with h | h
    · rcases h1.isr_src h with h | h
      · exact Or.inl h
      · exact Or.inr (by omega)
    · exact Or.inr (by omega)

theorem run_ext2 {k : RxCall} {s t : Port} (h : k.run s = some t) : Ext2 s t := by
  cases k with
  | read c =>
    cases e : read s c with
    | none => simp [RxCall.run, e] at h
    | some r => rw [RxCall.run, e] at h; cases h
                exact read_ext2 e
  | peek c =>
    cases e : peek s c with
    | none => simp [RxCall.run, e] at h
    | some r => rw [RxCall.run, e] at h; cases h
                exact peek_ext2 e
  | available c1 c2 =>
    cases e : available s c1 c2 with
    | none => simp [RxCall.run, e] at h
    | some r => rw [RxCall.run, e] at h; cases h
                exact available_ext2 e
  | rxRead c l =>
    simp only [RxCall.run, Option.some.injEq] at h
    subst h
    exact (ext_rxRead s c l).toExt2

theorem runCalls_ext2 : ∀ (ks : List RxCall) (s t : Port), runCalls ks s = some t → Ext2 s t := by
  intro ks
  induction ks with
  | nil => intro s t h; cases h; exact Ext2.ext2Refl s
  | cons k ks ih =>
    intro s t h
    rw [runCalls] at h
    cases e : k.run s with
    | none => simp [e] at h
    | some u =>
      simp only [e, Option.some_bind] at h
      exact (run_ext2 e).ext2Trans (ih _ _ h)

/-- If at neither decode pass a stop bit timeout is due for a byte in assembly,
and no edge is captured in between, `flush()` followed by `available()`
returns 0. -/
theorem flush_available (s : Port) (c1 c2 : Nat) (h1 : ¬ stopBitDue s c1)
    (h2 : ¬ stopBitDue s c2) :
    ∃ t, available (flush s) c1 c2 = some (0, t) := by
  by_cases hv : s.m_rxValid = true
  · have e1 : rxBits (flush s) c1 = some (rxLatch (flush s)) :=
      rxBits_idle _ _ rfl ((stopBitDue_flush s c1).not.mpr h1)
    have e2 : rxBits (rxLatch (flush s)) c2 = some (rxLatch (rxLatch (flush s))) := by
      apply rxBits_idle
      · unfold rxLatch flush; split_ifs <;> rfl
      · rw [stopBitDue_rxLatch]; exact (stopBitDue_flush s c2).not.mpr h2
    have p1 : (rxLatch (flush s)).m_inPos = 0 := by unfold rxLatch flush; split_ifs <;> rfl
    have p2 : (rxLatch (flush s)).m_outPos = 0 := by unfold rxLatch flush; split_ifs <;> rfl
    refine ⟨rxLatch (flush s), ?_⟩
    unfold available
    have hv2 : (flush s).m_rxValid = true := hv
    simp only [hv2, Bool.not_true, Bool.false_eq_true, if_false, e1, Option.some_bind, p1, p2,
      e2, rxLatch_idem]
    simp
  · refine ⟨flush s, ?_⟩
    unfold available
    have hv2 : (flush s).m_rxValid = false := by simpa using hv
    simp [hv2]

/-! ## The transmitter: general facts -/

theorem toU32_lt (x : Int) : toU32 x < 4294967296 := by
  unfold toU32
  have := Int.emod_lt_of_pos x (show (0 : Int) < 4294967296 by norm_num)
  have := Int.emod_nonneg x (show (4294967296 : Int) ≠ 0 by norm_num)
  omega

theorem toU32_cast (x : Int) : ((toU32 x : Nat) : Int) = x % 4294967296 := by
  unfold toU32
  exact Int.toNat_of_nonneg (Int.emod_nonneg x (by norm_num))

theorem toU32_add_left (a b : Int) : toU32 ((toU32 a : Int) + b) = toU32 (a + b) := by
  unfold toU32
  rw [Int.toNat_of_nonneg (Int.emod_nonneg a (by norm_num)), Int.emod_add_emod]

theorem toU32_of_range {x : Int} (h0 : 0 ≤ x) (h1 : x < 4294967296) : (toU32 x : Int) = x := by
  rw [toU32_cast, Int.emod_eq_of_lt h0 h1]

theorem toU32_sub_left (a b : Int) : toU32 ((toU32 a : Int) - b) = toU32 (a - b) := by
  unfold toU32
  omega

/-- The bit loop of `write` at any bit period is its one-cycle trace, re-timed. -/
theorem txBits_retime (txPin : Int) (invert : Bool) (B : Int) (t0 : Nat) :
    ∀ (n i : Nat) (b : Bool) (o : Nat), i + n ≤ 9 →
      txBits txPin invert B n i b o (toU32 (t0 + ((i + 1 : Nat) : Int) * B))
        = (txBits 0 invert 1 n i b o (i + 1)).map (retime txPin t0 B) := by
  intro n
  induction n with
  | zero => intro i b o _; simp [txBits, retime]
  | succ n ih =>
    intro i b o hi
    have e1 : toU32 ((toU32 (t0 + ((i + 1 : Nat) : Int) * B) : Int) + B)
        = toU32 (t0 + ((i + 1 + 1 : Nat) : Int) * B) := by
      rw [toU32_add_left]; congr 1; push_cast; ring
    have e2 : toU32 (((i + 1 : Nat) : Int) + 1) = i + 1 + 1 := by
      have := toU32_of_range (x := ((i + 1 : Nat) : Int) + 1) (by omega) (by omega)
      omega
    rw [txBits, txBits]
    simp only [e1, e2]
    split_ifs <;> simp only [List.map_cons, retime, ih (i + 1) _ _ (show i + 1 + n ≤ 9 by omega)]

/-- The trace of one byte at any bit period is its one-cycle trace, re-timed. -/
theorem txByte_retime (txPin : Int) (invert : Bool) (B : Int) (t0 : Nat) (byte : Nat)
    (ht : t0 < 4294967296) :
    txByte txPin invert B t0 byte = (txByte 0 invert 1 0 byte).map (retime txPin t0 B) := by
  unfold txByte
  simp only [List.map_cons, retime]
  have e0 : toU32 ((t0 : Int) + ((0 : Nat) : Int) * B) = t0 := by
    have := toU32_of_range (x := (t0 : Int) + ((0 : Nat) : Int) * B) (by simp) (by simp; omega)
    simp at this ⊢; omega
  have e1 : toU32 ((t0 : Int) + B) = toU32 (t0 + ((0 + 1 : Nat) : Int) * B) := by simp
  have e2 : toU32 (((0 : Nat) : Int) + 1) = 0 + 1 := by decide
  rw [e0, e1, e2, txBits_retime txPin invert B t0 9 0 _ _ (by omega)]

theorem pinEvents_txBits (txPin : Int) (invert : Bool) (B : Int) (t0 : Nat) :
    ∀ (n i : Nat) (b : Bool) (o : Nat) (t : Nat), i + n ≤ 9 →
      pinEvents txPin (toU32 (t0 + t * B))
          (txBits txPin invert B n i b o (toU32 (t0 + ((i + 1 : Nat) : Int) * B)))
        = (pinEvents 0 t (txBits 0 invert 1 n i b o (i + 1))).map (slotTime t0 B) := by
  intro n
  induction n with
  | zero => intro i b o t _; simp [txBits, pinEvents]
  | succ n ih =>
    intro i b o t hi
    have e1 : toU32 ((toU32 (t0 + ((i + 1 : Nat) : Int) * B) : Int) + B)
        = toU32 (t0 + ((i + 1 + 1 : Nat) : Int) * B) := by
      rw [toU32_add_left]; congr 1; push_cast; ring
    have e2 : toU32 (((i + 1 : Nat) : Int) + 1) = i + 1 + 1 := by
      have := toU32_of_range (x := ((i + 1 : Nat) : Int) + 1) (by omega) (by omega)
      omega
    rw [txBits, txBits]
    simp only [e1, e2]
    split_ifs
    · exact ih (i + 1) _ _ t (by omega)
    · simp only [pinEvents, if_true, List.map_cons]
      rw [ih (i + 1) _ _ (i + 1) (by omega)]
      rfl
    · exact ih (i + 1) _ _ t (by omega)
    · simp only [pinEvents, if_true, List.map_cons]
      rw [ih (i + 1) _ _ (i + 1) (by omega)]
      rfl

/-- The level changes of one byte are those of `frameEdges`, slot `k` being
scheduled at `t0 + k * m_bitCycles` modulo `2^32`. -/
theorem pinEvents_txByte (txPin : Int) (invert : Bool) (B : Int) (t0 : Nat) (byte : Nat)
    (ht : t0 < 4294967296) (t : Nat) :
    pinEvents txPin t (txByte txPin invert B t0 byte)
      = (frameEdges invert byte).map (slotTime t0 B) := by
  have e0 : toU32 ((t0 : Int) + ((0 : Nat) : Int) * B) = t0 := by
    have := toU32_of_range (x := (t0 : Int) + ((0 : Nat) : Int) * B) (by simp) (by simp; omega)
    simp at this ⊢; omega
  have e1 : toU32 ((t0 : Int) + B) = toU32 (t0 + ((0 + 1 : Nat) : Int) * B) := by simp
  have e2 : toU32 (((0 : Nat) : Int) + 1) = 0 + 1 := by decide
  unfold frameEdges txByte
  simp only [pinEvents, if_true, List.map_cons]
  have h := pinEvents_txBits txPin invert B t0 9 0 invert
    (if invert then 255 - byte % 256 else byte % 256) 0 (by omega)
  rw [e0] at h
  have e0b : toU32 (t0 : Int) = t0 := by simpa using e0
  rw [e1, e2, h]
  simp [slotTime, e0b]

theorem levelAt_slotTime (t0 : Nat) (B : Int) (x k : Nat) (hB : 1 ≤ B)
    (hB9 : 9 * B < 4294967296) (hlo : (k : Int) * B ≤ x) (hhi : (x : Int) < (k + 1) * B) :
    ∀ (events : List (Nat × Bool)) (cur : Bool), (∀ e ∈ events, e.1 ≤ 9) →
      levelAt t0 x cur (events.map (slotTime t0 B)) = slotLevel k cur events := by
  intro events
  induction events with
  | nil => intro cur _; rfl
  | cons e r ih =>
    intro cur he
    have h9 : e.1 ≤ 9 := he e (List.mem_cons_self _ _)
    have hr : ∀ e ∈ r, e.1 ≤ 9 := fun a ha => he a (List.mem_cons_of_mem _ ha)
    have hm : (e.1 : Int) * B ≤ 9 * B := by nlinarith
    have hm0 : 0 ≤ (e.1 : Int) * B := by positivity
    have off : (toU32 (((slotTime t0 B e).1 : Int) - t0) : Int) = e.1 * B := by
      unfold slotTime
      simp only []
      rw [toU32_sub_left]
      have := toU32_of_range (x := (t0 : Int) + e.1 * B - t0) (by omega) (by omega)
      rw [this]; ring
    have key : toU32 (((slotTime t0 B e).1 : Int) - t0) ≤ x ↔ e.1 ≤ k := by
      constructor
      · intro h
        by_contra hc
        have : (k : Int) + 1 ≤ e.1 := by omega
        have : ((k : Int) + 1) * B ≤ e.1 * B := by nlinarith
        omega
      · intro h
        have : (e.1 : Int) * B ≤ k * B := by
          have : (e.1 : Int) ≤ k := by omega
          nlinarith
        omega
    unfold levelAt slotLevel at ih ⊢
    simp only [List.map_cons, List.foldl_cons]
    by_cases hk : e.1 ≤ k
    · rw [if_pos (key.mpr hk), if_pos hk]; exact ih _ hr
    · rw [if_neg (fun h => hk (key.mp h)), if_neg hk]; exact ih _ hr

/-- Slot by slot, the frame of every byte is: start level, data bits least
significant first, stop level; and every request lies in slots 0 to 9. -/
theorem frameEdges_levels :
    ∀ inv : Bool, ∀ byte < 256, (∀ e ∈ frameEdges inv byte, e.1 ≤ 9) ∧ ∀ k < 10, ∀ cur : Bool,
      slotLevel k cur (frameEdges inv byte)
        = if k = 0 then inv else if k ≤ 8 then (byte.testBit (k - 1) != inv) else !inv := by
  decide!

/-! ## One edge event against its slot level description -/

theorem toI32_of_range {x : Int} (h0 : -2147483648 ≤ x) (h1 : x < 2147483648) : toI32 x = x := by
  unfold toI32; omega

theorem tdiv_eq_of_bounds {x B q : Int} (hB : 0 < B) (hq : 0 ≤ q) (h1 : q * B ≤ x)
    (h2 : x < (q + 1) * B) : Int.tdiv x B = q := by
  have hx : 0 ≤ x := le_trans (by positivity) h1
  rw [Int.tdiv_eq_ediv hx (by omega)]
  apply le_antisymm
  · have := Int.ediv_lt_of_lt_mul hB h2
    omega
  · exact Int.le_ediv_of_mul_le hB h1

theorem tdiv_ge_of_le {x B k : Int} (hB : 0 < B) (hk : 0 ≤ k) (h1 : k * B ≤ x) :
    k ≤ Int.tdiv x B := by
  have hx : 0 ≤ x := le_trans (by positivity) h1
  rw [Int.tdiv_eq_ediv hx (by omega)]
  exact Int.le_ediv_of_mul_le hB h1

theorem tdiv2_bounds (B : Int) (hB : 16 ≤ B) : 8 ≤ Int.tdiv B 2 ∧ 2 * Int.tdiv B 2 ≤ B := by
  rw [Int.tdiv_eq_ediv (by omega) (by omega)]
  omega

/-- Data bit branch, edge `d` slots after the last one with `d` small enough
that the byte is not completed: `d - 1` masked bits and one explicit bit. -/
theorem rxDataBits_exact (s : Port) (level : Bool) (cycles : Int) (d : Nat)
    (hB : 16 ≤ s.m_bitCycles) (hBm : s.m_bitCycles < 2147483648) (hc1 : -1 ≤ s.m_rxCurBit)
    (hd : 1 ≤ d) (hroom : (d : Int) - 1 < 7 - s.m_rxCurBit)
    (hlo : (d : Int) * s.m_bitCycles - Int.tdiv s.m_bitCycles 2 - 2 ≤ cycles)
    (hhi : cycles ≤ (d : Int) * s.m_bitCycles - Int.tdiv s.m_bitCycles 2 + 2)
    (hmax : cycles < 2147483648) :
    (rxDataBits s level cycles).1.m_rxCurBit = s.m_rxCurBit + d ∧
      (rxDataBits s level cycles).1.m_rxCurByte
        = shiftIn (if 2 ≤ d then hiddenFill s.m_rxCurByte (d - 1) else s.m_rxCurByte) level ∧
      (rxDataBits s level cycles).2 < 0 := by
  obtain ⟨hh1, hh2⟩ := tdiv2_bounds _ hB
  by_cases h2 : 2 ≤ d
  · have hmul : ((d : Int) - 1) * s.m_bitCycles = d * s.m_bitCycles - s.m_bitCycles := by ring
    have hd2 : (2 : Int) * s.m_bitCycles ≤ d * s.m_bitCycles := by
      have : (2 : Int) ≤ d := by exact_mod_cast h2
      nlinarith
    have hq : Int.tdiv cycles s.m_bitCycles = (d : Int) - 1 := by
      apply tdiv_eq_of_bounds (by omega) (by omega)
      · rw [hmul]; omega
      · have : ((d : Int) - 1 + 1) * s.m_bitCycles = d * s.m_bitCycles := by ring
        rw [this]; omega
    have hge : cycles ≥ s.m_bitCycles := by omega
    have hcap : ¬ ((d : Int) - 1 > 7 - s.m_rxCurBit) := by omega
    have hn : ((d : Int) - 1).toNat = d - 1 := by omega
    have hn2 : (8 - ((d : Int) - 1)).toNat = 8 - (d - 1) := by omega
    have hlt : s.m_rxCurBit + ((d : Int) - 1) < 7 := by omega
    unfold rxDataBits rxHiddenBits rxDataBit
    simp only [hge, if_true, hq, hcap, if_false, hlt, hn, hn2, h2]
    refine ⟨by omega, ?_, ?_⟩
    · unfold shiftIn hiddenFill
      split_ifs <;> simp_all
    · rw [hmul]
      rw [toI32_of_range (x := cycles - (d * s.m_bitCycles - s.m_bitCycles)) (by omega) (by omega)]
      rw [toI32_of_range (by omega) (by omega)]
      omega
  · have hd1 : d = 1 := by omega
    subst hd1
    have hge : ¬ cycles ≥ s.m_bitCycles := by simp at hhi; omega
    have hlt : s.m_rxCurBit < 7 := by simp at hroom; omega
    unfold rxDataBits rxDataBit
    simp only [hge, if_false, hlt, if_true, h2]
    refine ⟨by simp, ?_, ?_⟩
    · unfold shiftIn
      split_ifs <;> simp_all
    · simp at hhi hlo
      rw [toI32_of_range (by omega) (by omega)]
      omega

theorem hiddenFill_lt (y h : Nat) : hiddenFill y h < 256 := by
  unfold hiddenFill
  split_ifs <;> exact Nat.mod_lt _ (by norm_num)

theorem shiftIn_lt (y : Nat) (l : Bool) : shiftIn y l < 256 := by
  unfold shiftIn
  split_ifs <;> exact Nat.mod_lt _ (by norm_num)

/-- Data bit branch, edge late enough to complete the byte: the masked bits
fill the byte and no explicit bit is taken. -/
theorem rxDataBits_capped (s : Port) (level : Bool) (cycles : Int) (d : Nat)
    (hB : 16 ≤ s.m_bitCycles) (hc1 : -1 ≤ s.m_rxCurBit) (hc2 : s.m_rxCurBit < 7)
    (hroom : 7 - s.m_rxCurBit ≤ (d : Int) - 1)
    (hlo : (d : Int) * s.m_bitCycles - Int.tdiv s.m_bitCycles 2 - 2 ≤ cycles)
    (hmax : cycles < 2147483648) :
    (rxDataBits s level cycles).1.m_rxCurBit = 7 ∧
      (rxDataBits s level cycles).1.m_rxCurByte
        = hiddenFill s.m_rxCurByte (7 - s.m_rxCurBit).toNat ∧
      (rxDataBits s level cycles).2 = cycles - (7 - s.m_rxCurBit) * s.m_bitCycles ∧
      (d : Int) * s.m_bitCycles - Int.tdiv s.m_bitCycles 2 - 2
          - (7 - s.m_rxCurBit) * s.m_bitCycles ≤ (rxDataBits s level cycles).2 ∧
      0 ≤ (rxDataBits s level cycles).2 := by
  obtain ⟨hh1, hh2⟩ := tdiv2_bounds _ hB
  have hmul : ((d : Int) - 1) * s.m_bitCycles = d * s.m_bitCycles - s.m_bitCycles := by ring
  have hr : (7 - s.m_rxCurBit) * s.m_bitCycles ≤ ((d : Int) - 1) * s.m_bitCycles :=
    Int.mul_le_mul_of_nonneg_right hroom (by omega)
  have hr1 : 1 * s.m_bitCycles ≤ (7 - s.m_rxCurBit) * s.m_bitCycles :=
    Int.mul_le_mul_of_nonneg_right (by omega) (by omega)
  have hq : 7 - s.m_rxCurBit ≤ Int.tdiv cycles s.m_bitCycles :=
    tdiv_ge_of_le (by omega) (by omega) (by omega)
  have hge : cycles ≥ s.m_bitCycles := by omega
  have hh : (if Int.tdiv cycles s.m_bitCycles > 7 - s.m_rxCurBit then 7 - s.m_rxCurBit
      else Int.tdiv cycles s.m_bitCycles) = 7 - s.m_rxCurBit := by
    split_ifs <;> omega
  have hn2 : (8 - (7 - s.m_rxCurBit)).toNat = 8 - (7 - s.m_rxCurBit).toNat := by omega
  have e : toI32 (cycles - (7 - s.m_rxCurBit) * s.m_bitCycles)
      = cycles - (7 - s.m_rxCurBit) * s.m_bitCycles := toI32_of_range (by omega) (by omega)
  unfold rxDataBits rxHiddenBits
  simp only [hge, if_true, hh, hn2, e]
  have h7 : ¬ (s.m_rxCurBit + (7 - s.m_rxCurBit) < 7) := by omega
  simp only [h7, if_false]
  exact ⟨by omega, rfl, trivial, by omega, by omega⟩

theorem queued_rxDataBits (s : Port) (level : Bool) (cycles : Int) :
    queued (rxDataBits s level cycles).1 = queued s := by
  unfold rxDataBits rxHiddenBits rxDataBit
  simp only []
  split_ifs <;> rfl

/-- The decode loop entered with a complete byte and room in the byte buffer:
the byte is pushed; the loop goes on to the start bit test exactly when a bit
period or more is left. -/
theorem rxBitLoop_seven (s : Port) (level : Bool) (cycles : Int) (n : Nat) (h : s.wf)
    (h7 : s.m_rxCurBit = 7) (hy : s.m_rxCurByte < 256)
    (hfull : (s.m_inPos + 1) % s.m_bufSize ≠ s.m_outPos) :
    ∃ t, rxBitLoop level (n + 2) cycles s = some t ∧
      t.dec = (if toI32 (cycles - s.m_bitCycles) ≥ 0 then (if level then ⟨8, 0⟩ else ⟨-1, 0⟩)
               else ⟨8, 0⟩) ∧
      queued t = queued s ++ [s.m_rxCurByte] ∧ IsrSame s t ∧ Ext s t ∧ t.wf := by
  have hq := rxStoreByte_queued s h.1 h.2.1
  rw [if_pos hfull, Nat.mod_eq_of_lt hy] at hq
  have g := grow_rxStoreByte s h
  have hd : (rxStoreByte s).dec = ⟨8, 0⟩ := by
    unfold rxStoreByte Port.dec; simp only [hfull, ne_eq, not_false_eq_true, if_true]
  have h8 : (rxStoreByte s).m_rxCurBit = 8 := congrArg Dec.c hd
  rw [rxBitLoop_succ]
  have hn1 : ¬ (-1 ≤ s.m_rxCurBit ∧ s.m_rxCurBit < 7) := by omega
  rw [if_neg hn1, if_pos h7]
  by_cases hc : toI32 (cycles - s.m_bitCycles) ≥ 0
  · rw [if_pos hc, if_pos hc, rxBitLoop_succ]
    have hn2 : ¬ (-1 ≤ (rxStoreByte s).m_rxCurBit ∧ (rxStoreByte s).m_rxCurBit < 7) := by omega
    have hn3 : ¬ (rxStoreByte s).m_rxCurBit = 7 := by omega
    rw [if_neg hn2, if_neg hn3, if_pos h8]
    cases level with
    | true =>
      exact ⟨_, rfl, hd, hq, isrSame_rxStoreByte s, ext_rxStoreByte s, g.wf⟩
    | false =>
      refine ⟨_, rfl, ?_, hq, ?_, ?_, ?_⟩
      · simp only [Port.dec, Bool.not_false, if_true, Bool.false_eq_true, if_false]
        have := congrArg Dec.y hd
        simp only [Port.dec] at this
        rw [this]
      · exact (isrSame_rxStoreByte s).isrTrans ⟨rfl, rfl, rfl, rfl⟩
      · exact (ext_rxStoreByte s).extTrans (ext_startBit _)
      · obtain ⟨a1, a2, a3, a4, a5, a6, a7⟩ := g.wf
        exact ⟨a1, a2, a3, a4, a5, by simp, by simp⟩
  · rw [if_neg hc, if_neg hc]
    exact ⟨_, rfl, hd, hq, isrSame_rxStoreByte s, ext_rxStoreByte s, g.wf⟩

theorem rxDataBits_full (s : Port) (level : Bool) (cycles : Int)
    (hfull : (s.m_inPos + 1) % s.m_bufSize ≠ s.m_outPos) :
    ((rxDataBits s level cycles).1.m_inPos + 1) % (rxDataBits s level cycles).1.m_bufSize
      ≠ (rxDataBits s level cycles).1.m_outPos := by
  unfold rxDataBits rxHiddenBits rxDataBit
  simp only []
  split_ifs <;> exact hfull

/-- One edge event, concrete against slot level: when the elapsed cycles of the
event lie within two cycles of `d` bit periods less half a period (or above
that, for an event that is not `exact`), the decode loop does what `absEvent`
computes. -/
theorem rxBitLoop_abs (s : Port) (a2 : Dec) (p : List Nat) (d : Nat) (exact level : Bool)
    (cycles : Int) (n : Nat) (h : s.wf) (hB : 16 ≤ s.m_bitCycles)
    (hBm : s.m_bitCycles < 2147483648) (hy : s.m_rxCurByte < 256)
    (hfull : p ≠ [] → (s.m_inPos + 1) % s.m_bufSize ≠ s.m_outPos)
    (hlo : (d : Int) * s.m_bitCycles - Int.tdiv s.m_bitCycles 2 - 2 ≤ cycles)
    (hmax : cycles < 2147483648)
    (hex : exact = true → cycles ≤ (d : Int) * s.m_bitCycles - Int.tdiv s.m_bitCycles 2 + 2)
    (habs : absEvent s.dec d exact level = some (a2, p)) :
    ∃ t, rxBitLoop level (n + 3) cycles s = some t ∧ t.dec = a2 ∧ queued t = queued s ++ p ∧
      IsrSame s t ∧ Ext s t ∧ t.wf ∧ t.m_rxCurByte < 256 := by
  obtain ⟨hh1, hh2⟩ := tdiv2_bounds _ hB
  unfold absEvent at habs
  simp only [Port.dec] at habs
  by_cases c8 : s.m_rxCurBit = 8
  · rw [if_pos c8] at habs
    cases habs
    rw [rxBitLoop_succ, if_neg (by omega), if_neg (by omega), if_pos c8]
    cases level with
    | true =>
      exact ⟨s, rfl, rfl, by simp, IsrSame.isrRefl s, Ext.extRefl s, h, hy⟩
    | false =>
      refine ⟨_, rfl, rfl, by simp [queued], ⟨rfl, rfl, rfl, rfl⟩, ext_startBit s, ?_, hy⟩
      obtain ⟨a1, a2, a3, a4, a5, a6, a7⟩ := h
      exact ⟨a1, a2, a3, a4, a5, by simp, by simp⟩
  rw [if_neg c8] at habs
  by_cases c7 : s.m_rxCurBit = 7
  · rw [if_pos c7] at habs
    have key : p = [s.m_rxCurByte] →
        ∃ t, rxBitLoop level (n + 1 + 2) cycles s = some t ∧
          t.dec = (if toI32 (cycles - s.m_bitCycles) ≥ 0 then
              (if level then ⟨8, 0⟩ else ⟨-1, 0⟩) else ⟨8, 0⟩) ∧
          queued t = queued s ++ [s.m_rxCurByte] ∧ IsrSame s t ∧ Ext s t ∧ t.wf ∧
          t.m_rxCurByte < 256 := by
      intro hp
      obtain ⟨t, e, hd, hq, hi, hx, hw⟩ :=
        rxBitLoop_seven s level cycles (n + 1) h c7 hy (hfull (by rw [hp]; simp))
      refine ⟨t, e, hd, hq, hi, hx, hw, ?_⟩
      have := congrArg Dec.y hd
      simp only [Port.dec] at this
      rw [this]; split_ifs <;> simp
    by_cases d2 : 2 ≤ d
    · rw [if_pos d2] at habs
      cases habs
      obtain ⟨t, e, hd, hq, hi, hx, hw, hty⟩ := key rfl
      have hd2 : (2 : Int) * s.m_bitCycles ≤ d * s.m_bitCycles :=
        Int.mul_le_mul_of_nonneg_right (by exact_mod_cast d2) (by omega)
      have hc : toI32 (cycles - s.m_bitCycles) ≥ 0 := by
        rw [toI32_of_range (by omega) (by omega)]; omega
      rw [if_pos hc] at hd
      exact ⟨t, e, hd, hq, hi, hx, hw, hty⟩
    · rw [if_neg d2] at habs
      by_cases d1 : d = 1 ∧ exact = true
      · rw [if_pos d1] at habs
        cases habs
        obtain ⟨t, e, hd, hq, hi, hx, hw, hty⟩ := key rfl
        have hhi := hex d1.2
        rw [d1.1] at hhi hlo
        simp only [Nat.cast_one, one_mul] at hhi hlo
        have hc : ¬ toI32 (cycles - s.m_bitCycles) ≥ 0 := by
          rw [toI32_of_range (by omega) (by omega)]; omega
        rw [if_neg hc] at hd
        exact ⟨t, e, hd, hq, hi, hx, hw, hty⟩
      · rw [if_neg d1] at habs; cases habs
  rw [if_neg c7] at habs
  by_cases cd : -1 ≤ s.m_rxCurBit ∧ s.m_rxCurBit < 7
  swap
  · rw [if_neg cd] at habs; cases habs
  rw [if_pos cd] at habs
  by_cases d0 : d = 0
  · rw [if_pos d0] at habs; cases habs
  rw [if_neg d0] at habs
  have g1 := grow_rxDataBits s level cycles h cd.2
  have x1 := ext_rxDataBits s level cycles
  have i1 := isrSame_rxDataBits s level cycles
  have q1 := queued_rxDataBits s level cycles
  have hnz : ¬ (cycles ≥ s.m_bitCycles ∧ s.m_bitCycles = 0) := by omega
  rw [rxBitLoop_succ, if_pos cd, if_neg hnz]
  by_cases hcap : 7 - s.m_rxCurBit ≤ (d : Int) - 1
  · rw [if_pos hcap] at habs
    obtain ⟨r1, r2, r3, r4, r5⟩ := rxDataBits_capped s level cycles d hB cd.1 cd.2 hcap hlo hmax
    have hy1 : (rxDataBits s level cycles).1.m_rxCurByte < 256 := by
      rw [r2]; exact hiddenFill_lt _ _
    have hrb : 0 ≤ (7 - s.m_rxCurBit) * s.m_bitCycles := mul_nonneg (by omega) (by omega)
    have key : p = [hiddenFill s.m_rxCurByte (7 - s.m_rxCurBit).toNat] →
        ∃ t, rxBitLoop level (n + 2) (rxDataBits s level cycles).2 (rxDataBits s level cycles).1
            = some t ∧
          t.dec = (if toI32 ((rxDataBits s level cycles).2 - s.m_bitCycles) ≥ 0 then
              (if level then ⟨8, 0⟩ else ⟨-1, 0⟩) else ⟨8, 0⟩) ∧
          queued t = queued s ++ [hiddenFill s.m_rxCurByte (7 - s.m_rxCurBit).toNat] ∧
          IsrSame (rxDataBits s level cycles).1 t ∧ Ext (rxDataBits s level cycles).1 t ∧ t.wf ∧
          t.m_rxCurByte < 256 := by
      intro hp
      have f1 := rxDataBits_full s level cycles (hfull (by rw [hp]; simp))
      obtain ⟨t, e, hd, hq, hi, hx, hw⟩ :=
        rxBitLoop_seven (rxDataBits s level cycles).1 level (rxDataBits s level cycles).2 n
          g1.wf r1 hy1 f1
      rw [x1.bitCycles] at hd
      rw [q1, r2] at hq
      refine ⟨t, e, hd, hq, hi, hx, hw, ?_⟩
      have := congrArg Dec.y hd
      simp only [Port.dec] at this
      rw [this]; split_ifs <;> simp
    rw [if_pos r5]
    by_cases d2 : 7 - s.m_rxCurBit + 2 ≤ (d : Int)
    · rw [if_pos d2] at habs
      cases habs
      obtain ⟨t, e, hd, hq, hi, hx, hw, hty⟩ := key rfl
      have hm : (7 - s.m_rxCurBit + 2) * s.m_bitCycles ≤ d * s.m_bitCycles :=
        Int.mul_le_mul_of_nonneg_right d2 (by omega)
      have hm2 : (7 - s.m_rxCurBit + 2) * s.m_bitCycles
          = (7 - s.m_rxCurBit) * s.m_bitCycles + 2 * s.m_bitCycles := by ring
      have hc : toI32 ((rxDataBits s level cycles).2 - s.m_bitCycles) ≥ 0 := by
        rw [toI32_of_range (by omega) (by omega)]; omega
      rw [if_pos hc] at hd
      exact ⟨t, e, hd, hq, i1.isrTrans hi, x1.extTrans hx, hw, hty⟩
    · rw [if_neg d2] at habs
      by_cases hE : exact = true
      · rw [if_pos hE] at habs
        cases habs
        obtain ⟨t, e, hd, hq, hi, hx, hw, hty⟩ := key rfl
        have hhi := hex hE
        have hde : (d : Int) = 7 - s.m_rxCurBit + 1 := by omega
        have hm2 : (d : Int) * s.m_bitCycles
            = (7 - s.m_rxCurBit) * s.m_bitCycles + s.m_bitCycles := by rw [hde]; ring
        have hc : ¬ toI32 ((rxDataBits s level cycles).2 - s.m_bitCycles) ≥ 0 := by
          rw [toI32_of_range (by omega) (by omega)]; omega
        rw [if_neg hc] at hd
        exact ⟨t, e, hd, hq, i1.isrTrans hi, x1.extTrans hx, hw, hty⟩
      · rw [if_neg hE] at habs; cases habs
  · rw [if_neg hcap] at habs
    by_cases hE : exact = true
    · rw [if_pos hE] at habs
      cases habs
      obtain ⟨r1, r2, r3⟩ := rxDataBits_exact s level cycles d hB hBm cd.1 (by omega) (by omega)
        hlo (hex hE) hmax
      rw [if_neg (by omega)]
      refine ⟨_, rfl, ?_, by rw [q1, List.append_nil], i1, x1, g1.wf, ?_⟩
      · simp only [Port.dec, r1, r2]
      · rw [r2]; exact shiftIn_lt _ _
    · rw [if_neg hE] at habs; cases habs

/-! ## Edge words and queued events -/

theorem or_one_eq (t : Nat) : t ||| 1 = 2 * (t / 2) + 1 := by
  apply Nat.eq_of_testBit_eq
  intro i
  rw [Nat.testBit_or]
  cases i with
  | zero => simp [Nat.testBit_zero]; omega
  | succ i =>
    simp only [Nat.testBit_succ]
    have h1 : (1 : Nat) / 2 = 0 := by decide
    have h2 : (2 * (t / 2) + 1) / 2 = t / 2 := by omega
    rw [h1, h2]; simp

theorem edgeWord_eq (t : Nat) (l : Bool) : edgeWord t l = 2 * (t / 2) + (1 - b2n l) := by
  unfold edgeWord
  rw [or_one_eq]
  apply Nat.eq_of_testBit_eq
  intro i
  rw [Nat.testBit_xor]
  have h2 : (2 * (t / 2) + 1) / 2 = t / 2 := by omega
  have h3 : (2 * (t / 2) + (1 - 1)) / 2 = t / 2 := by omega
  have h4 : (2 * (t / 2) + (1 - 0)) / 2 = t / 2 := by omega
  have h1 : (1 : Nat) / 2 = 0 := by decide
  cases l <;> cases i with
  | zero => simp [b2n, Nat.testBit_zero] <;> omega
  | succ i =>
    simp only [Nat.testBit_succ, b2n, h1, h2, h3, h4, if_true, if_false, Bool.false_eq_true]
    simp

/-- An edge word lies within one cycle of the captured cycle count, stays a
32 bit value, and its lowest bit is the inverted level. -/
theorem edgeWord_near (t : Nat) (l : Bool) (ht : t < 4294967296) :
    edgeWord t l < 4294967296 ∧ (t : Int) - 1 ≤ edgeWord t l ∧ (edgeWord t l : Int) ≤ t + 1 ∧
      edgeWord t l % 2 = 1 - b2n l := by
  rw [edgeWord_eq]
  cases l <;> simp [b2n] <;> omega

/-- The logic level that `rxBits` reads off an edge word. -/
theorem edgeWord_level (t : Nat) (l inv : Bool) :
    ((edgeWord t l &&& 1) == b2n inv) = (l != inv) := by
  rw [Nat.and_one_is_mod, edgeWord_eq]
  cases l <;> cases inv <;> simp [b2n] <;> omega

theorem near_edgeWord (t : Nat) (l : Bool) (ht : t < 4294967296) : Near (edgeWord t l) t := by
  obtain ⟨h1, h2, h3, _⟩ := edgeWord_near t l ht
  exact ⟨h1, ht, h2, h3⟩

/-- Elapsed cycles computed by `rxBits` for an event `δ` cycles after the last one. -/
theorem cycles_of_near {w wl T Tl : Nat} {δ m : Int} (hw : Near w T) (hl : Near wl Tl)
    (hT : T = toU32 (Tl + δ)) (h0 : 0 ≤ δ) (hh : 0 ≤ m) (hh2 : m < 2147483640)
    (hmax : δ - m + 2 < 2147483648) :
    δ - m - 2 ≤ toI32 ((w : Int) - wl - m) ∧ toI32 ((w : Int) - wl - m) ≤ δ - m + 2 := by
  obtain ⟨a1, a2, a3, a4⟩ := hw
  obtain ⟨b1, b2, b3, b4⟩ := hl
  have hc := toU32_cast ((Tl : Int) + δ)
  rw [← hT] at hc
  unfold toI32
  omega

theorem isrQueued_congr {s t : Port} (h1 : t.m_isrBuffer = s.m_isrBuffer)
    (h2 : t.m_isrInPos = s.m_isrInPos) (h3 : t.m_isrOutPos = s.m_isrOutPos)
    (h4 : t.m_isrBufSize = s.m_isrBufSize) : isrQueued t = isrQueued s := by
  unfold isrQueued; rw [h1, h2, h3, h4]

theorem isrQueued_pop (s : Port) (w : Nat) (rest : List Nat) (hi : s.m_isrInPos < s.m_isrBufSize)
    (ho : s.m_isrOutPos < s.m_isrBufSize) (hq : isrQueued s = w :: rest) :
    s.m_isrBuffer s.m_isrOutPos = w ∧
      ringSeq s.m_isrBuffer s.m_isrBufSize ((s.m_isrOutPos + 1) % s.m_isrBufSize)
        (ringCount s.m_isrInPos ((s.m_isrOutPos + 1) % s.m_isrBufSize) s.m_isrBufSize) = rest := by
  have hne : s.m_isrInPos ≠ s.m_isrOutPos := by
    intro hc
    unfold isrQueued at hq
    rw [hc, ringCount_self] at hq
    simp [ringSeq] at hq
  unfold isrQueued at hq
  rw [ringSeq_pop _ hi ho hne] at hq
  injection hq with h1 h2
  exact ⟨h1, h2⟩

/-- One queued edge event, concrete against slot level. The event word `w`
lies within a cycle of counter value `T`, the last consumed word within a
cycle of `Tl`, and `T` is `δ` cycles after `Tl` with `δ` at least `d` bit
periods (exactly `d`, for an `exact` event). -/
theorem rxEvent_abs (s : Port) (w : Nat) (rest : List Nat) (T Tl : Nat) (δ : Int) (d : Nat)
    (exact : Bool) (a2 : Dec) (p : List Nat) (h : s.wf) (hB : 16 ≤ s.m_bitCycles)
    (hBm : s.m_bitCycles < 2147483648) (hy : s.m_rxCurByte < 256)
    (hq : isrQueued s = w :: rest) (hw : Near w T) (hl : Near s.m_lastCycle Tl)
    (hT : T = toU32 (Tl + δ)) (hlo : (d : Int) * s.m_bitCycles ≤ δ)
    (hmax : δ - Int.tdiv s.m_bitCycles 2 + 2 < 2147483648)
    (hex : exact = true → δ ≤ (d : Int) * s.m_bitCycles)
    (hfull : p ≠ [] → (s.m_inPos + 1) % s.m_bufSize ≠ s.m_outPos)
    (habs : absEvent s.dec d exact ((w &&& 1) == b2n s.m_invert) = some (a2, p)) :
    ∃ t, rxEvent s = some t ∧ t.dec = a2 ∧ queued t = queued s ++ p ∧ t.m_lastCycle = w ∧
      isrQueued t = rest ∧ Ext s t ∧ t.wf ∧ t.m_rxCurByte < 256 := by
  obtain ⟨hh1, hh2⟩ := tdiv2_bounds _ hB
  obtain ⟨hw0, hrest⟩ := isrQueued_pop s w rest h.2.2.1 h.2.2.2.1 hq
  have hd0 : (0 : Int) ≤ d * s.m_bitCycles := mul_nonneg (by omega) (by omega)
  obtain ⟨c1, c2⟩ := cycles_of_near (m := Int.tdiv s.m_bitCycles 2) hw hl hT (by omega)
    (by omega) (by omega) hmax
  obtain ⟨a1, a2', a3, a4, a5, a6, a7⟩ := h
  have hw' : Port.wf { s with m_isrOutPos := (s.m_isrOutPos + 1) % s.m_isrBufSize,
                              m_lastCycle := w } :=
    ⟨a1, a2', a3, succ_mod_lt a4, a5, a6, a7⟩
  obtain ⟨t, e, hd, hqq, hi, hx, hwf, hty⟩ :=
    rxBitLoop_abs { s with m_isrOutPos := (s.m_isrOutPos + 1) % s.m_isrBufSize, m_lastCycle := w }
      a2 p d exact ((w &&& 1) == b2n s.m_invert)
      (toI32 ((w : Int) - s.m_lastCycle - Int.tdiv s.m_bitCycles 2)) 9 hw' hB hBm hy hfull
      (by
        show (d : Int) * s.m_bitCycles - Int.tdiv s.m_bitCycles 2 - 2 ≤ _
        omega)
      (by unfold toI32; omega)
      (fun hE => by
        have := hex hE
        show _ ≤ (d : Int) * s.m_bitCycles - Int.tdiv s.m_bitCycles 2 + 2
        omega) habs
  refine ⟨t, ?_, hd, hqq, hi.lastCycle, ?_, ?_, hwf, hty⟩
  · unfold rxEvent
    simp only [hw0]
    exact e
  · rw [← hrest]
    unfold isrQueued
    rw [hi.isrBuffer, hi.isrInPos, hi.isrOutPos, hx.isrBufSize]
  · refine Ext.extTrans ?_ hx
    constructor <;> simp <;> tauto

/-! ## The decode loop over one frame -/

theorem not_full_of_count {i o size : Nat} (hi : i < size) (ho : o < size)
    (hc : ringCount i o size + 1 < size) : (i + 1) % size ≠ o := by
  intro h
  rw [succ_mod_eq hi] at h
  unfold ringCount at hc
  split_ifs at h hc <;> omega

theorem rxEvents_zero (s : Port) : rxEvents 0 s = some s := rfl

theorem rxEvents_succ (n : Nat) (s : Port) :
    rxEvents (n + 1) s = (rxEvent s).bind (rxEvents n) := rfl

theorem rxEvents_add (m n : Nat) (s t : Port) (h : rxEvents m s = some t) :
    rxEvents (m + n) s = rxEvents n t := by
  induction m generalizing s with
  | zero => cases h; simp
  | succ m ih =>
    rw [rxEvents_succ] at h
    cases e : rxEvent s with
    | none => simp [e] at h
    | some u =>
      simp only [e, Option.some_bind] at h
      have : m + 1 + n = (m + n) + 1 := by omega
      rw [this, rxEvents_succ, e, Option.some_bind, ih u h]

/-- The decode loop over the queued level changes of one frame, concrete
against slot level. -/
theorem rxEvents_run (inv : Bool) (B : Int) (t0 : Nat) (hB : 16 ≤ B) (hBm : B ≤ 200000000) :
    ∀ (edges : List (Nat × Bool)) (s : Port) (k : Nat) (rest : List Nat) (a1 : Dec) (k1 : Nat)
      (p1 : List Nat),
      absRun inv s.dec k edges = some (a1, k1, p1) → s.wf → s.m_invert = inv →
      s.m_bitCycles = B → s.m_rxCurByte < 256 → Near s.m_lastCycle (toU32 (t0 + k * B)) →
      isrQueued s = edges.map (edgeAt t0 B) ++ rest →
      (queued s).length + p1.length < s.m_bufSize →
      ∃ t, rxEvents edges.length s = some t ∧ t.dec = a1 ∧ queued t = queued s ++ p1 ∧
        Near t.m_lastCycle (toU32 (t0 + k1 * B)) ∧ isrQueued t = rest ∧ Ext s t ∧ t.wf ∧
        t.m_rxCurByte < 256 := by
  intro edges
  induction edges with
  | nil =>
    intro s k rest a1 k1 p1 habs h _ _ hy hl hq _
    simp only [absRun, Option.some.injEq, Prod.mk.injEq] at habs
    obtain ⟨rfl, rfl, rfl⟩ := habs
    exact ⟨s, rfl, rfl, by simp, hl, by simpa using hq, Ext.extRefl s, h, hy⟩
  | cons e r ih =>
    intro s k rest a1 k1 p1 habs h hinv hBs hy hl hq hroom
    rw [absRun] at habs
    by_cases hk : k ≤ e.1 ∧ e.1 ≤ 9
    swap
    · rw [if_neg hk] at habs; cases habs
    rw [if_pos hk] at habs
    cases hx : absEvent s.dec (e.1 - k) true (e.2 != inv) with
    | none => simp [hx] at habs
    | some x =>
      simp only [hx, Option.some_bind] at habs
      cases hz : absRun inv x.1 e.1 r with
      | none => simp [hz] at habs
      | some z =>
        simp only [hz, Option.map_some', Option.some.injEq, Prod.mk.injEq] at habs
        obtain ⟨rfl, rfl, rfl⟩ := habs
        have hcast : ((e.1 - k : Nat) : Int) = (e.1 : Int) - k := by omega
        have hd9 : ((e.1 - k : Nat) : Int) * B ≤ 9 * B :=
          Int.mul_le_mul_of_nonneg_right (by omega) (by omega)
        have hd0 : 0 ≤ ((e.1 - k : Nat) : Int) * B := mul_nonneg (by omega) (by omega)
        obtain ⟨hh1, hh2⟩ := tdiv2_bounds B hB
        have hlen : (queued s).length + (x.2.length + z.2.2.length) < s.m_bufSize := by
          simpa using hroom
        obtain ⟨t, e1, hd, hqq, hlc, hiq, hx1, hwf, hty⟩ :=
          rxEvent_abs s (edgeAt t0 B e) (r.map (edgeAt t0 B) ++ rest) (toU32 (t0 + e.1 * B))
            (toU32 (t0 + k * B)) (((e.1 - k : Nat) : Int) * B) (e.1 - k) true x.1 x.2 h
            (by rw [hBs]; exact hB) (by rw [hBs]; omega) hy (by simpa using hq)
            (near_edgeWord _ _ (toU32_lt _)) hl
            (by rw [toU32_add_left, hcast]; congr 1; ring)
            (by rw [hBs]) (by rw [hBs]; omega) (fun _ => by rw [hBs])
            (fun hp => by
              apply not_full_of_count h.1 h.2.1
              rw [← queued_length]
              have : x.2.length ≠ 0 := fun hc => hp (List.length_eq_zero.mp hc)
              omega)
            (by
              rw [hinv]
              unfold edgeAt
              rw [edgeWord_level]
              exact hx)
        have hlc2 : Near t.m_lastCycle (toU32 (t0 + e.1 * B)) := by
          rw [hlc]; exact near_edgeWord _ _ (toU32_lt _)
        obtain ⟨u, e2, hd2, hq2, hl2, hi2, hx2, hw2, hy2⟩ :=
          ih t e.1 rest z.1 z.2.1 z.2.2 (by rw [hd]; exact hz) hwf (by rw [hx1.invert, hinv])
            (by rw [hx1.bitCycles, hBs]) hty hlc2 hiq
            (by rw [hqq, hx1.bufSize, List.length_append]; omega)
        refine ⟨u, ?_, hd2, ?_, hl2, hi2, hx1.extTrans hx2, hw2, hy2⟩
        · rw [List.length_cons, rxEvents_succ, e1, Option.some_bind, e2]
        · rw [hq2, hqq, List.append_assoc]

/-! ## Every frame, checked at slot level -/

theorem frameOk_all : ∀ inv : Bool, ∀ b < 256, frameOk inv b = true := by
  decide!

/-- What the slot level check of a frame establishes. -/
theorem frameOk_spec (inv : Bool) (b : Nat) (h : frameOk inv b = true) :
    ∃ data a1 k1 p1, frameEdges inv b = (0, inv) :: data ∧
      absRun inv ⟨-1, 0⟩ 0 data = some (a1, k1, p1) ∧
      pinChanges (!inv) (frameEdges inv b) = frameEdges inv b ∧
      endLevel (!inv) (frameEdges inv b) = !inv ∧
      (frameEdges inv b).length ≤ 10 ∧ 1 ≤ k1 ∧ k1 ≤ 9 ∧ a1.y < 256 ∧ p1.length ≤ 1 ∧
      (∃ p2, absEvent a1 (10 - k1) false false = some (⟨-1, 0⟩, p2) ∧ p1 ++ p2 = [b]) ∧
      ((a1.c = 8 ∧ p1 = [b]) ∨
        (a1.c ≠ 8 ∧ 0 ≤ a1.c ∧ a1.c + 1 = k1 ∧ p1 = [] ∧
          ∃ a3, absEvent a1 (11 - a1.c).toNat true false = some (a3, [b]))) := by
  unfold frameOk frameEnd at h
  simp only [Bool.and_eq_true, beq_iff_eq, decide_eq_true_eq] at h
  obtain ⟨⟨⟨⟨h1, h2⟩, h3⟩, h4⟩, h5⟩ := h
  cases hf : frameEdges inv b with
  | nil => rw [hf] at h1; simp at h1
  | cons e data =>
    rw [hf] at h1 h5
    simp only [List.head?_cons, Option.some.injEq] at h1
    subst h1
    simp only [List.tail_cons] at h5
    cases hr : absRun inv ⟨-1, 0⟩ 0 data with
    | none => rw [hr] at h5; simp at h5
    | some z =>
      obtain ⟨a1, k1, p1⟩ := z
      rw [hr] at h5
      simp only [Bool.and_eq_true, beq_iff_eq, decide_eq_true_eq] at h5
      obtain ⟨⟨⟨⟨⟨g0, g1⟩, g2⟩, g3⟩, g4⟩, g5⟩ := h5
      refine ⟨data, a1, k1, p1, rfl, hr, ?_, ?_, ?_, g0, g1, g2, g3, ?_, ?_⟩
      · rw [← hf]; exact h2
      · rw [← hf]; exact h3
      · rw [← hf]; exact h4
      · cases hc : absEvent a1 (10 - k1) false false with
        | none => rw [hc] at g4; simp at g4
        | some x =>
          obtain ⟨a2, p2⟩ := x
          rw [hc] at g4
          simp only [Bool.and_eq_true, beq_iff_eq] at g4
          exact ⟨p2, by rw [g4.1], g4.2⟩
      · by_cases c8 : a1.c = 8
        · rw [if_pos c8] at g5
          exact Or.inl ⟨c8, by simpa using g5⟩
        · rw [if_neg c8] at g5
          simp only [Bool.and_eq_true, beq_iff_eq, decide_eq_true_eq] at g5
          obtain ⟨⟨⟨e1, e2⟩, e3⟩, e4⟩ := g5
          cases hc : absEvent a1 (11 - a1.c).toNat true false with
          | none => rw [hc] at e4; simp at e4
          | some x =>
            obtain ⟨a3, p3⟩ := x
            rw [hc] at e4
            simp only [beq_iff_eq] at e4
            exact Or.inr ⟨c8, e1, e2, e3, a3, by rw [e4]⟩

theorem pinEvents_append (pin : Int) : ∀ (l1 l2 : List HalOp) (t : Nat),
    pinEvents pin t (l1 ++ l2) = pinEvents pin t l1 ++ pinEvents pin (lastClock t l1) l2 := by
  intro l1
  induction l1 with
  | nil => intro l2 t; rfl
  | cons op r ih =>
    intro l2 t
    cases op with
    | noInterrupts => simpa [pinEvents, lastClock] using ih l2 t
    | interrupts => simpa [pinEvents, lastClock] using ih l2 t
    | getCycleCount v => simpa [pinEvents, lastClock] using ih l2 v
    | waitBitCycles v => simpa [pinEvents, lastClock] using ih l2 v
    | pinMode p m =>
      rw [List.cons_append, pinEvents, pinEvents, lastClock]
      split_ifs
      · rw [ih l2 t]; rfl
      · exact ih l2 t

/-- The level changes requested by the byte loop of `write`. -/
theorem pinEvents_txBytes (txPin : Int) (inv : Bool) (B : Int) (clk : Nat → Nat)
    (hclk : ∀ j, clk j < 4294967296) :
    ∀ (bytes : List Nat) (cnt t : Nat),
      pinEvents txPin t (txBytes txPin inv B clk cnt bytes) = streamEdges inv B clk cnt bytes := by
  intro bytes
  induction bytes with
  | nil => intro cnt t; rfl
  | cons b r ih =>
    intro cnt t
    rw [txBytes, pinEvents_append, pinEvents_txByte _ _ _ _ _ (hclk cnt), ih, streamEdges]

theorem pinChanges_append : ∀ (l1 l2 : List (Nat × Bool)) (cur : Bool),
    pinChanges cur (l1 ++ l2) = pinChanges cur l1 ++ pinChanges (endLevel cur l1) l2 := by
  intro l1
  induction l1 with
  | nil => intro l2 cur; rfl
  | cons e r ih =>
    intro l2 cur
    obtain ⟨t, l⟩ := e
    rw [List.cons_append, pinChanges, pinChanges, endLevel]
    split_ifs with hl
    · rw [ih l2 cur, hl]
    · rw [ih l2 l]; rfl

theorem pinChanges_map (t0 : Nat) (B : Int) : ∀ (l : List (Nat × Bool)) (cur : Bool),
    pinChanges cur (l.map (slotTime t0 B)) = (pinChanges cur l).map (slotTime t0 B) := by
  intro l
  induction l with
  | nil => intro cur; rfl
  | cons e r ih =>
    intro cur
    obtain ⟨t, lv⟩ := e
    simp only [List.map_cons, slotTime, pinChanges]
    split_ifs
    · exact ih cur
    · rw [List.map_cons]; congr 1; exact ih lv

theorem endLevel_map (t0 : Nat) (B : Int) : ∀ (l : List (Nat × Bool)) (cur : Bool),
    endLevel cur (l.map (slotTime t0 B)) = endLevel cur l := by
  intro l
  induction l with
  | nil => intro cur; rfl
  | cons e r ih => intro cur; exact ih e.2

/-- Every request of a stream of frames changes the level of an idle line. -/
theorem pinChanges_stream (inv : Bool) (B : Int) (clk : Nat → Nat) :
    ∀ (bytes : List Nat) (cnt : Nat), (∀ b ∈ bytes, b < 256) →
      pinChanges (!inv) (streamEdges inv B clk cnt bytes) = streamEdges inv B clk cnt bytes := by
  intro bytes
  induction bytes with
  | nil => intro cnt _; rfl
  | cons b r ih =>
    intro cnt hb
    obtain ⟨data, a1, k1, p1, _, _, h3, h4, _⟩ :=
      frameOk_spec inv b (frameOk_all inv b (hb b (List.mem_cons_self _ _)))
    rw [streamEdges, pinChanges_append, pinChanges_map, h3, endLevel_map, h4,
      ih (cnt + 1) (fun x hx => hb x (List.mem_cons_of_mem _ hx))]

/-! ## Capture and whole decode passes -/

theorem isrQueued_length (s : Port) :
    (isrQueued s).length = ringCount s.m_isrInPos s.m_isrOutPos s.m_isrBufSize := by
  simp [isrQueued, ringSeq]

/-- A captured edge is appended to the edge queue when the buffer has room;
nothing else changes. -/
theorem rxRead_spec (s : Port) (c : Nat) (l : Bool) (hi : s.m_isrInPos < s.m_isrBufSize)
    (ho : s.m_isrOutPos < s.m_isrBufSize) (hroom : (isrQueued s).length + 1 < s.m_isrBufSize) :
    ∃ buf pos, rxRead s c l = { s with m_isrBuffer := buf, m_isrInPos := pos } ∧
      pos < s.m_isrBufSize ∧ isrQueued (rxRead s c l) = isrQueued s ++ [edgeWord c l] := by
  have hnf : (s.m_isrInPos + 1) % s.m_isrBufSize ≠ s.m_isrOutPos :=
    not_full_of_count hi ho (by rw [← isrQueued_length]; exact hroom)
  refine ⟨Function.update s.m_isrBuffer s.m_isrInPos (edgeWord c l),
    (s.m_isrInPos + 1) % s.m_isrBufSize, ?_, succ_mod_lt hi, ?_⟩
  · unfold rxRead
    simp only [hnf, ne_eq, not_false_eq_true, if_true]
  · unfold rxRead isrQueued
    simp only [hnf, ne_eq, not_false_eq_true, if_true]
    exact ringSeq_push _ _ hi ho hnf

/-- Captured edges are appended to the edge queue in order when the buffer has
room for all of them; nothing else changes. -/
theorem capture_spec : ∀ (es : List (Nat × Bool)) (s : Port), s.m_isrInPos < s.m_isrBufSize →
    s.m_isrOutPos < s.m_isrBufSize → (isrQueued s).length + es.length < s.m_isrBufSize →
    ∃ buf pos, capture s es = { s with m_isrBuffer := buf, m_isrInPos := pos } ∧
      pos < s.m_isrBufSize ∧
      isrQueued (capture s es) = isrQueued s ++ es.map fun e => edgeWord e.1 e.2 := by
  intro es
  induction es with
  | nil =>
    intro s hi _ _
    exact ⟨s.m_isrBuffer, s.m_isrInPos, rfl, hi, by simp [capture]⟩
  | cons e r ih =>
    intro s hi ho hroom
    simp only [List.length_cons] at hroom
    obtain ⟨buf, pos, e1, hp, hq⟩ := rxRead_spec s e.1 e.2 hi ho (by omega)
    have hs : capture s (e :: r) = capture (rxRead s e.1 e.2) r := rfl
    have hi2 : (rxRead s e.1 e.2).m_isrInPos < (rxRead s e.1 e.2).m_isrBufSize := by
      rw [e1]; exact hp
    have ho2 : (rxRead s e.1 e.2).m_isrOutPos < (rxRead s e.1 e.2).m_isrBufSize := by
      rw [e1]; exact ho
    have hr2 : (isrQueued (rxRead s e.1 e.2)).length + r.length
        < (rxRead s e.1 e.2).m_isrBufSize := by
      rw [hq, List.length_append, e1]; simp only [List.length_singleton]; omega
    obtain ⟨buf2, pos2, e2, hp2, hq2⟩ := ih (rxRead s e.1 e.2) hi2 ho2 hr2
    refine ⟨buf2, pos2, ?_, ?_, ?_⟩
    · rw [hs, e2, e1]
    · rw [e1] at hp2; exact hp2
    · rw [hs, hq2, hq, List.append_assoc]; rfl

/-- The overflow latch changes the two overflow flags only. -/
theorem rxLatch_eq (s : Port) :
    ∃ ov io, rxLatch s = { s with m_overflow := ov, m_isrOverflow := io } := by
  unfold rxLatch
  split_ifs
  · exact ⟨true, false, rfl⟩
  · exact ⟨s.m_overflow, s.m_isrOverflow, rfl⟩

/-- With edges queued, a decode pass is the overflow latch followed by the
replay of every queued edge. -/
theorem rxBits_drain (s : Port) (c : Nat) (ho : s.m_isrOutPos < s.m_isrBufSize)
    (hne : isrQueued s ≠ []) :
    rxBits s c = rxEvents (isrQueued s).length (rxLatch s) := by
  have hc : ringCount s.m_isrInPos s.m_isrOutPos s.m_isrBufSize ≠ 0 := by
    rw [← isrQueued_length]
    exact fun h => hne (List.length_eq_zero.mp h)
  unfold rxBits
  simp only []
  rw [avail_eq_ringCount ho]
  have hs : rxStopBit (rxLatch s) (ringCount s.m_isrInPos s.m_isrOutPos s.m_isrBufSize) c
      = (rxLatch s, (ringCount s.m_isrInPos s.m_isrOutPos s.m_isrBufSize : Int)) := by
    unfold rxStopBit
    rw [if_neg]
    intro h
    exact hc (by exact_mod_cast h.1)
  rw [hs]
  simp only []
  rw [if_neg (by omega), isrQueued_length]
  rfl

/-- A start edge met while the decoder waits for a start bit. -/
theorem rxEvent_idle (s : Port) (w : Nat) (rest : List Nat) (h : s.wf) (h8 : s.m_rxCurBit = 8)
    (hq : isrQueued s = w :: rest) (hlv : ((w &&& 1) == b2n s.m_invert) = false) :
    ∃ t, rxEvent s = some t ∧ t.dec = ⟨-1, s.m_rxCurByte⟩ ∧ queued t = queued s ∧
      t.m_lastCycle = w ∧ isrQueued t = rest ∧ Ext s t ∧ t.wf := by
  obtain ⟨hw0, hrest⟩ := isrQueued_pop s w rest h.2.2.1 h.2.2.2.1 hq
  obtain ⟨a1, a2, a3, a4, a5, a6, a7⟩ := h
  refine ⟨{ s with m_isrOutPos := (s.m_isrOutPos + 1) % s.m_isrBufSize, m_lastCycle := w,
                   m_rxCurBit := -1 }, ?_, rfl, rfl, rfl, hrest, ?_, ?_⟩
  · unfold rxEvent
    simp only [hw0, hlv, loopFuel]
    rw [rxBitLoop_succ]
    simp only [h8]
    simp
  · constructor <;> simp <;> tauto
  · exact ⟨a1, a2, a3, succ_mod_lt a4, a5, by simp, by simp⟩

/-! ## A stream of frames -/

theorem clockOk_lt {B : Int} {clk : Nat → Nat} (h : ClockOk B clk) : ∀ j, clk j < 4294967296 := by
  intro j
  cases j with
  | zero => exact h.1
  | succ j =>
    obtain ⟨g, _, hg⟩ := h.2 j
    rw [hg]; exact toU32_lt _

theorem toU32_of_lt {t : Nat} (h : t < 4294967296) : toU32 (t : Int) = t := by
  unfold toU32; omega

theorem edgeWords_frame (B : Int) (t0 : Nat) (es : List (Nat × Bool)) :
    edgeWords (es.map (slotTime t0 B)) = es.map (edgeAt t0 B) := by
  unfold edgeWords
  rw [List.map_map]
  rfl

theorem edgeWords_append (l1 l2 : List (Nat × Bool)) :
    edgeWords (l1 ++ l2) = edgeWords l1 ++ edgeWords l2 := by
  unfold edgeWords; rw [List.map_append]

theorem edgeWords_length (l : List (Nat × Bool)) : (edgeWords l).length = l.length := by
  unfold edgeWords; rw [List.length_map]

/-- The decode loop over the queued edges of a stream of frames, entered
after the start edge of the first one: every byte but the last is pushed, and
the decoder is left where the level changes of the last frame leave it. -/
theorem frames_chain (inv : Bool) (B : Int) (clk : Nat → Nat) (hB : 16 ≤ B)
    (hBm : B ≤ 200000000) (hck : ClockOk B clk) :
    ∀ (bytes : List Nat) (b cnt : Nat) (s : Port) (data : List (Nat × Bool)),
      b < 256 → (∀ x ∈ bytes, x < 256) → frameEdges inv b = (0, inv) :: data →
      s.wf → s.m_invert = inv → s.m_bitCycles = B → s.dec = ⟨-1, 0⟩ →
      Near s.m_lastCycle (clk cnt) →
      isrQueued s = data.map (edgeAt (clk cnt) B)
        ++ edgeWords (streamEdges inv B clk (cnt + 1) bytes) →
      (queued s).length + (bytes.length + 1) < s.m_bufSize →
      ∃ t bl a1 k1 p1 pre, rxEvents (isrQueued s).length s = some t ∧
        b :: bytes = pre ++ [bl] ∧ bl < 256 ∧ frameEnd inv bl = some (a1, k1, p1) ∧
        t.dec = a1 ∧ queued t = queued s ++ pre ++ p1 ∧
        Near t.m_lastCycle (toU32 (clk (cnt + bytes.length) + k1 * B)) ∧
        isrQueued t = [] ∧ Ext s t ∧ t.wf ∧ t.m_rxCurByte < 256 := by
  intro bytes
  induction bytes with
  | nil =>
    intro b cnt s data hb _ hf h hinv hBs hdec hl hq hroom
    obtain ⟨data2, a1, k1, p1, hf2, hrun, _, _, _, hk0, hk9, hy1, hp1, _, _⟩ :=
      frameOk_spec inv b (frameOk_all inv b hb)
    rw [hf] at hf2
    injection hf2 with _ hdd
    subst hdd
    have hy : s.m_rxCurByte < 256 := by
      have := congrArg Dec.y hdec; simp only [Port.dec] at this; omega
    have hl0 : Near s.m_lastCycle (toU32 (clk cnt + (0 : Nat) * B)) := by
      simp only [Nat.cast_zero, zero_mul, add_zero]
      rw [toU32_of_lt (clockOk_lt hck cnt)]; exact hl
    have hq0 : isrQueued s = data.map (edgeAt (clk cnt) B) ++ [] := by
      rw [hq]; simp [streamEdges, edgeWords]
    obtain ⟨t, e, hd, hqq, hlc, hiq, hx, hwf, hty⟩ :=
      rxEvents_run inv B (clk cnt) hB hBm data s 0 [] a1 k1 p1 (by rw [hdec]; exact hrun) h hinv
        hBs hy hl0 hq0 (by simp only [List.length_nil] at hroom; omega)
    refine ⟨t, b, a1, k1, p1, [], ?_, rfl, hb, ?_, hd, by simpa using hqq, ?_, hiq, hx, hwf, hty⟩
    · rw [hq0]; simpa using e
    · unfold frameEnd; rw [hf]; exact hrun
    · simpa using hlc
  | cons b2 r ih =>
    intro b cnt s data hb hbs hf h hinv hBs hdec hl hq hroom
    obtain ⟨data', a1, k1, p1, hf2, hrun, _, _, _, hk0, hk9, hy1, hp1, ⟨p2, hclose, hpp⟩, _⟩ :=
      frameOk_spec inv b (frameOk_all inv b hb)
    rw [hf] at hf2
    injection hf2 with _ hdd
    subst hdd
    have hb2 : b2 < 256 := hbs b2 (List.mem_cons_self _ _)
    obtain ⟨data2, _, _, _, hf3, _⟩ := frameOk_spec inv b2 (frameOk_all inv b2 hb2)
    have hy : s.m_rxCurByte < 256 := by
      have := congrArg Dec.y hdec; simp only [Port.dec] at this; omega
    have hl0 : Near s.m_lastCycle (toU32 (clk cnt + (0 : Nat) * B)) := by
      simp only [Nat.cast_zero, zero_mul, add_zero]
      rw [toU32_of_lt (clockOk_lt hck cnt)]; exact hl
    have hrest : edgeWords (streamEdges inv B clk (cnt + 1) (b2 :: r))
        = edgeAt (clk (cnt + 1)) B (0, inv) ::
            (data2.map (edgeAt (clk (cnt + 1)) B)
              ++ edgeWords (streamEdges inv B clk (cnt + 1 + 1) r)) := by
      rw [streamEdges, edgeWords_append, edgeWords_frame, hf3]
      rfl
    rw [hrest] at hq
    have hlen : p1.length + p2.length = 1 := by
      have := congrArg List.length hpp
      simpa using this
    simp only [List.length_cons] at hroom
    obtain ⟨t1, e1, hd1, hq1, hlc1, hiq1, hx1, hwf1, hty1⟩ :=
      rxEvents_run inv B (clk cnt) hB hBm data s 0 _ a1 k1 p1 (by rw [hdec]; exact hrun) h hinv
        hBs hy hl0 hq (by omega)
    obtain ⟨g, hg, hclk⟩ := hck.2 cnt
    obtain ⟨hh1, hh2⟩ := tdiv2_bounds B hB
    have hkB : (k1 : Int) * B ≤ 9 * B := Int.mul_le_mul_of_nonneg_right (by omega) (by omega)
    have hkB1 : 1 * B ≤ (k1 : Int) * B := Int.mul_le_mul_of_nonneg_right (by omega) (by omega)
    have hcast : ((10 - k1 : Nat) : Int) = 10 - (k1 : Int) := by omega
    have hmul : ((10 - k1 : Nat) : Int) * B = 10 * B - k1 * B := by rw [hcast]; ring
    have hw0 : toU32 ((clk (cnt + 1) : Int) + ((0 : Nat) : Int) * B) = clk (cnt + 1) := by
      simp only [Nat.cast_zero, zero_mul, add_zero]
      exact toU32_of_lt (clockOk_lt hck (cnt + 1))
    obtain ⟨t2, e2, hd2, hq2, hlc2, hiq2, hx2, hwf2, hty2⟩ :=
      rxEvent_abs t1 (edgeAt (clk (cnt + 1)) B (0, inv)) _ (clk (cnt + 1))
        (toU32 (clk cnt + k1 * B)) (((10 - k1 : Nat) : Int) * B + g) (10 - k1) false ⟨-1, 0⟩ p2
        hwf1 (by rw [hx1.bitCycles, hBs]; exact hB) (by rw [hx1.bitCycles, hBs]; omega) hty1
        hiq1
        (by
          unfold edgeAt
          simp only []
          rw [hw0]
          exact near_edgeWord _ _ (clockOk_lt hck (cnt + 1)))
        hlc1
        (by rw [hclk, toU32_add_left, hmul]; congr 1; ring)
        (by rw [hx1.bitCycles, hBs]; omega)
        (by rw [hx1.bitCycles, hBs, hmul]; omega)
        (fun hE => by cases hE)
        (fun hp => by
          apply not_full_of_count hwf1.1 hwf1.2.1
          rw [← queued_length, hq1, hx1.bufSize, List.length_append]
          have : p2.length ≠ 0 := fun hc => hp (List.length_eq_zero.mp hc)
          omega)
        (by
          rw [hx1.invert, hinv, hd1]
          unfold edgeAt
          rw [edgeWord_level]
          simpa using hclose)
    have hl2 : Near t2.m_lastCycle (clk (cnt + 1)) := by
      rw [hlc2]
      unfold edgeAt
      simp only []
      rw [hw0]
      exact near_edgeWord _ _ (clockOk_lt hck (cnt + 1))
    have hqt2 : queued t2 = queued s ++ [b] := by
      rw [hq2, hq1, List.append_assoc, hpp]
    obtain ⟨t, bl, a3, k3, p3, pre, e3, hsplit, hbl, hfe, hd3, hq3, hlc3, hiq3, hx3, hwf3, hty3⟩ :=
      ih b2 (cnt + 1) t2 data2 hb2 (fun x hx => hbs x (List.mem_cons_of_mem _ hx)) hf3 hwf2
        (by rw [hx2.invert, hx1.invert, hinv]) (by rw [hx2.bitCycles, hx1.bitCycles, hBs]) hd2 hl2
        hiq2
        (by rw [hqt2, hx2.bufSize, hx1.bufSize, List.length_append]
            simp only [List.length_singleton]; omega)
    refine ⟨t, bl, a3, k3, p3, b :: pre, ?_, by rw [hsplit]; rfl, hbl, hfe, hd3, ?_, ?_, hiq3,
      (hx1.extTrans hx2).extTrans hx3, hwf3, hty3⟩
    · have hn : (isrQueued s).length = data.length + (1 + (isrQueued t2).length) := by
        rw [hq, hiq2]
        simp only [List.length_append, List.length_map, List.length_cons]
        omega
      rw [hn, rxEvents_add _ _ _ _ e1, rxEvents_add 1 _ _ t2 (by
        rw [rxEvents_succ, e2]; rfl)]
      exact e3
    · rw [hq3, hqt2]; simp
    · have : cnt + 1 + r.length = cnt + (b2 :: r).length := by
        simp only [List.length_cons]; omega
      rw [← this]; exact hlc3

theorem isr_empty_of_nil (s : Port) (h : s.wf) (hq : isrQueued s = []) :
    s.m_isrInPos = s.m_isrOutPos := by
  have := congrArg List.length hq
  rw [isrQueued_length] at this
  exact (ringCount_eq_zero h.2.2.1 h.2.2.2.1).mp (by simpa using this)

theorem tdiv2_upper (B : Int) (hB : 16 ≤ B) : B ≤ 2 * Int.tdiv B 2 + 1 := by
  rw [Int.tdiv_eq_ediv (by omega) (by omega)]
  omega

/-- The stop bit block: with the edge queue empty, a byte in assembly and the
timeout passed, a decode pass makes up the stop bit event, consumes it and
pushes the byte that `absEvent` computes for it. -/
theorem rxBits_stop (s : Port) (c b : Nat) (a3 : Dec) (h : s.wf) (hB : 16 ≤ s.m_bitCycles)
    (hBm : s.m_bitCycles ≤ 200000000) (hy : s.m_rxCurByte < 256)
    (he : s.m_isrInPos = s.m_isrOutPos) (hsz : 2 ≤ s.m_isrBufSize) (hdue : stopBitDue s c)
    (hlast : s.m_lastCycle < 4294967296)
    (habs : absEvent s.dec (11 - s.m_rxCurBit).toNat true false = some (a3, [b]))
    (hroom : (queued s).length + 1 < s.m_bufSize) :
    ∃ t, rxBits s c = some t ∧ queued t = queued s ++ [b] := by
  obtain ⟨ov, io, hL⟩ := rxLatch_eq s
  obtain ⟨hc0, hc8, hgt⟩ := hdue
  obtain ⟨hh1, hh2⟩ := tdiv2_bounds _ hB
  have hh3 := tdiv2_upper _ hB
  have hnext : (s.m_isrInPos + 1) % s.m_isrBufSize ≠ s.m_isrOutPos := by
    rw [succ_mod_eq h.2.2.1, ← he]
    split_ifs <;> omega
  have hm0 : 0 ≤ (11 - s.m_rxCurBit) * s.m_bitCycles := mul_nonneg (by omega) (by omega)
  have hm11 : (11 - s.m_rxCurBit) * s.m_bitCycles ≤ 11 * s.m_bitCycles :=
    Int.mul_le_mul_of_nonneg_right (by omega) (by omega)
  have hexp : (toU32 ((11 - s.m_rxCurBit) * s.m_bitCycles) : Int)
      = (11 - s.m_rxCurBit) * s.m_bitCycles := toU32_of_range hm0 (by omega)
  -- the state handed to the replay loop
  let w := edgeWord (toU32 ((s.m_lastCycle : Int)
      + toU32 ((11 - s.m_rxCurBit) * s.m_bitCycles))) s.m_invert
  let s1 : Port := { s with m_overflow := ov, m_isrOverflow := io,
                            m_isrBuffer := Function.update s.m_isrBuffer s.m_isrInPos w,
                            m_isrInPos := (s.m_isrInPos + 1) % s.m_isrBufSize }
  have hstop : rxStopBit (rxLatch s) 0 c = (s1, 1) := by
    rw [hL]
    have hcond : ((0 : Int) = 0 ∧ s.m_rxCurBit < 8 ∧ s.m_isrInPos = s.m_isrOutPos
        ∧ s.m_rxCurBit ≥ 0) := ⟨rfl, hc8, he, hc0⟩
    unfold rxStopBit
    rw [if_pos hcond]
    simp only []
    rw [if_pos hgt, if_pos hnext]
    rfl
  have hrx : rxBits s c = rxEvents 1 s1 := by
    unfold rxBits
    simp only [he, sub_self, lt_self_iff_false, if_false, hstop]
    rfl
  have hw1 : s1.wf := by
    obtain ⟨a1, a2, a3', a4, a5, a6, a7⟩ := h
    exact ⟨a1, a2, succ_mod_lt a3', a4, a5, a6, a7⟩
  have hq1 : isrQueued s1 = [w] := by
    have := ringSeq_push s.m_isrBuffer w h.2.2.1 h.2.2.2.1 hnext
    rw [he, ringCount_self] at this
    show ringSeq _ _ _ _ = _
    rw [← he] at this ⊢
    simpa [ringSeq] using this
  obtain ⟨t, e, _, hqq, _⟩ :=
    rxEvent_abs s1 w [] (toU32 ((s.m_lastCycle : Int)
        + toU32 ((11 - s.m_rxCurBit) * s.m_bitCycles))) s.m_lastCycle
      ((11 - s.m_rxCurBit) * s.m_bitCycles) (11 - s.m_rxCurBit).toNat true a3 [b] hw1 hB
      (by show s.m_bitCycles < _; omega) hy hq1 (near_edgeWord _ _ (toU32_lt _))
      (show Near s.m_lastCycle s.m_lastCycle from ⟨hlast, hlast, by omega, by omega⟩)
      (by rw [hexp])
      (by
        show ((11 - s.m_rxCurBit).toNat : Int) * s.m_bitCycles ≤ _
        rw [Int.toNat_of_nonneg (by omega)])
      (by show _ - Int.tdiv s.m_bitCycles 2 + 2 < _; omega)
      (fun _ => by
        show _ ≤ ((11 - s.m_rxCurBit).toNat : Int) * s.m_bitCycles
        rw [Int.toNat_of_nonneg (by omega)])
      (fun _ => not_full_of_count h.1 h.2.1 (by rw [← queued_length]; exact hroom))
      (by
        show absEvent s.dec _ true ((w &&& 1) == b2n s.m_invert) = _
        rw [edgeWord_level]
        simpa using habs)
  refine ⟨t, ?_, hqq⟩
  rw [hrx, rxEvents_succ, e]
  rfl

/-! ## Loop-back -/

theorem streamEdges_length (inv : Bool) (B : Int) (clk : Nat → Nat) :
    ∀ (bytes : List Nat) (cnt : Nat), (∀ b ∈ bytes, b < 256) →
      (streamEdges inv B clk cnt bytes).length ≤ 10 * bytes.length := by
  intro bytes
  induction bytes with
  | nil => intro cnt _; simp [streamEdges]
  | cons b r ih =>
    intro cnt hb
    obtain ⟨_, _, _, _, _, _, _, _, h5, _⟩ :=
      frameOk_spec inv b (frameOk_all inv b (hb b (List.mem_cons_self _ _)))
    have := ih (cnt + 1) (fun x hx => hb x (List.mem_cons_of_mem _ hx))
    rw [streamEdges, List.length_append, List.length_map, List.length_cons]
    omega

/-- The level changes that a `write` on an idle port puts on its transmit pin
are those of the stream of frames; the decode pass at its head only runs the
overflow latch. -/
theorem loopback_eq (s : Port) (bytes : List Nat) (clk : Nat → Nat) (cyc0 : Nat)
    (hrx : s.m_rxValid = true) (htx : s.m_txValid = true)
    (hen : s.m_txEnableValid = true → s.m_txEnablePin ≠ s.m_txPin)
    (hidle : s.m_rxCurBit = 8) (hempty : s.m_isrInPos = s.m_isrOutPos)
    (hbytes : ∀ b ∈ bytes, b < 256) (hclk : ∀ j, clk j < 4294967296) :
    loopback s bytes clk cyc0
      = some (capture (rxLatch s) (streamEdges s.m_invert s.m_bitCycles clk 0 bytes)) := by
  have e := rxBits_idle s cyc0 hempty (fun hd => by have := hd.2.1; omega)
  obtain ⟨ov, io, hL⟩ := rxLatch_eq s
  unfold loopback write
  rw [if_pos hrx, e, hL]
  simp only [Option.some_bind, htx, Bool.not_true, Bool.false_eq_true, if_false, Option.map_some']
  congr 1
  congr 1
  rw [← pinChanges_stream s.m_invert s.m_bitCycles clk bytes 0 hbytes]
  have hmode : modeLevel (if s.m_invert = true then PinMode.OUTPUT else PinMode.INPUT_PULLUP)
      = !s.m_invert := by
    cases s.m_invert <;> rfl
  by_cases hv : s.m_txEnableValid = true
  · have hne := hen hv
    have htail : ∀ t, pinEvents s.m_txPin t
        [HalOp.pinMode s.m_txEnablePin PinMode.OUTPUT, HalOp.interrupts] = [] := by
      intro t; simp [pinEvents, hne]
    simp only [hv, if_true, List.cons_append, List.nil_append, List.append_assoc,
      List.singleton_append]
    rw [pinEvents, pinEvents, if_neg hne, pinEvents, if_pos rfl, pinEvents_append,
      pinEvents_txBytes _ _ _ _ hclk, htail, List.append_nil, hmode, pinChanges, if_pos rfl]
  · have htail : ∀ t, pinEvents s.m_txPin t [HalOp.interrupts] = [] := by
      intro t; simp [pinEvents]
    simp only [hv, if_false, List.cons_append, List.nil_append, List.append_assoc,
      List.singleton_append, List.append_nil, Bool.false_eq_true]
    rw [pinEvents, pinEvents, if_pos rfl, pinEvents_append,
      pinEvents_txBytes _ _ _ _ hclk, htail, List.append_nil, hmode, pinChanges, if_pos rfl]

theorem rxLatch_wf (s : Port) (h : s.wf) : (rxLatch s).wf := (grow_rxLatch s h).wf

theorem rxLatch_queued (s : Port) : queued (rxLatch s) = queued s := by
  unfold rxLatch; split_ifs <;> rfl

theorem rxLatch_isrQueued (s : Port) : isrQueued (rxLatch s) = isrQueued s := by
  unfold rxLatch; split_ifs <;> rfl

theorem rxLatch_dec (s : Port) : (rxLatch s).dec = s.dec := by
  unfold rxLatch; split_ifs <;> rfl

/-- The stop bit timeout has passed once the line has idled for two bit
periods and two cycles after the stop bit of a frame whose last level change
was `X` cycles after its start. -/
theorem stop_due_arith (T0 last cyc2 : Nat) (B X : Int) (idle : Nat) (hB : 16 ≤ B)
    (hBm : B ≤ 200000000) (hX1 : B ≤ X) (hX9 : X ≤ 9 * B) (hi1 : 2 * B + 2 ≤ idle)
    (hi2 : idle ≤ 2147483648) (hn : Near last (toU32 (T0 + X)))
    (hc : cyc2 = toU32 (T0 + 10 * B + idle)) :
    toU32 ((cyc2 : Int) - last) > toU32 (12 * B - X) := by
  obtain ⟨n1, n2, n3, n4⟩ := hn
  have hTc := toU32_cast ((T0 : Int) + X)
  have hCc := toU32_cast ((T0 : Int) + 10 * B + idle)
  rw [← hc] at hCc
  have hm1 : (cyc2 : Int) ≡ T0 + 10 * B + idle [ZMOD 4294967296] := by
    rw [hCc]; exact Int.mod_modEq _ _
  have hm2 : (toU32 ((T0 : Int) + X) : Int) ≡ T0 + X [ZMOD 4294967296] := by
    rw [hTc]; exact Int.mod_modEq _ _
  have hm3 : (cyc2 : Int) - last
      ≡ 10 * B + idle - X - ((last : Int) - toU32 ((T0 : Int) + X)) [ZMOD 4294967296] := by
    have h := hm1.sub (hm2.add (Int.ModEq.refl ((last : Int) - toU32 ((T0 : Int) + X))))
    have e1 : (toU32 ((T0 : Int) + X) : Int) + ((last : Int) - toU32 ((T0 : Int) + X))
        = last := by ring
    have e2 : (T0 : Int) + 10 * B + idle - (T0 + X + ((last : Int) - toU32 ((T0 : Int) + X)))
        = 10 * B + idle - X - ((last : Int) - toU32 ((T0 : Int) + X)) := by ring
    rw [e1, e2] at h
    exact h
  have h1 : (toU32 ((cyc2 : Int) - last) : Int)
      = 10 * B + idle - X - ((last : Int) - toU32 ((T0 : Int) + X)) := by
    rw [toU32_cast, hm3]
    exact Int.emod_eq_of_lt (by omega) (by omega)
  have h2 : (toU32 (12 * B - X) : Int) = 12 * B - X := toU32_of_range (by omega) (by omega)
  omega

/-! ## Moving the counter origin -/

theorem rxDataBits_withEdges (s : Port) (b : Nat → Nat) (x : Nat) (l : Bool) (c : Int) :
    rxDataBits (s.withEdges b x) l c
      = ((rxDataBits s l c).1.withEdges b x, (rxDataBits s l c).2) := by
  unfold rxDataBits rxHiddenBits rxDataBit Port.withEdges
  simp only []
  split_ifs <;> rfl

theorem rxStoreByte_withEdges (s : Port) (b : Nat → Nat) (x : Nat) :
    rxStoreByte (s.withEdges b x) = (rxStoreByte s).withEdges b x := by
  unfold rxStoreByte Port.withEdges
  simp only []
  split_ifs <;> rfl

theorem rxBitLoop_withEdges (level : Bool) (b : Nat → Nat) (x : Nat) :
    ∀ (fuel : Nat) (cycles : Int) (s : Port),
      rxBitLoop level fuel cycles (s.withEdges b x)
        = (rxBitLoop level fuel cycles s).map fun t => t.withEdges b x := by
  intro fuel
  induction fuel with
  | zero => intro cycles s; simp [rxBitLoop]
  | succ n ih =>
    intro cycles s
    rw [rxBitLoop_succ, rxBitLoop_succ, rxDataBits_withEdges, rxStoreByte_withEdges]
    have e1 : (s.withEdges b x).m_rxCurBit = s.m_rxCurBit := rfl
    have e2 : (s.withEdges b x).m_bitCycles = s.m_bitCycles := rfl
    rw [e1, e2]
    simp only []
    split_ifs
    all_goals first | rfl | exact ih _ _

theorem shiftWord_level (K w : Nat) (hK : K % 2 = 0) : (shiftWord K w &&& 1) = (w &&& 1) := by
  rw [Nat.and_one_is_mod, Nat.and_one_is_mod]
  unfold shiftWord toU32
  omega

theorem shiftWord_cycles (K w l : Nat) (h : Int) :
    toI32 ((shiftWord K w : Int) - shiftWord K l - h) = toI32 ((w : Int) - l - h) := by
  unfold shiftWord toI32 toU32
  omega

theorem shiftWord_delta (K c l : Nat) :
    toU32 ((shiftWord K c : Int) - shiftWord K l) = toU32 ((c : Int) - l) := by
  unfold shiftWord toU32
  omega

theorem edgeWord_shift (K l e : Nat) (lv : Bool) (hK : K % 2 = 0) :
    edgeWord (toU32 ((shiftWord K l : Int) + e)) lv
      = shiftWord K (edgeWord (toU32 ((l : Int) + e)) lv) := by
  rw [edgeWord_eq, edgeWord_eq]
  unfold shiftWord toU32
  cases lv <;> simp only [b2n, if_true, if_false, Bool.false_eq_true] <;> omega

theorem rxEvent_lastCycle {s t : Port} (h : rxEvent s = some t) :
    t.m_lastCycle = s.m_isrBuffer s.m_isrOutPos := by
  have e : rxEvent s = rxBitLoop ((s.m_isrBuffer s.m_isrOutPos &&& 1) == b2n s.m_invert) loopFuel
      (toI32 ((s.m_isrBuffer s.m_isrOutPos : Int) - s.m_lastCycle - Int.tdiv s.m_bitCycles 2))
      (({ s with m_isrOutPos := (s.m_isrOutPos + 1) % s.m_isrBufSize }).withEdges
        s.m_isrBuffer (s.m_isrBuffer s.m_isrOutPos)) := rfl
  rw [e, rxBitLoop_withEdges] at h
  cases h1 : rxBitLoop ((s.m_isrBuffer s.m_isrOutPos &&& 1) == b2n s.m_invert) loopFuel
      (toI32 ((s.m_isrBuffer s.m_isrOutPos : Int) - s.m_lastCycle - Int.tdiv s.m_bitCycles 2))
      { s with m_isrOutPos := (s.m_isrOutPos + 1) % s.m_isrBufSize } with
  | none => rw [h1] at h; cases h
  | some u => rw [h1] at h; cases h; rfl

theorem rxEvent_shift (K : Nat) (hK : K % 2 = 0) (s : Port) (b : Nat → Nat)
    (hw : b s.m_isrOutPos = shiftWord K (s.m_isrBuffer s.m_isrOutPos)) :
    rxEvent (s.withEdges b (shiftWord K s.m_lastCycle))
      = (rxEvent s).map fun t => t.withEdges b (shiftWord K (s.m_isrBuffer s.m_isrOutPos)) := by
  have e : rxEvent (s.withEdges b (shiftWord K s.m_lastCycle))
      = rxBitLoop ((b s.m_isrOutPos &&& 1) == b2n s.m_invert) loopFuel
          (toI32 ((b s.m_isrOutPos : Int) - shiftWord K s.m_lastCycle - Int.tdiv s.m_bitCycles 2))
          (({ s with m_isrOutPos := (s.m_isrOutPos + 1) % s.m_isrBufSize,
                     m_lastCycle := s.m_isrBuffer s.m_isrOutPos }).withEdges
            b (b s.m_isrOutPos)) := rfl
  rw [e, hw, shiftWord_level K _ hK, shiftWord_cycles, rxBitLoop_withEdges]
  rfl

theorem rxEvents_shift (K : Nat) (hK : K % 2 = 0) :
    ∀ (n : Nat) (s : Port) (b : Nat → Nat), s.wf →
      (∀ j < n, b ((s.m_isrOutPos + j) % s.m_isrBufSize)
        = shiftWord K (s.m_isrBuffer ((s.m_isrOutPos + j) % s.m_isrBufSize))) →
      ∃ t, rxEvents n s = some t ∧
        rxEvents n (s.withEdges b (shiftWord K s.m_lastCycle))
          = some (t.withEdges b (shiftWord K t.m_lastCycle)) ∧
        t.wf ∧ t.m_isrInPos = s.m_isrInPos ∧ t.m_isrBufSize = s.m_isrBufSize ∧
        t.m_isrOutPos = (s.m_isrOutPos + n) % s.m_isrBufSize := by
  intro n
  induction n with
  | zero =>
    intro s b h _
    exact ⟨s, rfl, rfl, h, rfl, rfl, (Nat.mod_eq_of_lt h.2.2.2.1).symm⟩
  | succ n ih =>
    intro s b h hq
    obtain ⟨t1, h1, hg, hin, hbuf, hout⟩ := rxEvent_total s h
    have hN := (ext_rxEvent h1).isrBufSize
    have hl := rxEvent_lastCycle h1
    have hw : b s.m_isrOutPos = shiftWord K (s.m_isrBuffer s.m_isrOutPos) := by
      have := hq 0 (Nat.succ_pos n)
      rwa [Nat.add_zero, Nat.mod_eq_of_lt h.2.2.2.1] at this
    have hq1 : ∀ j < n, b ((t1.m_isrOutPos + j) % t1.m_isrBufSize)
        = shiftWord K (t1.m_isrBuffer ((t1.m_isrOutPos + j) % t1.m_isrBufSize)) := by
      intro j hj
      have := hq (j + 1) (Nat.succ_lt_succ hj)
      rw [hout, hN, hbuf, Nat.mod_add_mod]
      rwa [show s.m_isrOutPos + 1 + j = s.m_isrOutPos + (j + 1) by omega]
    obtain ⟨t, h2, h3, hwf, hin2, hN2, hout2⟩ := ih t1 b hg.wf hq1
    refine ⟨t, ?_, ?_, hwf, hin2.trans hin, hN2.trans hN, ?_⟩
    · rw [rxEvents_succ, h1]; exact h2
    · rw [rxEvents_succ, rxEvent_shift K hK s b hw, h1, Option.map_some', Option.some_bind,
        ← hl]
      exact h3
    · rw [hout2, hout, hN, Nat.mod_add_mod]
      congr 1; omega

theorem rxLatch_withEdges (s : Port) (b : Nat → Nat) (x : Nat) :
    rxLatch (s.withEdges b x) = (rxLatch s).withEdges b x := by
  unfold rxLatch Port.withEdges
  simp only []
  split_ifs <;> rfl

theorem rxLatch_lastCycle (s : Port) : (rxLatch s).m_lastCycle = s.m_lastCycle := by
  unfold rxLatch
  split_ifs <;> rfl

theorem rxStopBit_shift (K : Nat) (hK : K % 2 = 0) (s : Port) (b : Nat → Nat) (c : Nat)
    (h : s.wf)
    (hq : ∀ j < ringCount s.m_isrInPos s.m_isrOutPos s.m_isrBufSize,
      b ((s.m_isrOutPos + j) % s.m_isrBufSize)
        = shiftWord K (s.m_isrBuffer ((s.m_isrOutPos + j) % s.m_isrBufSize))) :
    ∃ (b2 : Nat → Nat) (r : Port) (n : Nat),
      rxStopBit s (ringCount s.m_isrInPos s.m_isrOutPos s.m_isrBufSize : Nat) c = (r, (n : Int)) ∧
      rxStopBit (s.withEdges b (shiftWord K s.m_lastCycle))
          (ringCount s.m_isrInPos s.m_isrOutPos s.m_isrBufSize : Nat) (shiftWord K c)
        = (r.withEdges b2 (shiftWord K r.m_lastCycle), (n : Int)) ∧
      n = ringCount r.m_isrInPos r.m_isrOutPos r.m_isrBufSize ∧
      ∀ j < n, b2 ((r.m_isrOutPos + j) % r.m_isrBufSize)
        = shiftWord K (r.m_isrBuffer ((r.m_isrOutPos + j) % r.m_isrBufSize)) := by
  obtain ⟨a1, a2, a3, a4, a5, a6, a7⟩ := h
  by_cases hc : ((ringCount s.m_isrInPos s.m_isrOutPos s.m_isrBufSize : Nat) : Int) = 0 ∧
      s.m_rxCurBit < 8 ∧ s.m_isrInPos = s.m_isrOutPos ∧ s.m_rxCurBit ≥ 0
  · by_cases hd : toU32 ((c : Int) - s.m_lastCycle) > toU32 ((11 - s.m_rxCurBit) * s.m_bitCycles)
    · by_cases hn : (s.m_isrInPos + 1) % s.m_isrBufSize ≠ s.m_isrOutPos
      · refine ⟨Function.update b s.m_isrInPos
            (shiftWord K (edgeWord (toU32 ((s.m_lastCycle : Int) +
              toU32 ((11 - s.m_rxCurBit) * s.m_bitCycles))) s.m_invert)),
          { s with
            m_isrBuffer := Function.update s.m_isrBuffer s.m_isrInPos
              (edgeWord (toU32 ((s.m_lastCycle : Int) +
                toU32 ((11 - s.m_rxCurBit) * s.m_bitCycles))) s.m_invert)
            m_isrInPos := (s.m_isrInPos + 1) % s.m_isrBufSize }, 1, ?_, ?_, ?_, ?_⟩
        · unfold rxStopBit
          rw [if_pos hc]
          simp only []
          rw [if_pos hd, if_pos hn, hc.1]
          rfl
        · have hc2 : ((ringCount s.m_isrInPos s.m_isrOutPos s.m_isrBufSize : Nat) : Int) = 0 ∧
              (s.withEdges b (shiftWord K s.m_lastCycle)).m_rxCurBit < 8 ∧
              (s.withEdges b (shiftWord K s.m_lastCycle)).m_isrInPos
                = (s.withEdges b (shiftWord K s.m_lastCycle)).m_isrOutPos ∧
              (s.withEdges b (shiftWord K s.m_lastCycle)).m_rxCurBit ≥ 0 := hc
          have hd2 : toU32 ((shiftWord K c : Int) - (s.withEdges b (shiftWord K s.m_lastCycle)).m_lastCycle)
              > toU32 ((11 - (s.withEdges b (shiftWord K s.m_lastCycle)).m_rxCurBit)
                  * (s.withEdges b (shiftWord K s.m_lastCycle)).m_bitCycles) := by
            show toU32 ((shiftWord K c : Int) - shiftWord K s.m_lastCycle) > _
            rw [shiftWord_delta]; exact hd
          have hn2 : ((s.withEdges b (shiftWord K s.m_lastCycle)).m_isrInPos + 1)
              % (s.withEdges b (shiftWord K s.m_lastCycle)).m_isrBufSize
              ≠ (s.withEdges b (shiftWord K s.m_lastCycle)).m_isrOutPos := hn
          unfold rxStopBit
          rw [if_pos hc2]
          simp only []
          rw [if_pos hd2, if_pos hn2, hc.1]
          show ({ s.withEdges b (shiftWord K s.m_lastCycle) with
                  m_isrBuffer := Function.update b s.m_isrInPos
                    (edgeWord (toU32 ((shiftWord K s.m_lastCycle : Int) +
                      toU32 ((11 - s.m_rxCurBit) * s.m_bitCycles))) s.m_invert)
                  m_isrInPos := (s.m_isrInPos + 1) % s.m_isrBufSize }, (0 : Int) + 1) = _
          rw [edgeWord_shift K _ _ _ hK]
          rfl
        · show 1 = ringCount ((s.m_isrInPos + 1) % s.m_isrBufSize) s.m_isrOutPos s.m_isrBufSize
          rw [ringCount_push a3 a4 hn, hc.2.2.1, ringCount_self]
        · intro j hj
          have hj0 : j = 0 := by omega
          subst hj0
          show Function.update b s.m_isrInPos _ ((s.m_isrOutPos + 0) % s.m_isrBufSize)
            = shiftWord K (Function.update s.m_isrBuffer s.m_isrInPos _
                ((s.m_isrOutPos + 0) % s.m_isrBufSize))
          rw [Nat.add_zero, Nat.mod_eq_of_lt a4, ← hc.2.2.1, Function.update_same,
            Function.update_same]
      · refine ⟨b, { s with m_isrOverflow := true, lostEdges := s.lostEdges + 1 }, 0, ?_, ?_, ?_, ?_⟩
        · unfold rxStopBit
          rw [if_pos hc]
          simp only []
          rw [if_pos hd, if_neg hn, hc.1]
          rfl
        · have hc2 : ((ringCount s.m_isrInPos s.m_isrOutPos s.m_isrBufSize : Nat) : Int) = 0 ∧
              (s.withEdges b (shiftWord K s.m_lastCycle)).m_rxCurBit < 8 ∧
              (s.withEdges b (shiftWord K s.m_lastCycle)).m_isrInPos
                = (s.withEdges b (shiftWord K s.m_lastCycle)).m_isrOutPos ∧
              (s.withEdges b (shiftWord K s.m_lastCycle)).m_rxCurBit ≥ 0 := hc
          have hd2 : toU32 ((shiftWord K c : Int) - (s.withEdges b (shiftWord K s.m_lastCycle)).m_lastCycle)
              > toU32 ((11 - (s.withEdges b (shiftWord K s.m_lastCycle)).m_rxCurBit)
                  * (s.withEdges b (shiftWord K s.m_lastCycle)).m_bitCycles) := by
            show toU32 ((shiftWord K c : Int) - shiftWord K s.m_lastCycle) > _
            rw [shiftWord_delta]; exact hd
          have hn2 : ¬ ((s.withEdges b (shiftWord K s.m_lastCycle)).m_isrInPos + 1)
              % (s.withEdges b (shiftWord K s.m_lastCycle)).m_isrBufSize
              ≠ (s.withEdges b (shiftWord K s.m_lastCycle)).m_isrOutPos := hn
          unfold rxStopBit
          rw [if_pos hc2]
          simp only []
          rw [if_pos hd2, if_neg hn2, hc.1]
          rfl
        · show 0 = ringCount s.m_isrInPos s.m_isrOutPos s.m_isrBufSize
          rw [hc.2.2.1, ringCount_self]
        · intro j hj; omega
    · refine ⟨b, s, ringCount s.m_isrInPos s.m_isrOutPos s.m_isrBufSize, ?_, ?_, rfl, hq⟩
      · unfold rxStopBit
        rw [if_pos hc]
        simp only []
        rw [if_neg hd]
      · have hc2 : ((ringCount s.m_isrInPos s.m_isrOutPos s.m_isrBufSize : Nat) : Int) = 0 ∧
            (s.withEdges b (shiftWord K s.m_lastCycle)).m_rxCurBit < 8 ∧
            (s.withEdges b (shiftWord K s.m_lastCycle)).m_isrInPos
              = (s.withEdges b (shiftWord K s.m_lastCycle)).m_isrOutPos ∧
            (s.withEdges b (shiftWord K s.m_lastCycle)).m_rxCurBit ≥ 0 := hc
        have hd2 : ¬ toU32 ((shiftWord K c : Int) - (s.withEdges b (shiftWord K s.m_lastCycle)).m_lastCycle)
            > toU32 ((11 - (s.withEdges b (shiftWord K s.m_lastCycle)).m_rxCurBit)
                * (s.withEdges b (shiftWord K s.m_lastCycle)).m_bitCycles) := by
          show ¬ toU32 ((shiftWord K c : Int) - shiftWord K s.m_lastCycle) > _
          rw [shiftWord_delta]; exact hd
        unfold rxStopBit
        rw [if_pos hc2]
        simp only []
        rw [if_neg hd2]
  · refine ⟨b, s, ringCount s.m_isrInPos s.m_isrOutPos s.m_isrBufSize, ?_, ?_, rfl, hq⟩
    · unfold rxStopBit
      rw [if_neg hc]
    · have hc2 : ¬ (((ringCount s.m_isrInPos s.m_isrOutPos s.m_isrBufSize : Nat) : Int) = 0 ∧
          (s.withEdges b (shiftWord K s.m_lastCycle)).m_rxCurBit < 8 ∧
          (s.withEdges b (shiftWord K s.m_lastCycle)).m_isrInPos
            = (s.withEdges b (shiftWord K s.m_lastCycle)).m_isrOutPos ∧
          (s.withEdges b (shiftWord K s.m_lastCycle)).m_rxCurBit ≥ 0) := hc
      unfold rxStopBit
      rw [if_neg hc2]

theorem rxBits_eq (s : Port) (c : Nat) (ho : s.m_isrOutPos < s.m_isrBufSize) :
    rxBits s c
      = rxEvents (rxStopBit (rxLatch s)
            (ringCount s.m_isrInPos s.m_isrOutPos s.m_isrBufSize : Nat) c).2.toNat
          (rxStopBit (rxLatch s) (ringCount s.m_isrInPos s.m_isrOutPos s.m_isrBufSize : Nat) c).1 := by
  unfold rxBits
  simp only []
  rw [avail_eq_ringCount ho]
  have hn := rxStopBit_avail (rxLatch s) (ringCount s.m_isrInPos s.m_isrOutPos s.m_isrBufSize) c
    (by omega)
  rw [if_neg (by omega)]

/-! ## Construction and configuration -/

theorem construct_txValid (rx tx : Int) (inv : Bool) (n m : Nat) (a1 a2 : Bool) :
    (construct rx tx inv n m a1 a2).m_txValid = true ↔
      ((0 ≤ tx ∧ tx ≤ 5) ∨ (12 ≤ tx ∧ tx ≤ 15) ∨ (tx = 16 ∧ tx ≠ rx)) := by
  have hv : isValidGPIOpin tx = true ↔ ((0 ≤ tx ∧ tx ≤ 5) ∨ (12 ≤ tx ∧ tx ≤ 15)) := by
    simp only [isValidGPIOpin, Bool.or_eq_true, Bool.and_eq_true, decide_eq_true_eq, ge_iff_le]
  by_cases hr : isValidGPIOpin rx = true
  · by_cases ht : (isValidGPIOpin tx || (!(rx == tx) && tx == 16)) = true
    · have e : (construct rx tx inv n m a1 a2).m_txValid = true := by
        unfold construct
        simp only [hr, if_true]
        rw [if_pos ht]
      simp only [e, true_iff]
      simp only [Bool.or_eq_true, Bool.and_eq_true, Bool.not_eq_true', beq_iff_eq,
        beq_eq_false_iff_ne, ne_eq, hv] at ht
      omega
    · have e : (construct rx tx inv n m a1 a2).m_txValid = false := by
        unfold construct
        simp only [hr, if_true]
        rw [if_neg ht]
        rfl
      simp only [e, Bool.false_eq_true, false_iff]
      simp only [Bool.or_eq_true, Bool.and_eq_true, Bool.not_eq_true', beq_iff_eq,
        beq_eq_false_iff_ne, ne_eq, hv] at ht
      omega
  · by_cases ht : (isValidGPIOpin tx || (!(rx == tx) && tx == 16)) = true
    · have e : (construct rx tx inv n m a1 a2).m_txValid = true := by
        unfold construct
        simp only [hr, if_false, Bool.false_eq_true]
        rw [if_pos ht]
      simp only [e, true_iff]
      simp only [Bool.or_eq_true, Bool.and_eq_true, Bool.not_eq_true', beq_iff_eq,
        beq_eq_false_iff_ne, ne_eq, hv] at ht
      omega
    · have e : (construct rx tx inv n m a1 a2).m_txValid = false := by
        unfold construct
        simp only [hr, if_false, Bool.false_eq_true]
        rw [if_neg ht]
        rfl
      simp only [e, Bool.false_eq_true, false_iff]
      simp only [Bool.or_eq_true, Bool.and_eq_true, Bool.not_eq_true', beq_iff_eq,
        beq_eq_false_iff_ne, ne_eq, hv] at ht
      omega

theorem inert_of_not_rxValid (s : Port) (h : s.m_rxValid = false) (c c1 c2 : Nat) :
    read s c = some (-1, s) ∧ peek s c = some (-1, s) ∧ available s c1 c2 = some (0, s) := by
  refine ⟨?_, ?_, ?_⟩
  · unfold read; rw [h]; rfl
  · unfold peek; rw [h]; rfl
  · unfold available; rw [h]; rfl

theorem enableRx_of_not_rxValid (s : Port) (h : s.m_rxValid = false) (e : Bool) :
    enableRx s e = s := by
  unfold enableRx; rw [h]; rfl

theorem construct_rxValid (rx tx : Int) (inv : Bool) (n m : Nat) (a1 a2 : Bool) :
    (construct rx tx inv n m a1 a2).m_rxValid = false := by
  unfold construct
  simp only []
  split_ifs <;> rfl

theorem construct_bufferSet (rx tx : Int) (inv : Bool) (n m : Nat) (a1 a2 : Bool)
    (h : isValidGPIOpin rx = false) : (construct rx tx inv n m a1 a2).m_bufferSet = false := by
  unfold construct
  simp only [h, Bool.false_eq_true, if_false]
  split_ifs <;> rfl

theorem run_not_rxValid (k : PortCall) (s : Port) (h : s.m_rxValid = false)
    (hk : k.isBegin = false ∨ s.m_bufferSet = false)
    (hb : ∀ f b, k = .begin f b → b ≠ 0) :
    ∃ t, k.run s = some t ∧ t.m_rxValid = false ∧ t.m_bufferSet = s.m_bufferSet := by
  cases k with
  | begin f b =>
    have hs : s.m_bufferSet = false := by
      rcases hk with hk | hk
      · cases hk
      · exact hk
    have hb0 := hb f b rfl
    refine ⟨{ s with m_bitCycles := toI32 (Int.tdiv (toI32 ((f : Int) * 1000000)) b) }, ?_, h, rfl⟩
    have e : ∀ u : Port, u.m_rxValid = false →
        (if !u.m_rxEnabled then enableRx u true else u) = u := by
      intro u hu
      rw [enableRx_of_not_rxValid u hu]
      split_ifs <;> rfl
    have hc : ¬ (s.m_bufferSet && s.m_isrBufferSet) = true := by rw [hs]; simp
    show begin s f b = _
    unfold begin
    rw [if_neg hb0]
    simp only []
    rw [if_neg hc]
    exact congrArg some (e _ h)
  | setTransmitEnablePin p =>
    refine ⟨setTransmitEnablePin s p, rfl, ?_, ?_⟩ <;>
      (unfold setTransmitEnablePin; split_ifs <;> first | exact h | rfl)
  | enableTx e =>
    refine ⟨s, ?_, h, rfl⟩
    show some (enableTx s e) = some s
    unfold enableTx
    rw [enableRx_of_not_rxValid _ h]
    split_ifs <;> rfl
  | enableRx e =>
    refine ⟨s, ?_, h, rfl⟩
    show some (enableRx s e) = some s
    rw [enableRx_of_not_rxValid _ h]
  | read c =>
    refine ⟨s, ?_, h, rfl⟩
    show (read s c).map Prod.snd = some s
    rw [(inert_of_not_rxValid s h c 0 0).1]; rfl
  | peek c =>
    refine ⟨s, ?_, h, rfl⟩
    show (peek s c).map Prod.snd = some s
    rw [(inert_of_not_rxValid s h c 0 0).2.1]; rfl
  | available c1 c2 =>
    refine ⟨s, ?_, h, rfl⟩
    show (available s c1 c2).map Prod.snd = some s
    rw [(inert_of_not_rxValid s h 0 c1 c2).2.2]; rfl
  | write buf clk c =>
    refine ⟨s, ?_, h, rfl⟩
    show (write s buf clk c).map (fun r => r.2.1) = some s
    unfold write
    rw [h]
    simp only [Bool.false_eq_true, if_false, Option.some_bind]
    split_ifs <;> rfl
  | flush => exact ⟨flush s, rfl, h, rfl⟩
  | overflow => exact ⟨(overflow s).2, rfl, h, rfl⟩

theorem runPort_not_rxValid : ∀ (calls : List PortCall) (s : Port), s.m_rxValid = false →
    ((∀ k ∈ calls, PortCall.isBegin k = false) ∨ s.m_bufferSet = false) →
    (∀ f b, PortCall.begin f b ∈ calls → b ≠ 0) →
    ∃ p, runPort calls s = some p ∧ p.m_rxValid = false := by
  intro calls
  induction calls with
  | nil => intro s h _ _; exact ⟨s, rfl, h⟩
  | cons k ks ih =>
    intro s h hk hb
    obtain ⟨t, e1, e2, e3⟩ := run_not_rxValid k s h
      (hk.imp (fun a => a k (List.mem_cons_self k ks)) id)
      (fun f b e => hb f b (by rw [e]; exact List.mem_cons_self _ _))
    obtain ⟨p, e4, e5⟩ := ih t e2
      (hk.imp (fun a j hj => a j (List.mem_cons_of_mem k hj)) (fun a => by rw [e3]; exact a))
      (fun f b hm => hb f b (List.mem_cons_of_mem k hm))
    refine ⟨p, ?_, e5⟩
    show (k.run s).bind (runPort ks) = some p
    rw [e1]; exact e4

/-! ## The stop bit timeout -/

/-- The masked bits block with a pause that covers all bits still missing:
the accumulator is filled up to bit 7, for any bit period of one cycle or
more. -/
theorem rxDataBits_fill (s : Port) (level : Bool) (cycles : Int)
    (hB : 1 ≤ s.m_bitCycles) (hc1 : -1 ≤ s.m_rxCurBit) (hc2 : s.m_rxCurBit < 7)
    (hlo : (7 - s.m_rxCurBit) * s.m_bitCycles ≤ cycles) (hmax : cycles < 2147483648) :
    (rxDataBits s level cycles).1.m_rxCurBit = 7 ∧
      (rxDataBits s level cycles).1.m_rxCurByte
        = hiddenFill s.m_rxCurByte (7 - s.m_rxCurBit).toNat ∧
      (rxDataBits s level cycles).2 = cycles - (7 - s.m_rxCurBit) * s.m_bitCycles := by
  have hr1 : 1 * s.m_bitCycles ≤ (7 - s.m_rxCurBit) * s.m_bitCycles :=
    Int.mul_le_mul_of_nonneg_right (by omega) (by omega)
  have hq : 7 - s.m_rxCurBit ≤ Int.tdiv cycles s.m_bitCycles :=
    tdiv_ge_of_le (by omega) (by omega) hlo
  have hge : cycles ≥ s.m_bitCycles := by omega
  have hh : (if Int.tdiv cycles s.m_bitCycles > 7 - s.m_rxCurBit then 7 - s.m_rxCurBit
      else Int.tdiv cycles s.m_bitCycles) = 7 - s.m_rxCurBit := by
    split_ifs <;> omega
  have hn2 : (8 - (7 - s.m_rxCurBit)).toNat = 8 - (7 - s.m_rxCurBit).toNat := by omega
  have e : toI32 (cycles - (7 - s.m_rxCurBit) * s.m_bitCycles)
      = cycles - (7 - s.m_rxCurBit) * s.m_bitCycles := toI32_of_range (by omega) (by omega)
  unfold rxDataBits rxHiddenBits
  simp only [hge, if_true, hh, hn2, e]
  have h7 : ¬ (s.m_rxCurBit + (7 - s.m_rxCurBit) < 7) := by omega
  simp only [h7, if_false]
  exact ⟨by omega, rfl, trivial⟩

/-- The decode loop entered with a byte in assembly, room in the byte buffer
and a pause that covers all bits still missing: the byte is completed with
copies of its last bit and pushed. -/
theorem rxBitLoop_fill (s : Port) (level : Bool) (cycles : Int) (n : Nat) (h : s.wf)
    (hc1 : -1 ≤ s.m_rxCurBit) (hc2 : s.m_rxCurBit ≤ 7) (hy : s.m_rxCurByte < 256)
    (hfull : (s.m_inPos + 1) % s.m_bufSize ≠ s.m_outPos)
    (hlo : (7 - s.m_rxCurBit) * s.m_bitCycles ≤ cycles) (hmax : cycles < 2147483648) :
    ∃ t, rxBitLoop level (n + 3) cycles s = some t ∧
      queued t = queued s ++
        [if s.m_rxCurBit = 7 then s.m_rxCurByte
         else hiddenFill s.m_rxCurByte (7 - s.m_rxCurBit).toNat] ∧
      IsrSame s t ∧ Ext s t ∧ t.wf := by
  by_cases h7 : s.m_rxCurBit = 7
  · obtain ⟨t, e1, _, e2, e3, e4, e5⟩ := rxBitLoop_seven s level cycles (n + 1) h h7 hy hfull
    exact ⟨t, e1, by rw [if_pos h7]; exact e2, e3, e4, e5⟩
  · have hlt : s.m_rxCurBit < 7 := by omega
    obtain ⟨f1, f2, f3⟩ := rxDataBits_fill s level cycles h.2.2.2.2.1 hc1 hlt hlo hmax
    have g := grow_rxDataBits s level cycles h hlt
    obtain ⟨t, e1, _, e2, e3, e4, e5⟩ := rxBitLoop_seven (rxDataBits s level cycles).1 level
      (rxDataBits s level cycles).2 n g.wf f1 (by rw [f2]; exact hiddenFill_lt _ _)
      (rxDataBits_full s level cycles hfull)
    refine ⟨t, ?_, ?_, (isrSame_rxDataBits s level cycles).isrTrans e3,
      (ext_rxDataBits s level cycles).extTrans e4, e5⟩
    · rw [rxBitLoop_succ, if_pos ⟨hc1, hlt⟩]
      have hB0 : ¬ (cycles ≥ s.m_bitCycles ∧ s.m_bitCycles = 0) := by
        have := h.2.2.2.2.1
        omega
      rw [if_neg hB0, if_pos (by rw [f3]; omega)]
      exact e1
    · rw [e2, queued_rxDataBits, f2, if_neg h7]

/-- Bits of the byte that the stop bit timeout completes: the `k + 1` bits
received sit at the top of the accumulator `y`; the bits above them repeat its
top bit. -/
theorem hiddenFill_bits : ∀ y < 256, ∀ k < 8, ∀ i < 8,
    (if k = 7 then y else hiddenFill y (7 - k)).testBit i
      = if i ≤ k then y.testBit (7 - k + i) else y.testBit 7 := by
  decide!

/-- Elapsed cycles that the decode loop computes for the stop bit event made up
`E` cycles after the last edge. -/
theorem stop_cycles (last : Nat) (E h : Int) (inv : Bool) (hE0 : 0 ≤ E)
    (hE : E + 1 < 2147483648) (hh0 : 0 ≤ h) (hh : h ≤ E) :
    E - h - 1 ≤ toI32 ((edgeWord (toU32 ((last : Int) + toU32 E)) inv : Int) - last - h) ∧
      toI32 ((edgeWord (toU32 ((last : Int) + toU32 E)) inv : Int) - last - h) ≤ E - h + 1 := by
  rw [edgeWord_eq]
  unfold toU32 toI32
  cases inv <;> simp only [b2n, if_true, if_false, Bool.false_eq_true] <;> omega

/-- The stop bit block, for any bit period from 1 to 195,000,000 cycles: with
the edge queue empty, a byte in assembly, the timeout passed and room in the
byte buffer, a decode pass makes up the stop bit event, consumes it, and pushes
the accumulator filled up with copies of its top bit. -/
theorem rxBits_timeout (s : Port) (c : Nat) (h : s.wf) (he : s.m_isrInPos = s.m_isrOutPos)
    (hsz : 2 ≤ s.m_isrBufSize) (hBm : s.m_bitCycles ≤ 195000000) (hy : s.m_rxCurByte < 256)
    (hroom : (s.m_inPos + 1) % s.m_bufSize ≠ s.m_outPos) (hdue : stopBitDue s c) :
    ∃ t, rxBits s c = some t ∧
      queued t = queued s ++
        [if s.m_rxCurBit = 7 then s.m_rxCurByte
         else hiddenFill s.m_rxCurByte (7 - s.m_rxCurBit).toNat] ∧
      Ext s t ∧ t.wf := by
  obtain ⟨ov, io, hL⟩ := rxLatch_eq s
  obtain ⟨hc0, hc8, hgt⟩ := hdue
  have hB := h.2.2.2.2.1
  have hnext : (s.m_isrInPos + 1) % s.m_isrBufSize ≠ s.m_isrOutPos := by
    rw [succ_mod_eq h.2.2.1, ← he]
    split_ifs <;> omega
  have hm0 : 0 ≤ (11 - s.m_rxCurBit) * s.m_bitCycles := mul_nonneg (by omega) (by omega)
  have hm11 : (11 - s.m_rxCurBit) * s.m_bitCycles ≤ 11 * s.m_bitCycles :=
    Int.mul_le_mul_of_nonneg_right (by omega) (by omega)
  have hm4 : (11 - s.m_rxCurBit) * s.m_bitCycles
      = (7 - s.m_rxCurBit) * s.m_bitCycles + 4 * s.m_bitCycles := by ring
  have hm7 : 0 ≤ (7 - s.m_rxCurBit) * s.m_bitCycles := mul_nonneg (by omega) (by omega)
  have hhalf : Int.tdiv s.m_bitCycles 2 = s.m_bitCycles / 2 :=
    Int.tdiv_eq_ediv (by omega) (by omega)
  -- the state handed to the replay loop
  let w := edgeWord (toU32 ((s.m_lastCycle : Int)
      + toU32 ((11 - s.m_rxCurBit) * s.m_bitCycles))) s.m_invert
  let s1 : Port := { s with m_overflow := ov, m_isrOverflow := io,
                            m_isrBuffer := Function.update s.m_isrBuffer s.m_isrInPos w,
                            m_isrInPos := (s.m_isrInPos + 1) % s.m_isrBufSize }
  have hstop : rxStopBit (rxLatch s) 0 c = (s1, 1) := by
    rw [hL]
    have hcond : ((0 : Int) = 0 ∧ s.m_rxCurBit < 8 ∧ s.m_isrInPos = s.m_isrOutPos
        ∧ s.m_rxCurBit ≥ 0) := ⟨rfl, hc8, he, hc0⟩
    unfold rxStopBit
    rw [if_pos hcond]
    simp only []
    rw [if_pos hgt, if_pos hnext]
    rfl
  have hrx : rxBits s c = rxEvents 1 s1 := by
    unfold rxBits
    simp only [he, sub_self, lt_self_iff_false, if_false, hstop]
    rfl
  have hword : s1.m_isrBuffer s1.m_isrOutPos = w := by
    show Function.update s.m_isrBuffer s.m_isrInPos w s.m_isrOutPos = w
    rw [he, Function.update_same]
  let s2 : Port := { s1 with m_isrOutPos := (s1.m_isrOutPos + 1) % s1.m_isrBufSize,
                             m_lastCycle := w }
  have hev : rxEvent s1 = rxBitLoop ((w &&& 1) == b2n s.m_invert) loopFuel
      (toI32 ((w : Int) - s.m_lastCycle - Int.tdiv s.m_bitCycles 2)) s2 := by
    have hev0 : rxEvent s1
        = rxBitLoop ((s1.m_isrBuffer s1.m_isrOutPos &&& 1) == b2n s.m_invert) loopFuel
            (toI32 ((s1.m_isrBuffer s1.m_isrOutPos : Int) - s.m_lastCycle
              - Int.tdiv s.m_bitCycles 2))
            { s1 with m_isrOutPos := (s1.m_isrOutPos + 1) % s1.m_isrBufSize,
                      m_lastCycle := s1.m_isrBuffer s1.m_isrOutPos } := rfl
    rw [hword] at hev0
    exact hev0
  have hw2 : s2.wf := by
    obtain ⟨a1, a2, a3', a4, a5, a6, a7⟩ := h
    exact ⟨a1, a2, succ_mod_lt a3', succ_mod_lt a4, a5, a6, a7⟩
  have hx := stop_cycles s.m_lastCycle ((11 - s.m_rxCurBit) * s.m_bitCycles)
    (Int.tdiv s.m_bitCycles 2) s.m_invert hm0 (by omega) (by omega) (by omega)
  have x1 : (11 - s.m_rxCurBit) * s.m_bitCycles - Int.tdiv s.m_bitCycles 2 - 1
      ≤ toI32 ((w : Int) - s.m_lastCycle - Int.tdiv s.m_bitCycles 2) := hx.1
  have x2 : toI32 ((w : Int) - s.m_lastCycle - Int.tdiv s.m_bitCycles 2)
      ≤ (11 - s.m_rxCurBit) * s.m_bitCycles - Int.tdiv s.m_bitCycles 2 + 1 := hx.2
  obtain ⟨t, e1, e2, e3, e4, e5⟩ := rxBitLoop_fill s2 ((w &&& 1) == b2n s.m_invert)
    (toI32 ((w : Int) - s.m_lastCycle - Int.tdiv s.m_bitCycles 2)) 9 hw2
    (show -1 ≤ s.m_rxCurBit by omega) (show s.m_rxCurBit ≤ 7 by omega) hy hroom
    (by show (7 - s.m_rxCurBit) * s.m_bitCycles ≤ _; omega) (by omega)
  have hfin : rxBits s c = some t := by
    rw [hrx, rxEvents_succ, hev]
    show (rxBitLoop _ (9 + 3) _ s2).bind _ = _
    rw [e1]
    rfl
  exact ⟨t, hfin, e2, rxBits_ext hfin, e5⟩

/-! ## The transmit schedule -/

/-- The bit loop of `write` at a bit period of one cycle from cycle 0, for all
bytes and both polarities: a wait and a write for each slot whose level
differs from the slot before, and the closing wait. -/
theorem txBits_unit : ∀ inv : Bool, ∀ byte < 256,
    txBits 0 inv 1 9 0 inv (if inv then 255 - byte % 256 else byte % 256) 1
      = ((List.range 9).flatMap fun i =>
          if frameLevel inv byte (i + 1) = frameLevel inv byte i then []
          else [HalOp.waitBitCycles (i + 1),
                HalOp.pinMode 0 (levelMode (frameLevel inv byte (i + 1)))]) ++
        [HalOp.waitBitCycles 10] := by
  decide!

theorem frameEdges_count : ∀ inv : Bool, ∀ byte < 256,
    (frameEdges inv byte).length
      = 1 + (List.range 9).countP fun i => frameLevel inv byte (i + 1) != frameLevel inv byte i := by
  decide!

/-! ## Range of the decoder state -/

theorem rxStoreByte_curBit (s : Port) : (rxStoreByte s).m_rxCurBit = 8 := by
  unfold rxStoreByte
  simp only []
  split_ifs <;> rfl

/-- The decode loop keeps `m_rxCurBit` in `-1 .. 8` (and the bit period). -/
theorem rxBitLoop_range (level : Bool) :
    ∀ (fuel : Nat) (cycles : Int) (s t : Port), 1 ≤ s.m_bitCycles → -1 ≤ s.m_rxCurBit →
      s.m_rxCurBit ≤ 8 → rxBitLoop level fuel cycles s = some t →
      -1 ≤ t.m_rxCurBit ∧ t.m_rxCurBit ≤ 8 := by
  intro fuel
  induction fuel with
  | zero => intro cycles s t _ _ _ h; simp [rxBitLoop] at h
  | succ n ih =>
    intro cycles s t hb h1 h2 h
    rw [rxBitLoop_succ] at h
    split_ifs at h with c1 c2 c3 c4 c5 c6 c7
    · have sp := rxDataBits_spec s level cycles hb c1.1 c1.2
      simp only [] at sp
      exact ih _ _ _ (by rw [(ext_rxDataBits s level cycles).bitCycles]; exact hb) (by omega)
        (by omega) h
    · have sp := rxDataBits_spec s level cycles hb c1.1 c1.2
      simp only [] at sp
      cases h
      omega
    · refine ih _ _ _ (by rw [(ext_rxStoreByte s).bitCycles]; exact hb) ?_ ?_ h
      · rw [rxStoreByte_curBit]; decide
      · rw [rxStoreByte_curBit]
    · cases h
      rw [rxStoreByte_curBit]; omega
    · cases h
      cases level <;> simp
    · cases h; omega
    · cases h; omega

theorem rxEvents_range : ∀ (n : Nat) (s t : Port), 1 ≤ s.m_bitCycles → -1 ≤ s.m_rxCurBit →
    s.m_rxCurBit ≤ 8 → rxEvents n s = some t → -1 ≤ t.m_rxCurBit ∧ t.m_rxCurBit ≤ 8 := by
  intro n
  induction n with
  | zero => intro s t _ h1 h2 h; cases h; exact ⟨h1, h2⟩
  | succ n ih =>
    intro s t hb h1 h2 h
    rw [rxEvents_succ] at h
    cases e : rxEvent s with
    | none => rw [e] at h; cases h
    | some u =>
      rw [e, Option.some_bind] at h
      have hu : -1 ≤ u.m_rxCurBit ∧ u.m_rxCurBit ≤ 8 := by
        unfold rxEvent at e
        exact rxBitLoop_range _ _ _
          { s with m_isrOutPos := (s.m_isrOutPos + 1) % s.m_isrBufSize,
                   m_lastCycle := s.m_isrBuffer s.m_isrOutPos } u hb h1 h2 e
      exact ih u t (by rw [(ext_rxEvent e).bitCycles]; exact hb) hu.1 hu.2 h

theorem rxStopBit_curBit (s : Port) (a : Int) (c : Nat) :
    (rxStopBit s a c).1.m_rxCurBit = s.m_rxCurBit := by
  unfold rxStopBit
  simp only []
  split_ifs <;> rfl

theorem rxLatch_curBit (s : Port) : (rxLatch s).m_rxCurBit = s.m_rxCurBit := by
  unfold rxLatch
  split_ifs <;> rfl

/-! ## Timing of one event -/

theorem rxEvent_eq (s : Port) :
    rxEvent s = rxBitLoop (eventLevel s) loopFuel (eventCycles s)
      { s with m_isrOutPos := (s.m_isrOutPos + 1) % s.m_isrBufSize,
               m_lastCycle := s.m_isrBuffer s.m_isrOutPos } := rfl

theorem withHead_head (s : Port) (w : Nat) :
    (s.withHead w).m_isrBuffer (s.withHead w).m_isrOutPos = w := by
  show Function.update s.m_isrBuffer s.m_isrOutPos w s.m_isrOutPos = w
  rw [Function.update_same]

/-! ## Byte level read interface and overflow reporting (C3 to C8, C10) -/

/-- C3: `read()` on a started port. Let `s1` be the state after the decode pass
that `read` makes when the byte buffer is empty (`s1 = s` when it is not).
If the queue of `s1` is empty, `read` returns `-1` and both byte buffer
indices are those of `s`. Otherwise `read` returns the oldest queued byte `v`,
with `v < 256`, the read index advances by one modulo the capacity and the
queue that remains is the old queue without its head. -/
theorem read_spec (s : Port) (c : Nat) (hv : s.m_rxValid = true) (h : s.wf) :
    ∃ s1 l, (if s.m_inPos = s.m_outPos then rxBits s c else some s) = some s1 ∧
      queued s1 = queued s ++ l ∧
      (queued s1 = [] →
        read s c = some (-1, s1) ∧ s1.m_inPos = s.m_inPos ∧ s1.m_outPos = s.m_outPos) ∧
      (∀ v rest, queued s1 = v :: rest →
        read s c = some ((v : Int), s1.pop) ∧ v < 256 ∧
          s1.pop.m_outPos = (s.m_outPos + 1) % s.m_bufSize ∧ s1.pop.m_inPos = s1.m_inPos ∧
          queued s1.pop = rest) := by
  by_cases he : s.m_inPos = s.m_outPos
  · obtain ⟨s1, e1, g⟩ := rxBits_total s c h
    have x := rxBits_ext e1
    obtain ⟨l, hl⟩ := g.queue
    refine ⟨s1, l, by rw [if_pos he]; exact e1, hl, ?_, ?_⟩
    · intro hq
      have hq' := (queued_eq_nil_iff s1 g.wf.1 g.wf.2.1).mp hq
      refine ⟨?_, ?_, x.outPos⟩
      · rw [read_empty s c hv he, e1]; simp [hq']
      · rw [hq', x.outPos, he]
    · intro v rest hq
      have hne : s1.m_inPos ≠ s1.m_outPos := by
        intro hc
        rw [(queued_eq_nil_iff s1 g.wf.1 g.wf.2.1).mpr hc] at hq
        cases hq
      rw [queued_pop s1 g.wf.1 g.wf.2.1 hne] at hq
      injection hq with hv1 hrest
      subst hv1
      refine ⟨?_, Nat.mod_lt _ (by norm_num), ?_, rfl, hrest⟩
      · rw [read_empty s c hv he, e1]; simp [hne]
      · show (s1.m_outPos + 1) % s1.m_bufSize = _
        rw [x.outPos, x.bufSize]
  · refine ⟨s, [], by rw [if_neg he], by simp, ?_, ?_⟩
    · intro hq
      exact absurd ((queued_eq_nil_iff s h.1 h.2.1).mp hq) he
    · intro v rest hq
      rw [queued_pop s h.1 h.2.1 he] at hq
      injection hq with hv1 hrest
      subst hv1
      exact ⟨read_nonempty s c hv he, Nat.mod_lt _ (by norm_num), rfl, rfl, hrest⟩

/-- Witness for `read_spec`: a started port holding one queued byte. -/
theorem read_spec_witness :
    ({ idlePort with m_inPos := 1 } : Port).m_rxValid = true ∧
      ({ idlePort with m_inPos := 1 } : Port).wf ∧
      ∃ s1 l,
        (if ({ idlePort with m_inPos := 1 } : Port).m_inPos
              = ({ idlePort with m_inPos := 1 } : Port).m_outPos
          then rxBits { idlePort with m_inPos := 1 } 9
          else some { idlePort with m_inPos := 1 }) = some s1 ∧
        queued s1 = queued { idlePort with m_inPos := 1 } ++ l ∧
        (queued s1 = [] →
          read { idlePort with m_inPos := 1 } 9 = some (-1, s1) ∧
            s1.m_inPos = ({ idlePort with m_inPos := 1 } : Port).m_inPos ∧
            s1.m_outPos = ({ idlePort with m_inPos := 1 } : Port).m_outPos) ∧
        (∀ v rest, queued s1 = v :: rest →
          read { idlePort with m_inPos := 1 } 9 = some ((v : Int), s1.pop) ∧ v < 256 ∧
            s1.pop.m_outPos = (({ idlePort with m_inPos := 1 } : Port).m_outPos + 1)
              % ({ idlePort with m_inPos := 1 } : Port).m_bufSize ∧
            s1.pop.m_inPos = s1.m_inPos ∧ queued s1.pop = rest) :=
  ⟨rfl, by decide, read_spec _ 9 rfl (by decide)⟩

/-- C4: `available()` on a started port. It runs one decode pass on the state
`s`, giving `s1`, and a second pass on `s1` when `s1` has no byte queued; `t`
is the state after the last pass. The read index is that of `s` and the bytes
queued in `s` are still at the front of the queue of `t`. The value returned
is the number `n` of bytes queued in `t`,
`n = (m_inPos - m_outPos) mod m_bufSize`, with `0 ≤ n < m_bufSize`; the next
`n` calls of `read()` return the queued bytes (each below 256) in order,
whatever the counter reads, changing only the read index, and leave the byte
buffer empty. -/
theorem available_spec (s : Port) (c1 c2 : Nat) (hv : s.m_rxValid = true) (h : s.wf) :
    ∃ (n : Int) (s1 t : Port), rxBits s c1 = some s1 ∧
      (if s1.m_inPos = s1.m_outPos then rxBits s1 c2 = some t else t = s1) ∧
      available s c1 c2 = some (n, t) ∧
      t.m_outPos = s.m_outPos ∧ (∃ l, queued t = queued s ++ l) ∧
      n = ((t.m_inPos : Int) - t.m_outPos) % t.m_bufSize ∧ 0 ≤ n ∧ n < t.m_bufSize ∧
      n = (queued t).length ∧ (∀ v ∈ queued t, v < 256) ∧
      (∀ cs : List Nat, (cs.length : Int) = n →
        reads cs t = some ((queued t).map Int.ofNat, { t with m_outPos := t.m_inPos })) ∧
      queued ({ t with m_outPos := t.m_inPos } : Port) = [] := by
  obtain ⟨s1, t, e1, e2, e, g, x⟩ := available_passes s c1 c2 hv h
  have hlt := ringCount_lt g.wf.1 g.wf.2.1
  refine ⟨_, s1, t, e1, e2, e, x.outPos, g.queue, avail_eq_emod g.wf.1 g.wf.2.1, by omega,
    by omega, ?_, queued_lt t, ?_, ?_⟩
  · rw [queued_length]
  · intro cs hcs
    apply reads_queue cs t (by rw [x.rxValid]; exact hv) g.wf
    rw [queued_length]; omega
  · simp [queued, ringSeq, ringCount_self]

/-- Witness for `available_spec`. On a port that has captured the frames `0x55`
and `0x0F`, the first pass decodes both, `available()` returns 2 and two calls
of `read()` return `0x55` and `0x0F`. On a port that has captured frame `0xFF`
alone, the first pass leaves the byte buffer empty and the second pass, made
after the stop bit timeout, pushes the byte: `available()` returns 1. -/
theorem available_spec_witness :
    awayPort.m_rxValid = true ∧ awayPort.wf ∧
      (available awayPort 1400 1500).map Prod.fst = some 2 ∧
      ((available awayPort 1400 1500).bind fun r => reads [1600, 1700] r.2).map Prod.fst
        = some [0x55, 0x0F] ∧
      (∃ (n : Int) (s1 t : Port), rxBits awayPort 1400 = some s1 ∧
        (if s1.m_inPos = s1.m_outPos then rxBits s1 1500 = some t else t = s1) ∧
        available awayPort 1400 1500 = some (n, t) ∧
        t.m_outPos = awayPort.m_outPos ∧ (∃ l, queued t = queued awayPort ++ l) ∧
        n = ((t.m_inPos : Int) - t.m_outPos) % t.m_bufSize ∧ 0 ≤ n ∧ n < t.m_bufSize ∧
        n = (queued t).length ∧ (∀ v ∈ queued t, v < 256) ∧
        (∀ cs : List Nat, (cs.length : Int) = n →
          reads cs t = some ((queued t).map Int.ofNat, { t with m_outPos := t.m_inPos })) ∧
        queued ({ t with m_outPos := t.m_inPos } : Port) = []) ∧
      (∃ (n : Int) (s1 t : Port),
        rxBits (capture idlePort (frameAt false 1000 0xFF)) 1170 = some s1 ∧
        s1.m_inPos = s1.m_outPos ∧ rxBits s1 1400 = some t ∧
        available (capture idlePort (frameAt false 1000 0xFF)) 1170 1400 = some (n, t) ∧
        n = 1 ∧ queued t = [0xFF]) := by
  refine ⟨rfl, by decide, by decide, by decide,
    available_spec awayPort 1400 1500 rfl (by decide), ?_⟩
  obtain ⟨n, s1, t, e1, e2, e3, _, _, _, _, _, _, _, _, _⟩ :=
    available_spec (capture idlePort (frameAt false 1000 0xFF)) 1170 1400 rfl (by decide)
  have k1 : (rxBits (capture idlePort (frameAt false 1000 0xFF)) 1170).map
      (fun u => decide (u.m_inPos = u.m_outPos)) = some true := by decide
  rw [e1] at k1
  have k1 : s1.m_inPos = s1.m_outPos := by simpa using k1
  rw [if_pos k1] at e2
  have k2 : (available (capture idlePort (frameAt false 1000 0xFF)) 1170 1400).map
      (fun r => (r.1, queued r.2)) = some (1, [0xFF]) := by decide
  rw [e3] at k2
  simp only [Option.map_some', Option.some.injEq, Prod.mk.injEq] at k2
  exact ⟨n, s1, t, e1, k1, e2, e3, k2.1, k2.2⟩

/-- C6: `flush()` resets the four ring indices and nothing else: the decoder
state (`m_rxCurBit`, `m_rxCurByte`, `m_lastCycle`) survives it, whereas
`enableRx(true)` puts the decoder back to idle. Frame `0xF8`, whose last level
change is the edge into data bit 3, is decoded up to `m_rxCurBit = 3` before
the flush; `available()` called after the flush and after the stop bit timeout
returns 1 and the next `read()` returns `0xF8`, a byte received entirely
before the flush. -/
theorem flush_keeps_partial_byte :
    (∀ s : Port, (flush s).m_rxCurBit = s.m_rxCurBit ∧ (flush s).m_rxCurByte = s.m_rxCurByte ∧
        (flush s).m_lastCycle = s.m_lastCycle) ∧
      (∀ s : Port, s.m_rxValid = true → (enableRx s true).m_rxCurBit = 8) ∧
      flushThenAvailable 0xF8 1400 1400 = some (3, 1, 0xF8) := by
  refine ⟨fun s => ⟨rfl, rfl, rfl⟩, fun s hv => ?_, by decide⟩
  unfold enableRx
  rw [if_pos hv]
  rfl

/-- C7, as stated, fails: an edge dropped by `rxRead` (edge buffer full) only
raises `m_isrOverflow`; a call of `overflow()` made before the next decode pass
returns `false`. -/
theorem overflow_report_counterexample :
    (rxRead { idlePort with m_isrBufSize := 2, m_isrOutPos := 1 } 100 true).lostEdges = 1 ∧
      (overflow (rxRead { idlePort with m_isrBufSize := 2, m_isrOutPos := 1 } 100 true)).1
        = false := by
  decide

/-- C7 (amended): an edge dropped by `rxRead` raises `m_isrOverflow` and stores
nothing; `overflow()` does not clear `m_isrOverflow`; every decode pass that
starts with `m_isrOverflow` raised, and every decode pass that drops a byte,
ends with `m_overflow` raised, so that the first `overflow()` after that pass
returns `true`. -/
theorem overflow_report (s : Port) (c : Nat) (l : Bool) (h : s.wf) :
    ((s.m_isrInPos + 1) % s.m_isrBufSize = s.m_isrOutPos →
      (rxRead s c l).m_isrOverflow = true ∧ (rxRead s c l).m_isrBuffer = s.m_isrBuffer ∧
        (rxRead s c l).m_isrInPos = s.m_isrInPos ∧ (rxRead s c l).lostEdges = s.lostEdges + 1) ∧
      (overflow s).2.m_isrOverflow = s.m_isrOverflow ∧
      ∃ t, rxBits s c = some t ∧
        (s.m_isrOverflow = true ∨ s.lostBytes < t.lostBytes → (overflow t).1 = true) := by
  refine ⟨?_, rfl, ?_⟩
  · intro hf
    unfold rxRead
    simp [hf]
  · obtain ⟨t, e, _⟩ := rxBits_total s c h
    refine ⟨t, e, ?_⟩
    rintro (hp | hb)
    · exact rxBits_latch e hp
    · exact (rxBits_ext e).ov_lost hb

/-- Witness for `overflow_report`. An edge that arrives with the edge buffer
full is dropped and raises `m_isrOverflow`; the decode pass that follows ends
with `m_overflow` raised, and `overflow()` then returns `true`. A frame that is
completed with the byte buffer full is dropped by the decode pass, after which
`overflow()` returns `true` as well. -/
theorem overflow_report_witness :
    edgeFullPort.wf ∧
      (edgeFullPort.m_isrInPos + 1) % edgeFullPort.m_isrBufSize = edgeFullPort.m_isrOutPos ∧
      (rxRead edgeFullPort 1100 true).m_isrOverflow = true ∧
      (rxRead edgeFullPort 1100 true).m_isrBuffer = edgeFullPort.m_isrBuffer ∧
      (rxRead edgeFullPort 1100 true).m_isrInPos = edgeFullPort.m_isrInPos ∧
      (rxRead edgeFullPort 1100 true).lostEdges = edgeFullPort.lostEdges + 1 ∧
      (overflow (rxRead edgeFullPort 1100 true)).1 = false ∧
      (overflow (rxRead edgeFullPort 1100 true)).2.m_isrOverflow = true ∧
      (∃ t, rxBits (rxRead edgeFullPort 1100 true) 1200 = some t ∧ (overflow t).1 = true) ∧
      (∃ t, rxBits (capture fullPort ((twoFrames 0xFF 0x02).take 3)) 1170 = some t ∧
        (capture fullPort ((twoFrames 0xFF 0x02).take 3)).lostBytes < t.lostBytes ∧
        (overflow t).1 = true) := by
  have hA := (overflow_report edgeFullPort 1100 true (by decide)).1 (by decide)
  have hB := overflow_report (rxRead edgeFullPort 1100 true) 1200 true (by decide)
  refine ⟨by decide, by decide, hA.1, hA.2.1, hA.2.2.1, hA.2.2.2, by decide, ?_, ?_, ?_⟩
  · rw [hB.2.1]; exact hA.1
  · obtain ⟨t, ht, hov⟩ := hB.2.2
    exact ⟨t, ht, hov (Or.inl hA.1)⟩
  · obtain ⟨t, ht, hov⟩ :=
      (overflow_report (capture fullPort ((twoFrames 0xFF 0x02).take 3)) 1170 true
        (by decide)).2.2
    have hl : (rxBits (capture fullPort ((twoFrames 0xFF 0x02).take 3)) 1170).map
        (fun u => u.lostBytes) = some 1 := by decide
    rw [ht] at hl
    have hl1 : t.lostBytes = 1 := by simpa using hl
    have hlt : (capture fullPort ((twoFrames 0xFF 0x02).take 3)).lostBytes < t.lostBytes := by
      rw [hl1]; decide
    exact ⟨t, ht, hlt, hov (Or.inr hlt)⟩

/-- C8, as stated, fails: an edge overflow that is still pending in
`m_isrOverflow` when `overflow()` is called is latched by the decode pass of a
later `read()`; the second `overflow()` returns `true` although nothing was
dropped in between. -/
theorem overflow_clear_counterexample :
    ((read (overflow { idlePort with m_isrOverflow := true }).2 50).map
        fun r => ((overflow r.2).1, r.2.lostEdges, r.2.lostBytes)) = some (true, 0, 0) := by
  decide

/-- C8 (amended): a second `overflow()` right after the first returns `false`;
and if no edge overflow is pending (`m_isrOverflow` clear) at the first call,
then after any sequence of `read`, `peek`, `available` and edge captures that
drops no edge and no byte, `overflow()` returns `false`. -/
theorem overflow_clear (s t : Port) (ks : List RxCall) :
    (overflow (overflow s).2).1 = false ∧
      (s.m_isrOverflow = false → runCalls ks (overflow s).2 = some t →
        t.lostEdges = s.lostEdges → t.lostBytes = s.lostBytes → (overflow t).1 = false) := by
  refine ⟨rfl, ?_⟩
  intro hp hr he hb
  have x := runCalls_ext2 ks _ _ hr
  have h1 : (overflow s).2.lostEdges = s.lostEdges := rfl
  have h2 : (overflow s).2.lostBytes = s.lostBytes := rfl
  have h3 : (overflow s).2.m_isrOverflow = s.m_isrOverflow := rfl
  have h4 : (overflow s).2.m_overflow = false := rfl
  show t.m_overflow = false
  cases ho : t.m_overflow with
  | false => rfl
  | true =>
    rcases x.ov_src ho with h | h | h | h
    · rw [h4] at h; cases h
    · rw [h3, hp] at h; cases h
    · omega
    · omega

/-- Witness for `overflow_clear`. On a port that has dropped a byte the first
`overflow()` returns `true` and a second one right after it `false`; after a
`read()` that takes the queued byte, a captured edge, a `peek()` and an
`available()` that decode it, with nothing dropped, `overflow()` still
returns `false`. -/
theorem overflow_clear_witness :
    overflowedPort.m_isrOverflow = false ∧ (overflow overflowedPort).1 = true ∧
      (overflow (overflow overflowedPort).2).1 = false ∧
      (read (overflow overflowedPort).2 5).map Prod.fst = some 0x41 ∧
      ∃ t, runCalls [.read 5, .rxRead 1000 false, .peek 1010, .available 1020 1030]
          (overflow overflowedPort).2 = some t ∧
        t.lostEdges = overflowedPort.lostEdges ∧ t.lostBytes = overflowedPort.lostBytes ∧
        t.m_rxCurBit = -1 ∧ (overflow t).1 = false := by
  refine ⟨rfl, rfl, rfl, by decide, ?_⟩
  have h1 : (runCalls [.read 5, .rxRead 1000 false, .peek 1010, .available 1020 1030]
      (overflow overflowedPort).2).map (fun t => (t.lostEdges, t.lostBytes, t.m_rxCurBit))
      = some (0, 1, -1) := by decide
  cases hr : runCalls [.read 5, .rxRead 1000 false, .peek 1010, .available 1020 1030]
      (overflow overflowedPort).2 with
  | none => rw [hr] at h1; cases h1
  | some t =>
    rw [hr] at h1
    simp only [Option.map_some', Option.some.injEq, Prod.mk.injEq] at h1
    exact ⟨t, rfl, h1.1, h1.2.1, h1.2.2,
      (overflow_clear overflowedPort t
        [.read 5, .rxRead 1000 false, .peek 1010, .available 1020 1030]).2 rfl hr h1.1 h1.2.1⟩

/-- C10, as stated, fails in two ways. With an empty edge queue, a byte in
assembly (`m_rxCurBit = 3`) and the stop bit timeout passed, `rxBits` pushes a
byte and changes the decoder state; and with an edge overflow pending it
changes both overflow flags. -/
theorem rxBits_noop_counterexample :
    ((rxBits { idlePort with m_rxCurBit := 3 } 1000).map
        fun t => (t.m_rxCurBit, t.m_inPos, t.m_lastCycle)) = some (-1, 1, 129) ∧
      ((rxBits { idlePort with m_isrOverflow := true } 1000).map
        fun t => (t.m_overflow, t.m_isrOverflow)) = some (true, false) := by
  decide

/-- C10 (amended): when the edge queue is empty and no stop bit timeout is due
for a byte in assembly, `rxBits` returns and changes nothing except that a
pending edge overflow flag is moved into `m_overflow`; with no edge overflow
pending the state is unchanged, and a second pass changes nothing more. -/
theorem rxBits_noop (s : Port) (c : Nat) (he : s.m_isrInPos = s.m_isrOutPos)
    (hd : ¬ stopBitDue s c) :
    rxBits s c = some { s with m_overflow := s.m_overflow || s.m_isrOverflow,
                               m_isrOverflow := false } ∧
      (s.m_isrOverflow = false → rxBits s c = some s) ∧
      ((rxBits s c).bind fun t => rxBits t c) = rxBits s c := by
  have e := rxBits_idle s c he hd
  have hl : rxLatch s = { s with m_overflow := s.m_overflow || s.m_isrOverflow,
                                 m_isrOverflow := false } := by
    unfold rxLatch
    cases s
    rename_i a1 a2 a3 a4 a5 a6 a7 a8 a9 ov a11 a12 a13 a14 a15 a16 a17 a18 a19 a20 a21 io a23 a24
      a25 a26 a27
    cases io <;> simp
  refine ⟨by rw [e, hl], ?_, ?_⟩
  · intro hp
    rw [e, rxLatch_of_clear s hp]
  · rw [e, Option.some_bind]
    have e2 := rxBits_idle (rxLatch s) c (by unfold rxLatch; split_ifs <;> simpa using he)
      ((stopBitDue_rxLatch s c).not.mpr hd)
    rw [e2, rxLatch_idem]

/-- Witness for `rxBits_noop`: a byte in assembly, timeout not reached. -/
theorem rxBits_noop_witness :
    ({ idlePort with m_rxCurBit := 3 } : Port).m_isrInPos
        = ({ idlePort with m_rxCurBit := 3 } : Port).m_isrOutPos ∧
      ¬ stopBitDue { idlePort with m_rxCurBit := 3 } 128 ∧
      rxBits { idlePort with m_rxCurBit := 3 } 128 = some { idlePort with m_rxCurBit := 3 } :=
  ⟨rfl, by decide, (rxBits_noop _ 128 rfl (by decide)).2.1 rfl⟩

/-! ## Transmit framing (C2) -/

/-- C2: transmit framing. For every byte and inversion flag, with a bit period
of `B ≥ 1` cycles whose nine multiples fit the 32 bit counter, the level that
the requests of `write` for that byte put on the transmit pin at any instant
of bit slot `k` (`k * B ≤ x < (k + 1) * B` cycles after the byte began) is:
`m_invert` in slot 0, (bit `k - 1` of the byte) xor `m_invert` in slots 1 to 8,
and `!m_invert` in slot 9. -/
theorem txByte_levels (s : Port) (cycle byte k x : Nat) (cur : Bool) (hb : byte < 256)
    (hc : cycle < 4294967296) (hB : 1 ≤ s.m_bitCycles) (hB9 : 9 * s.m_bitCycles < 4294967296)
    (hk : k ≤ 9) (hlo : (k : Int) * s.m_bitCycles ≤ x) (hhi : (x : Int) < (k + 1) * s.m_bitCycles) :
    levelAt cycle x cur
        (pinEvents s.m_txPin cycle (txByte s.m_txPin s.m_invert s.m_bitCycles cycle byte))
      = if k = 0 then s.m_invert
        else if k ≤ 8 then (byte.testBit (k - 1) != s.m_invert) else !s.m_invert := by
  obtain ⟨h9, hl⟩ := frameEdges_levels s.m_invert byte hb
  rw [pinEvents_txByte _ _ _ _ _ hc, levelAt_slotTime cycle s.m_bitCycles x k hB hB9 hlo hhi _ _ h9]
  exact hl k (by omega) cur

/-- Witness for `txByte_levels`: byte `0x55` on the idle port, sampled 40 cycles
into the frame (slot 2, data bit 1, which is 0). -/
theorem txByte_levels_witness :
    (0x55 : Nat) < 256 ∧ (1000 : Nat) < 4294967296 ∧ 1 ≤ idlePort.m_bitCycles ∧
      9 * idlePort.m_bitCycles < 4294967296 ∧ (2 : Nat) ≤ 9 ∧
      ((2 : Nat) : Int) * idlePort.m_bitCycles ≤ (40 : Nat) ∧
      ((40 : Nat) : Int) < ((2 : Nat) + 1) * idlePort.m_bitCycles ∧
      levelAt 1000 40 true
          (pinEvents idlePort.m_txPin 1000
            (txByte idlePort.m_txPin idlePort.m_invert idlePort.m_bitCycles 1000 0x55))
        = false :=
  ⟨by decide, by decide, by decide, by decide, by decide, by decide, by decide,
    txByte_levels idlePort 1000 0x55 2 40 true (by decide) (by decide) (by decide) (by decide)
      (by decide) (by decide) (by decide)⟩

/-! ## Claims: loop-back round trip -/

/-- C1 (as stated) fails in three ways; the frame is `0xFF` starting at cycle
1000 and, unless said otherwise, the bit period is 16 cycles, so the stop bit
ends at cycle 1160. One decode pass, even long after the frame, pushes nothing:
the pass that drains the captured edges has no stop edge to complete the byte
with. With a second pass 33 cycles after the stop bit (more than two bit
periods) an inverted port still pushes nothing: the last edge word carries the
level in its lowest bit and the timeout is measured from that word. With a bit
period of 240,000,000 cycles two passes push nothing either: the elapsed cycles
of the frame no longer fit a signed 32-bit value. -/
theorem loopback_counterexample :
    decodeOnce idlePort [0xFF] (fun n => 1000 + 160 * n) 2000 = some [] ∧
      decodeTwice { idlePort with m_invert := true } [0xFF] (fun n => 1000 + 160 * n) 1193 1193
        = some [] ∧
      decodeTwice { idlePort with m_bitCycles := 240000000 } [0xFF]
        (fun n => 1000 + 2400000000 * n) 2880002000 2880002000 = some [] := by
  decide

/-- C1 (amended): loop-back round trip. Take a port with valid receive and
transmit pins (the transmit-enable pin, if any, distinct from the transmit pin),
either logic polarity, a bit period of 16 to 200,000,000 cycles, the decoder
idle (current bit 8, accumulator 0), the edge buffer empty, and room for the
data: the byte buffer holds more than the queued plus the written bytes, the
edge buffer more than ten events per byte plus one. Let `write` send any bytes
below 256, each byte starting when the previous frame ends or up to 2^28 cycles
later, and let `rxRead` capture every level change of the transmit pin at its
scheduled cycle count. Then `write` returns, and two `rxBits` passes, the second
one taken when the line has been idle for at least two bit periods plus two
cycles (and at most 2^31 cycles) after the last stop bit, both return and leave
the byte queue equal to the earlier queue followed by exactly the written bytes
in the written order. -/
theorem loopback_roundtrip (s : Port) (bytes : List Nat) (clk : Nat → Nat)
    (cyc0 cyc1 cyc2 idle : Nat)
    (hrx : s.m_rxValid = true) (htx : s.m_txValid = true)
    (hen : s.m_txEnableValid = true → s.m_txEnablePin ≠ s.m_txPin)
    (hB : 16 ≤ s.m_bitCycles) (hBm : s.m_bitCycles ≤ 200000000)
    (hidle : s.m_rxCurBit = 8) (hacc : s.m_rxCurByte = 0)
    (hempty : s.m_isrInPos = s.m_isrOutPos) (hiso : s.m_isrOutPos < s.m_isrBufSize)
    (hin : s.m_inPos < s.m_bufSize) (hout : s.m_outPos < s.m_bufSize)
    (hcap : (queued s).length + bytes.length < s.m_bufSize)
    (hisr : 10 * bytes.length + 1 < s.m_isrBufSize)
    (hbytes : ∀ b ∈ bytes, b < 256) (hclk : ClockOk s.m_bitCycles clk)
    (hi1 : 2 * s.m_bitCycles + 2 ≤ idle) (hi2 : idle ≤ 2147483648)
    (hcyc : cyc2 = toU32 (clk (bytes.length - 1) + 10 * s.m_bitCycles + idle)) :
    ∃ s1 s2 s3, loopback s bytes clk cyc0 = some s1 ∧ rxBits s1 cyc1 = some s2 ∧
      rxBits s2 cyc2 = some s3 ∧ queued s3 = queued s ++ bytes := by
  have hwf : s.wf := ⟨hin, hout, by omega, hiso, by omega, by omega, by omega⟩
  have hLwf := rxLatch_wf s hwf
  have hlb := loopback_eq s bytes clk cyc0 hrx htx hen hidle hempty hbytes (clockOk_lt hclk)
  obtain ⟨ov, io, hL⟩ := rxLatch_eq s
  have hLq : isrQueued (rxLatch s) = [] := by
    rw [rxLatch_isrQueued]
    unfold isrQueued
    rw [hempty, ringCount_self]; rfl
  have hlen := streamEdges_length s.m_invert s.m_bitCycles clk bytes 0 hbytes
  obtain ⟨buf, pos, hcapt, hpos, hcq⟩ :=
    capture_spec (streamEdges s.m_invert s.m_bitCycles clk 0 bytes) (rxLatch s) hLwf.2.2.1
      hLwf.2.2.2.1 (by
        rw [hLq, hL]
        simp only [List.length_nil]
        omega)
  rw [hLq, List.nil_append] at hcq
  -- the state after the write, all level changes captured
  have hs1wf : (capture (rxLatch s) (streamEdges s.m_invert s.m_bitCycles clk 0 bytes)).wf := by
    rw [hcapt, hL]
    rw [hL] at hpos
    exact ⟨hin, hout, hpos, hiso, by show (1 : Int) ≤ s.m_bitCycles; omega,
      by show (-1 : Int) ≤ s.m_rxCurBit; omega, by show s.m_rxCurBit ≤ 8; omega⟩
  have hs1q : queued (capture (rxLatch s) (streamEdges s.m_invert s.m_bitCycles clk 0 bytes))
      = queued s := by
    rw [hcapt, hL]; rfl
  have hs1d : (capture (rxLatch s) (streamEdges s.m_invert s.m_bitCycles clk 0 bytes)).dec
      = ⟨8, 0⟩ := by
    rw [hcapt, hL]
    show (⟨s.m_rxCurBit, s.m_rxCurByte⟩ : Dec) = _
    rw [hidle, hacc]
  have hs1i : (capture (rxLatch s) (streamEdges s.m_invert s.m_bitCycles clk 0 bytes)).m_invert
      = s.m_invert := by
    rw [hcapt, hL]
  have hs1b : (capture (rxLatch s) (streamEdges s.m_invert s.m_bitCycles clk 0 bytes)).m_bitCycles
      = s.m_bitCycles := by
    rw [hcapt, hL]
  have hs1s : (capture (rxLatch s) (streamEdges s.m_invert s.m_bitCycles clk 0 bytes)).m_bufSize
      = s.m_bufSize := by
    rw [hcapt, hL]
  have hs1z : (capture (rxLatch s)
      (streamEdges s.m_invert s.m_bitCycles clk 0 bytes)).m_isrBufSize = s.m_isrBufSize := by
    rw [hcapt, hL]
  generalize capture (rxLatch s) (streamEdges s.m_invert s.m_bitCycles clk 0 bytes) = s1
    at hlb hcq hs1wf hs1q hs1d hs1i hs1b hs1s hs1z
  refine ⟨s1, ?_⟩
  cases bytes with
  | nil =>
    -- nothing was sent: both passes only run the overflow latch
    have hq0 : isrQueued s1 = [] := by rw [hcq]; rfl
    have he1 := isr_empty_of_nil s1 hs1wf hq0
    have hc1 : s1.m_rxCurBit = 8 := congrArg Dec.c hs1d
    have e1 := rxBits_idle s1 cyc1 he1 (fun hd => by have := hd.2.1; omega)
    have e2 := rxBits_idle (rxLatch s1) cyc2
      (isr_empty_of_nil _ (rxLatch_wf s1 hs1wf) (by rw [rxLatch_isrQueued]; exact hq0))
      (fun hd => by
        have := hd.2.1
        have hc2 : (rxLatch s1).m_rxCurBit = 8 := by
          have := congrArg Dec.c (rxLatch_dec s1); simp only [Port.dec] at this; omega
        omega)
    exact ⟨_, _, hlb, e1, e2, by rw [rxLatch_queued, rxLatch_queued, hs1q]; simp⟩
  | cons b r =>
    have hb : b < 256 := hbytes b (List.mem_cons_self _ _)
    have hr : ∀ x ∈ r, x < 256 := fun x hx => hbytes x (List.mem_cons_of_mem _ hx)
    obtain ⟨data, _, _, _, hf, _⟩ :=
      frameOk_spec s.m_invert b (frameOk_all s.m_invert b hb)
    have hw0 : toU32 ((clk 0 : Int) + ((0 : Nat) : Int) * s.m_bitCycles) = clk 0 := by
      simp only [Nat.cast_zero, zero_mul, add_zero]
      exact toU32_of_lt (clockOk_lt hclk 0)
    have hq1 : isrQueued s1 = edgeAt (clk 0) s.m_bitCycles (0, s.m_invert) ::
        (data.map (edgeAt (clk 0) s.m_bitCycles)
          ++ edgeWords (streamEdges s.m_invert s.m_bitCycles clk (0 + 1) r)) := by
      rw [hcq]
      show edgeWords _ = _
      rw [streamEdges, edgeWords_append, edgeWords_frame, hf]
      rfl
    -- first pass: latch, start edge of the first frame, then the chain of frames
    have hdrain := rxBits_drain s1 cyc1 hs1wf.2.2.2.1 (by rw [hq1]; simp)
    have hLd : (rxLatch s1).dec = ⟨8, 0⟩ := by rw [rxLatch_dec, hs1d]
    have hLe := ext_rxLatch s1
    obtain ⟨t0, e0, hd0, hqq0, hlc0, hiq0, hx0, hwf0⟩ :=
      rxEvent_idle (rxLatch s1) _ _ (rxLatch_wf s1 hs1wf) (congrArg Dec.c hLd)
        (by rw [rxLatch_isrQueued]; exact hq1)
        (by
          rw [hLe.invert, hs1i]
          unfold edgeAt
          rw [edgeWord_level]
          simp)
    have hy0 : (rxLatch s1).m_rxCurByte = 0 := congrArg Dec.y hLd
    rw [hy0] at hd0
    have hl0 : Near t0.m_lastCycle (clk 0) := by
      rw [hlc0]
      unfold edgeAt
      simp only []
      rw [hw0]
      exact near_edgeWord _ _ (clockOk_lt hclk 0)
    simp only [List.length_cons] at hcap
    obtain ⟨t, bl, a1, k1, p1, pre, e3, hsplit, hbl, hfe, hd3, hq3, hlc3, hiq3, hx3, hwf3, hty3⟩ :=
      frames_chain s.m_invert s.m_bitCycles clk hB hBm hclk r b 0 t0 data hb hr hf hwf0
        (by rw [hx0.invert, hLe.invert, hs1i]) (by rw [hx0.bitCycles, hLe.bitCycles, hs1b]) hd0
        hl0 hiq0
        (by rw [hqq0, rxLatch_queued, hs1q, hx0.bufSize, hLe.bufSize, hs1s]; omega)
    have hpass1 : rxBits s1 cyc1 = some t := by
      rw [hdrain, hq1, List.length_cons, Nat.add_comm,
        rxEvents_add 1 _ _ t0 (by rw [rxEvents_succ, e0]; rfl)]
      rw [hiq0] at e3
      exact e3
    refine ⟨t, ?_⟩
    have hqt : queued t = queued s ++ pre ++ p1 := by
      rw [hq3, hqq0, rxLatch_queued, hs1q]
    -- second pass: the byte of the last frame, if it is still pending
    obtain ⟨data2, a2, k2, p2, hf2, hrun2, _, _, _, hk0, hk9, hy2, hp2, _, hfin⟩ :=
      frameOk_spec s.m_invert bl (frameOk_all s.m_invert bl hbl)
    have hsame : (a1, k1, p1) = (a2, k2, p2) := by
      unfold frameEnd at hfe
      rw [hf2, List.tail_cons, hrun2] at hfe
      injection hfe with h
      exact h.symm
    injection hsame with ha hkp
    injection hkp with hk hp
    subst ha hk hp
    have hie := isr_empty_of_nil t hwf3 hiq3
    have hlenb : (b :: r).length = pre.length + 1 := by
      rw [hsplit]; simp
    simp only [List.length_cons] at hlenb
    have hbufs : t.m_bufSize = s.m_bufSize := by
      rw [hx3.bufSize, hx0.bufSize, hLe.bufSize, hs1s]
    rcases hfin with ⟨c8, hpb⟩ | ⟨c8, c0, ck, hpn, a3, hsyn⟩
    · have e2 := rxBits_idle t cyc2 hie (fun hd => by
        have := hd.2.1
        have : t.m_rxCurBit = 8 := by rw [← c8, ← hd3]; rfl
        omega)
      refine ⟨_, hlb, hpass1, e2, ?_⟩
      rw [rxLatch_queued, hqt, hpb, hsplit, List.append_assoc]
    · have hcb : t.m_rxCurBit = a1.c := by rw [← hd3]; rfl
      have hbc : t.m_bitCycles = s.m_bitCycles := by
        rw [hx3.bitCycles, hx0.bitCycles, hLe.bitCycles, hs1b]
      have hkB : (k1 : Int) * s.m_bitCycles ≤ 9 * s.m_bitCycles :=
        Int.mul_le_mul_of_nonneg_right (by omega) (by omega)
      have hkB1 : 1 * s.m_bitCycles ≤ (k1 : Int) * s.m_bitCycles :=
        Int.mul_le_mul_of_nonneg_right (by omega) (by omega)
      have hexpd : (11 - t.m_rxCurBit) * t.m_bitCycles
          = 12 * s.m_bitCycles - k1 * s.m_bitCycles := by
        rw [hcb, hbc, show a1.c = (k1 : Int) - 1 by omega]; ring
      have hn1 : t.m_lastCycle < 4294967296 := hlc3.1
      have hidx : (b :: r).length - 1 = 0 + r.length := by simp
      rw [hidx] at hcyc
      have hdue : stopBitDue t cyc2 := by
        refine ⟨by omega, by omega, ?_⟩
        rw [hexpd]
        exact stop_due_arith (clk (0 + r.length)) t.m_lastCycle cyc2 s.m_bitCycles
          (k1 * s.m_bitCycles) idle hB hBm (by omega) hkB (by exact_mod_cast hi1) hi2 hlc3 hcyc
      obtain ⟨s3, e2, hq2⟩ := rxBits_stop t cyc2 bl a3 hwf3 (by rw [hbc]; exact hB)
        (by rw [hbc]; exact hBm) hty3 hie
        (by rw [hx3.isrBufSize, hx0.isrBufSize, hLe.isrBufSize, hs1z]; omega) hdue hn1
        (by rw [hd3, hcb]; exact hsyn)
        (by rw [hqt, hpn, hbufs]; simp only [List.length_append, List.length_nil]; omega)
      refine ⟨s3, hlb, hpass1, e2, ?_⟩
      rw [hq2, hqt, hpn, hsplit]
      simp

/-- The round trip at a concrete input: `0x00`, `0xFF`, `0x55` sent back to back
from cycle 1000 at 16 cycles per bit, second pass 40 cycles after the last stop
bit. -/
theorem loopback_roundtrip_witness :
    ∃ s1 s2 s3, loopback idlePort [0x00, 0xFF, 0x55] (steadyClock 1000 16) 990 = some s1 ∧
      rxBits s1 1485 = some s2 ∧ rxBits s2 1520 = some s3 ∧
      queued s3 = queued idlePort ++ [0x00, 0xFF, 0x55] :=
  loopback_roundtrip idlePort [0x00, 0xFF, 0x55] (steadyClock 1000 16) 990 1485 1520 40
    (by decide) (by decide) (by decide) (by decide) (by decide) (by decide) (by decide)
    (by decide) (by decide) (by decide) (by decide) (by decide) (by decide) (by decide)
    ⟨by decide, fun j => ⟨0, by decide, by
      show steadyClock 1000 16 (j + 1) = toU32 (((steadyClock 1000 16 j : Nat) : Int) + 10 * 16 + ((0 : Nat) : Int))
      unfold steadyClock toU32
      omega⟩⟩
    (by decide) (by decide) (by decide)

/-! ## Claims: byte-buffer overflow -/

/-- C9: the byte finalisation leaves `m_rxCurByte` as it is when the byte buffer
is full, and the next frame inherits it. Frame `0xFF` arrives with the buffer
full and is dropped (one byte lost); the frame `0x02` that follows at once is
pushed as `0x03`. -/
theorem byte_overflow_corrupts_next :
    (rxStoreByte { fullPort with m_rxCurBit := 7, m_rxCurByte := 0xFF }).m_rxCurByte = 0xFF ∧
      dropThenReceive 0xFF 0x02 = some (1, [0x03]) := by
  decide

/-! ## Claims: counter wrap-around -/

/-- C11: decoding does not depend on where the counter stands, so it is correct
across the wrap of the 32 bit counter. Let `s` be a well-formed port and `s'`
the same port with every word queued in the edge buffer and `m_lastCycle`
moved by the same even number `K` of cycles modulo `2^32` (`Shifted K s s'`).
Then `rxBits` returns on both, the second with the counter reading moved by
`K` as well, and the two results have the same byte queue, the same
`m_rxCurBit` and `m_rxCurByte`, the same overflow flags and `m_lastCycle` moved
by `K`; they are again related by `Shifted K`, and so agree on every other
member also. -/
theorem rxBits_shift (s s' : Port) (K c : Nat) (hK : K % 2 = 0) (h : s.wf)
    (hs : Shifted K s s') :
    ∃ t t', rxBits s c = some t ∧ rxBits s' (shiftWord K c) = some t' ∧
      queued t' = queued t ∧ t'.m_rxCurBit = t.m_rxCurBit ∧ t'.m_rxCurByte = t.m_rxCurByte ∧
      t'.m_overflow = t.m_overflow ∧ t'.m_isrOverflow = t.m_isrOverflow ∧
      t'.m_lastCycle = shiftWord K t.m_lastCycle ∧ Shifted K t t' := by
  obtain ⟨he, hq⟩ := hs
  generalize s'.m_isrBuffer = b at he hq
  subst he
  have g1 := grow_rxLatch s h
  obtain ⟨ov, io, hLe⟩ := rxLatch_eq s
  have hi : (rxLatch s).m_isrInPos = s.m_isrInPos := by rw [hLe]
  have ho : (rxLatch s).m_isrOutPos = s.m_isrOutPos := by rw [hLe]
  have hN : (rxLatch s).m_isrBufSize = s.m_isrBufSize := by rw [hLe]
  have hB : (rxLatch s).m_isrBuffer = s.m_isrBuffer := by rw [hLe]
  have hqL : ∀ j < ringCount (rxLatch s).m_isrInPos (rxLatch s).m_isrOutPos (rxLatch s).m_isrBufSize,
      b (((rxLatch s).m_isrOutPos + j) % (rxLatch s).m_isrBufSize)
        = shiftWord K ((rxLatch s).m_isrBuffer
            (((rxLatch s).m_isrOutPos + j) % (rxLatch s).m_isrBufSize)) := by
    rw [hi, ho, hN, hB]; exact hq
  obtain ⟨b2, r, n, e1, e2, en, hq2⟩ := rxStopBit_shift K hK (rxLatch s) b c g1.wf hqL
  have g2 := grow_rxStopBit (rxLatch s)
    (ringCount (rxLatch s).m_isrInPos (rxLatch s).m_isrOutPos (rxLatch s).m_isrBufSize : Nat) c g1.wf
  rw [e1] at g2
  rw [hi, ho, hN] at e1 e2
  rw [rxLatch_lastCycle] at e2
  obtain ⟨t, e3, e4, hwf, hin, hN2, hout⟩ := rxEvents_shift K hK n r b2 g2.wf hq2
  refine ⟨t, t.withEdges b2 (shiftWord K t.m_lastCycle), ?_, ?_, rfl, rfl, rfl, rfl, rfl, rfl,
    rfl, ?_⟩
  · rw [rxBits_eq s c h.2.2.2.1, e1]
    exact e3
  · have e := rxBits_eq (s.withEdges b (shiftWord K s.m_lastCycle)) (shiftWord K c) h.2.2.2.1
    rw [rxLatch_withEdges] at e
    change rxBits _ _ = rxEvents
      (rxStopBit ((rxLatch s).withEdges b (shiftWord K s.m_lastCycle))
        (ringCount s.m_isrInPos s.m_isrOutPos s.m_isrBufSize : Nat) (shiftWord K c)).2.toNat
      (rxStopBit ((rxLatch s).withEdges b (shiftWord K s.m_lastCycle))
        (ringCount s.m_isrInPos s.m_isrOutPos s.m_isrBufSize : Nat) (shiftWord K c)).1 at e
    rw [e, e2]
    exact e4
  · intro j hj
    exfalso
    have hz : ringCount t.m_isrInPos t.m_isrOutPos t.m_isrBufSize = 0 := by
      rw [hout, hin, hN2, en, ringCount_end g2.wf.2.2.1 g2.wf.2.2.2.1, ringCount_self]
    omega

/-- Witness for `rxBits_shift`: two frames captured from cycle 1000 on, and the
same two frames with the counter wrapping to zero inside the first; both
decode to `0x55`, `0x0F`. -/
theorem rxBits_shift_witness :
    wrapShift % 2 = 0 ∧ awayPort.wf ∧ Shifted wrapShift awayPort wrapPort ∧
      (rxBits wrapPort (shiftWord wrapShift 1400)).map queued = some [0x55, 0x0F] ∧
      ∃ t t', rxBits awayPort 1400 = some t ∧
        rxBits wrapPort (shiftWord wrapShift 1400) = some t' ∧
        queued t' = queued t ∧ t'.m_rxCurBit = t.m_rxCurBit ∧ t'.m_rxCurByte = t.m_rxCurByte ∧
        t'.m_overflow = t.m_overflow ∧ t'.m_isrOverflow = t.m_isrOverflow ∧
        t'.m_lastCycle = shiftWord wrapShift t.m_lastCycle ∧ Shifted wrapShift t t' :=
  ⟨by decide, by decide, ⟨rfl, by decide⟩, by decide,
    rxBits_shift awayPort wrapPort wrapShift 1400 (by decide) (by decide) ⟨rfl, by decide⟩⟩

/-! ## Claims: configuration and unusable directions -/

/-- C12: for a clock of `f` MHz (`f * 1000000` fits a signed 32 bit `int`) and
every baud rate `b` with `0 < b ≤ f * 1000000`, `begin(b)` returns with
`m_bitCycles = ⌊f * 1000000 / b⌋`, which is at least 1, and `baudRate()` then
returns `⌊f * 1000000 / ⌊f * 1000000 / b⌋⌋`, which is at least `b`. -/
theorem begin_baudRate (s : Port) (f : Nat) (b : Int) (hf : (f : Int) * 1000000 < 2147483648)
    (hb : 0 < b) (hbf : b ≤ (f : Int) * 1000000) :
    ∃ t, begin s f b = some t ∧ t.m_bitCycles = (f : Int) * 1000000 / b ∧ 1 ≤ t.m_bitCycles ∧
      ∃ r, baudRate t f = some r ∧ r = (f : Int) * 1000000 / ((f : Int) * 1000000 / b) ∧
        b ≤ r := by
  have hF0 : (0 : Int) ≤ (f : Int) * 1000000 := by positivity
  have hF : toI32 ((f : Int) * 1000000) = (f : Int) * 1000000 := toI32_of_range (by omega) hf
  have hq1 : 1 ≤ (f : Int) * 1000000 / b := by
    rw [Int.le_ediv_iff_mul_le hb]; omega
  have hq2 : (f : Int) * 1000000 / b ≤ (f : Int) * 1000000 :=
    Int.ediv_le_self _ hF0
  have hB : toI32 (Int.tdiv (toI32 ((f : Int) * 1000000)) b) = (f : Int) * 1000000 / b := by
    rw [hF, Int.tdiv_eq_ediv hF0 (le_of_lt hb)]
    exact toI32_of_range (by omega) (by omega)
  have hr1 : b ≤ (f : Int) * 1000000 / ((f : Int) * 1000000 / b) := by
    rw [Int.le_ediv_iff_mul_le (by omega)]
    have := Int.ediv_mul_le ((f : Int) * 1000000) (ne_of_gt hb)
    rw [mul_comm]; exact this
  have hr2 : (f : Int) * 1000000 / ((f : Int) * 1000000 / b) ≤ (f : Int) * 1000000 :=
    Int.ediv_le_self _ hF0
  have hbt : ∀ t : Port, begin s f b = some t → t.m_bitCycles = (f : Int) * 1000000 / b := by
    intro t ht
    unfold begin at ht
    rw [if_neg (ne_of_gt hb)] at ht
    simp only [Option.some.injEq] at ht
    rw [← ht, ← hB]
    unfold enableRx
    split_ifs <;> rfl
  have hex : ∃ t, begin s f b = some t := by
    unfold begin
    rw [if_neg (ne_of_gt hb)]
    exact ⟨_, rfl⟩
  obtain ⟨t, ht⟩ := hex
  have hbc := hbt t ht
  refine ⟨t, ht, hbc, by omega, (f : Int) * 1000000 / ((f : Int) * 1000000 / b), ?_, rfl, hr1⟩
  unfold baudRate
  rw [hbc, if_neg (by omega), hF, Int.tdiv_eq_ediv hF0 (by omega)]
  rw [toI32_of_range (by omega) (by omega)]

/-- Witness for `begin_baudRate`: 115200 baud at 80 MHz gives a bit period of
694 cycles. -/
theorem begin_baudRate_witness :
    ((80 : Nat) : Int) * 1000000 < 2147483648 ∧ (0 : Int) < 115200 ∧
      (115200 : Int) ≤ ((80 : Nat) : Int) * 1000000 ∧
      ∃ t, begin (construct 4 5 false 64 0 true true) 80 115200 = some t ∧
        t.m_bitCycles = ((80 : Nat) : Int) * 1000000 / 115200 ∧ 1 ≤ t.m_bitCycles ∧
        ∃ r, baudRate t 80 = some r ∧
          r = ((80 : Nat) : Int) * 1000000 / (((80 : Nat) : Int) * 1000000 / 115200) ∧
          115200 ≤ r :=
  ⟨by decide, by decide, by decide,
    begin_baudRate (construct 4 5 false 64 0 true true) 80 115200 (by decide) (by decide)
      (by decide)⟩

/-- C13: on a port that is well-formed when its receive side is valid,
`write(buffer, size)` returns `size` if the transmit pin is valid, and
otherwise returns 0 with no call to the pin layer at all. The transmit pin
given to the constructor is valid exactly when it is in `0..5` or `12..15`, or
is 16 and differs from the receive pin. -/
theorem write_result (s : Port) (buffer : List Nat) (clk : Nat → Nat) (c : Nat)
    (h : s.m_rxValid = true → s.wf) :
    (s.m_txValid = true → ∃ t ops, write s buffer clk c = some (buffer.length, t, ops)) ∧
      (s.m_txValid = false → ∃ t, write s buffer clk c = some (0, t, [])) ∧
      ∀ (rx tx : Int) (inv : Bool) (n m : Nat) (a1 a2 : Bool),
        (construct rx tx inv n m a1 a2).m_txValid = true ↔
          ((0 ≤ tx ∧ tx ≤ 5) ∨ (12 ≤ tx ∧ tx ≤ 15) ∨ (tx = 16 ∧ tx ≠ rx)) := by
  have hs1 : ∃ s1, (if s.m_rxValid then rxBits s c else some s) = some s1 ∧
      s1.m_txValid = s.m_txValid := by
    by_cases hv : s.m_rxValid = true
    · obtain ⟨t, ht, _⟩ := rxBits_total s c (h hv)
      exact ⟨t, by rw [if_pos hv]; exact ht, (rxBits_ext ht).txValid⟩
    · exact ⟨s, by rw [if_neg hv], rfl⟩
  obtain ⟨s1, e1, e2⟩ := hs1
  refine ⟨fun ht => ?_, fun ht => ?_, construct_txValid⟩
  · unfold write
    rw [e1, Option.some_bind, e2, ht]
    exact ⟨_, _, rfl⟩
  · refine ⟨s1, ?_⟩
    unfold write
    rw [e1, Option.some_bind, e2, ht]
    rfl

/-- Witness for `write_result`: a started port with a valid transmit pin. -/
theorem write_result_witness :
    (idlePort.m_rxValid = true → idlePort.wf) ∧
      (idlePort.m_txValid = true →
        ∃ t ops, write idlePort [0x55, 0xAA] (steadyClock 1000 16) 990
          = some ([0x55, 0xAA].length, t, ops)) ∧
      (idlePort.m_txValid = false →
        ∃ t, write idlePort [0x55, 0xAA] (steadyClock 1000 16) 990 = some (0, t, [])) ∧
      ∀ (rx tx : Int) (inv : Bool) (n m : Nat) (a1 a2 : Bool),
        (construct rx tx inv n m a1 a2).m_txValid = true ↔
          ((0 ≤ tx ∧ tx ≤ 5) ∨ (12 ≤ tx ∧ tx ≤ 15) ∨ (tx = 16 ∧ tx ≠ rx)) :=
  ⟨fun _ => by decide, write_result idlePort [0x55, 0xAA] (steadyClock 1000 16) 990 (fun _ => by decide)⟩

/-- C14: the receive side is inert when it is unusable. Take a port as the
constructor leaves it, followed by any sequence of calls of the public member
functions that return (no `begin` with baud rate zero), where either `begin`
is not among the calls, or the receive pin given to the constructor is not a
valid pin. The calls return, and on the port they leave `read()` and `peek()`
return `-1`, `available()` returns `0`, and none of the three changes any
member of the port. -/
theorem rx_inert (rx tx : Int) (inv : Bool) (n m : Nat) (a1 a2 : Bool) (calls : List PortCall)
    (hcase : (∀ k ∈ calls, PortCall.isBegin k = false) ∨ isValidGPIOpin rx = false)
    (hb : ∀ f b, PortCall.begin f b ∈ calls → b ≠ 0) :
    ∃ p, runPort calls (construct rx tx inv n m a1 a2) = some p ∧
      ∀ c c1 c2 : Nat,
        read p c = some (-1, p) ∧ peek p c = some (-1, p) ∧ available p c1 c2 = some (0, p) := by
  obtain ⟨p, e1, e2⟩ := runPort_not_rxValid calls (construct rx tx inv n m a1 a2)
    (construct_rxValid rx tx inv n m a1 a2)
    (hcase.imp id (construct_bufferSet rx tx inv n m a1 a2)) hb
  exact ⟨p, e1, fun c c1 c2 => inert_of_not_rxValid p e2 c c1 c2⟩

/-- Witness for `rx_inert`: receive pin 7 is not a valid pin; the port is
started at 9600 baud, written to and has its receiver enabled. -/
theorem rx_inert_witness :
    ((∀ k ∈ [PortCall.begin 80 9600, .write [0x41] (steadyClock 0 8333) 0, .enableRx true],
        PortCall.isBegin k = false) ∨ isValidGPIOpin 7 = false) ∧
      ∃ p, runPort [PortCall.begin 80 9600, .write [0x41] (steadyClock 0 8333) 0, .enableRx true]
          (construct 7 5 false 64 0 true true) = some p ∧
        ∀ c c1 c2 : Nat,
          read p c = some (-1, p) ∧ peek p c = some (-1, p) ∧ available p c1 c2 = some (0, p) :=
  ⟨Or.inr (by decide),
    rx_inert 7 5 false 64 0 true true
      [PortCall.begin 80 9600, .write [0x41] (steadyClock 0 8333) 0, .enableRx true]
      (Or.inr (by decide))
      (fun f b hm => by
        simp only [List.mem_cons, PortCall.begin.injEq, List.mem_singleton, reduceCtorEq,
          or_false, List.mem_nil_iff] at hm
        omega)⟩

/-! ## Claims: the stop bit timeout -/

/-- C15, as stated, fails in two ways. With the byte buffer full, the byte that
the stop bit timeout completes is dropped: nothing is pushed and a byte is
lost. With a bit period of 240,000,000 cycles the elapsed cycles of the event
made up do not fit a signed 32 bit value: one bit is shifted in and nothing is
pushed. -/
theorem stop_bit_recovery_counterexample :
    (rxBits { fullPort with m_rxCurBit := 3, m_rxCurByte := 0xA0 } 1000).map
        (fun t => (queued t, t.lostBytes)) = some ([0x41], 1) ∧
      (rxBits { idlePort with m_bitCycles := 240000000, m_rxCurBit := 0, m_rxCurByte := 0x80 }
          3000000000).map (fun t => (queued t, t.m_rxCurBit)) = some ([], 1) := by
  decide

/-- C15 (amended): the undetected stop bit. Take a well-formed port with the
edge buffer empty and of capacity 2 or more, a bit period of at most
195,000,000 cycles, and room in the byte buffer. If a byte is in assembly
(`0 ≤ m_rxCurBit ≤ 7`) and more than `11 - m_rxCurBit` bit periods have passed
since `m_lastCycle`, one `rxBits` call pushes exactly one byte `b`: its bits
`0 .. m_rxCurBit` are the bits received so far, which are the top
`m_rxCurBit + 1` bits of the accumulator, and its bits above them all equal
the last bit received, the top bit of the accumulator. Otherwise (no more than
`11 - m_rxCurBit` bit periods have passed, or `m_rxCurBit` is `-1` or `8`) the
call makes up no event, pushes nothing and leaves the decoder as it is. -/
theorem stop_bit_recovery (s : Port) (c : Nat) (h : s.wf) (he : s.m_isrInPos = s.m_isrOutPos)
    (hsz : 2 ≤ s.m_isrBufSize) (hBm : s.m_bitCycles ≤ 195000000) (hy : s.m_rxCurByte < 256)
    (hroom : (s.m_inPos + 1) % s.m_bufSize ≠ s.m_outPos) :
    (stopBitDue s c →
      ∃ t b, rxBits s c = some t ∧ queued t = queued s ++ [b] ∧ b < 256 ∧
        ∀ i : Nat, i ≤ 7 → b.testBit i =
          if (i : Int) ≤ s.m_rxCurBit then s.m_rxCurByte.testBit (7 - s.m_rxCurBit.toNat + i)
          else s.m_rxCurByte.testBit 7) ∧
      (¬ stopBitDue s c →
        ∃ t, rxBits s c = some t ∧ queued t = queued s ∧ t.m_isrInPos = s.m_isrInPos ∧
          t.m_isrBuffer = s.m_isrBuffer ∧ t.m_rxCurBit = s.m_rxCurBit ∧
          t.m_rxCurByte = s.m_rxCurByte) := by
  constructor
  · intro hdue
    obtain ⟨t, e1, e2, _, _⟩ := rxBits_timeout s c h he hsz hBm hy hroom hdue
    obtain ⟨hc0, hc8, _⟩ := hdue
    obtain ⟨k, hk⟩ : ∃ k : Nat, s.m_rxCurBit = (k : Int) := ⟨s.m_rxCurBit.toNat, by omega⟩
    have hk8 : k < 8 := by omega
    refine ⟨t, _, e1, e2, ?_, ?_⟩
    · split_ifs
      · exact hy
      · exact hiddenFill_lt _ _
    · intro i hi
      have hb := hiddenFill_bits s.m_rxCurByte hy k hk8 i (by omega)
      rw [hk]
      have e7 : ((k : Int) = 7) ↔ k = 7 := by omega
      have e8 : (7 - (k : Int)).toNat = 7 - k := by omega
      have e9 : ((i : Int) ≤ (k : Int)) ↔ i ≤ k := by omega
      simp only [e7, e8, e9, Int.toNat_ofNat]
      exact hb
  · intro hd
    obtain ⟨ov, io, hL⟩ := rxLatch_eq s
    refine ⟨rxLatch s, rxBits_idle s c he hd, ?_, ?_, ?_, ?_, ?_⟩ <;> rw [hL] <;> rfl

/-- Witness for `stop_bit_recovery`: bits 0 to 3 received as 0, 1, 0, 1 and the
line quiet since; the byte pushed is `0xFA`. -/
theorem stop_bit_recovery_witness :
    ({ idlePort with m_rxCurBit := 3, m_rxCurByte := 0xA0, m_lastCycle := 1064 } : Port).wf ∧
      stopBitDue { idlePort with m_rxCurBit := 3, m_rxCurByte := 0xA0, m_lastCycle := 1064 } 1200 ∧
      (rxBits { idlePort with m_rxCurBit := 3, m_rxCurByte := 0xA0, m_lastCycle := 1064 } 1200).map
        queued = some [0xFA] ∧
      ((stopBitDue { idlePort with m_rxCurBit := 3, m_rxCurByte := 0xA0, m_lastCycle := 1064 } 1200 →
        ∃ t b, rxBits { idlePort with m_rxCurBit := 3, m_rxCurByte := 0xA0, m_lastCycle := 1064 }
            1200 = some t ∧
          queued t
            = queued { idlePort with m_rxCurBit := 3, m_rxCurByte := 0xA0, m_lastCycle := 1064 }
              ++ [b] ∧ b < 256 ∧
          ∀ i : Nat, i ≤ 7 → b.testBit i =
            if (i : Int) ≤ (3 : Int) then (0xA0 : Nat).testBit (7 - (3 : Int).toNat + i)
            else (0xA0 : Nat).testBit 7) ∧
        (¬ stopBitDue { idlePort with m_rxCurBit := 3, m_rxCurByte := 0xA0, m_lastCycle := 1064 }
            1200 →
          ∃ t, rxBits { idlePort with m_rxCurBit := 3, m_rxCurByte := 0xA0, m_lastCycle := 1064 }
              1200 = some t ∧
            queued t
              = queued { idlePort with m_rxCurBit := 3, m_rxCurByte := 0xA0, m_lastCycle := 1064 } ∧
            t.m_isrInPos = idlePort.m_isrInPos ∧ t.m_isrBuffer = idlePort.m_isrBuffer ∧
            t.m_rxCurBit = 3 ∧ t.m_rxCurByte = 0xA0)) :=
  ⟨by decide, by decide, by decide,
    stop_bit_recovery { idlePort with m_rxCurBit := 3, m_rxCurByte := 0xA0, m_lastCycle := 1064 }
      1200 (by decide) (by decide) (by decide) (by decide) (by decide) (by decide)⟩

/-- C16: the stop bit event that `rxBits` makes up reads as the start level,
not the stop level: for either polarity, the word `(expectedCycle | 1) ^
m_invert` decodes to level `false`. The decoder therefore ends the recovery at
`m_rxCurBit = -1`, as if a start bit had come in, and the start edge of the
next frame pushes a byte `0x00` that nobody sent: frame `0xFF` recovered by
the timeout and followed by frame `0x55` gives `0xFF`, `0x00`, `0x55`. -/
theorem stop_event_reads_as_start :
    (∀ (inv : Bool) (t : Nat), ((edgeWord t inv &&& 1) == b2n inv) = false) ∧
      recoverThenReceive false 0xFF 0x55 2000 = some (-1, [0xFF, 0x00, 0x55]) ∧
      recoverThenReceive true 0xFF 0x55 2000 = some (-1, [0xFF, 0x00, 0x55]) := by
  refine ⟨fun inv t => ?_, by decide, by decide⟩
  rw [edgeWord_level]
  cases inv <;> rfl

/-! ## Claims: transmit schedule, edge buffer, decoder invariant, level bit -/

/-- C17: the transmit schedule. For every byte, polarity, bit period and
counter reading `t0` taken at the start of the byte, the calls that `write`
makes for the byte are those of `txSchedule`: the start level is written at
once; for each slot `k` in `1 .. 9` whose level differs from slot `k - 1`
there is one wait for the deadline `t0 + k * m_bitCycles` (modulo `2^32`)
followed by the write of the new level, for the other slots there is neither
a wait nor a write; and the byte ends with one wait for
`t0 + 10 * m_bitCycles`. The number of level writes after the start edge is the
number of level transitions in the frame. -/
theorem txByte_schedule (s : Port) (t0 byte : Nat) (hb : byte < 256) (ht : t0 < 4294967296) :
    txByte s.m_txPin s.m_invert s.m_bitCycles t0 byte
        = txSchedule s.m_txPin s.m_invert s.m_bitCycles t0 byte ∧
      (pinEvents s.m_txPin t0 (txByte s.m_txPin s.m_invert s.m_bitCycles t0 byte)).length
        = 1 + (List.range 9).countP fun i =>
            frameLevel s.m_invert byte (i + 1) != frameLevel s.m_invert byte i := by
  constructor
  · have e1 : toU32 ((t0 : Int) + s.m_bitCycles) = toU32 (t0 + ((0 + 1 : Nat) : Int) * s.m_bitCycles) := by
      simp
    unfold txByte txSchedule
    simp only []
    rw [e1, txBits_retime s.m_txPin s.m_invert s.m_bitCycles t0 9 0 _ _ (by omega),
      txBits_unit s.m_invert byte hb, List.map_append, List.map_flatMap]
    have e2 : ∀ i : Nat,
        List.map (retime s.m_txPin t0 s.m_bitCycles)
          (if frameLevel s.m_invert byte (i + 1) = frameLevel s.m_invert byte i then []
           else [HalOp.waitBitCycles (i + 1),
                 HalOp.pinMode 0 (levelMode (frameLevel s.m_invert byte (i + 1)))])
        = if frameLevel s.m_invert byte (i + 1) = frameLevel s.m_invert byte i then []
          else [HalOp.waitBitCycles (toU32 (t0 + ((i + 1 : Nat) : Int) * s.m_bitCycles)),
                HalOp.pinMode s.m_txPin (levelMode (frameLevel s.m_invert byte (i + 1)))] := by
      intro i
      split_ifs <;> rfl
    simp only [e2]
    simp [retime]
  · rw [pinEvents_txByte _ _ _ _ _ ht, List.length_map, frameEdges_count s.m_invert byte hb]

/-- Witness for `txByte_schedule`: byte `0x0F` from cycle 1000 at 16 cycles per
bit has level changes in slots 1, 5 and 9 only. -/
theorem txByte_schedule_witness :
    (0x0F : Nat) < 256 ∧ (1000 : Nat) < 4294967296 ∧
      txByte idlePort.m_txPin idlePort.m_invert idlePort.m_bitCycles 1000 0x0F
        = [.getCycleCount 1000, .pinMode 5 .OUTPUT,
           .waitBitCycles 1016, .pinMode 5 .INPUT_PULLUP,
           .waitBitCycles 1080, .pinMode 5 .OUTPUT,
           .waitBitCycles 1144, .pinMode 5 .INPUT_PULLUP,
           .waitBitCycles 1160] ∧
      txByte idlePort.m_txPin idlePort.m_invert idlePort.m_bitCycles 1000 0x0F
          = txSchedule idlePort.m_txPin idlePort.m_invert idlePort.m_bitCycles 1000 0x0F ∧
      (pinEvents idlePort.m_txPin 1000
          (txByte idlePort.m_txPin idlePort.m_invert idlePort.m_bitCycles 1000 0x0F)).length
        = 1 + (List.range 9).countP fun i =>
            frameLevel idlePort.m_invert 0x0F (i + 1) != frameLevel idlePort.m_invert 0x0F i :=
  ⟨by decide, by decide, by decide, txByte_schedule idlePort 1000 0x0F (by decide) (by decide)⟩

/-- C19: the decoder state invariant. From any state with `m_rxCurBit` in
`-1 .. 8` and a bit period of one cycle or more, whatever the edge buffer
holds and whatever the counter reads: a call of `rxBits` that returns leaves
`m_rxCurBit` in `-1 .. 8`, and the call does return when the four ring
indices lie inside their buffers; `enableRx` leaves `m_rxCurBit` in
`-1 .. 8`; and the masked bits block, entered with `m_rxCurBit < 7` and at
least one bit period elapsed, shifts in at least 1 and at most
`7 - m_rxCurBit` bits. -/
theorem curBit_invariant (s : Port) (c : Nat) (hB : 1 ≤ s.m_bitCycles)
    (h1 : -1 ≤ s.m_rxCurBit) (h2 : s.m_rxCurBit ≤ 8) :
    (∀ t, rxBits s c = some t → -1 ≤ t.m_rxCurBit ∧ t.m_rxCurBit ≤ 8) ∧
      (s.m_inPos < s.m_bufSize → s.m_outPos < s.m_bufSize →
        s.m_isrInPos < s.m_isrBufSize → s.m_isrOutPos < s.m_isrBufSize →
        ∃ t, rxBits s c = some t) ∧
      (∀ e : Bool, -1 ≤ (enableRx s e).m_rxCurBit ∧ (enableRx s e).m_rxCurBit ≤ 8) ∧
      (∀ cycles : Int, s.m_rxCurBit < 7 → s.m_bitCycles ≤ cycles →
        1 ≤ (rxHiddenBits s cycles).1.m_rxCurBit - s.m_rxCurBit ∧
          (rxHiddenBits s cycles).1.m_rxCurBit - s.m_rxCurBit ≤ 7 - s.m_rxCurBit) := by
  refine ⟨fun t ht => ?_, fun a1 a2 a3 a4 => ?_, fun e => ?_, fun cycles hc hcy => ?_⟩
  · unfold rxBits at ht
    simp only [] at ht
    split_ifs at ht
    all_goals
      refine rxEvents_range _ _ t ?_ ?_ ?_ ht
      · rw [(ext_rxStopBit _ _ _).bitCycles, (ext_rxLatch s).bitCycles]; exact hB
      · rw [rxStopBit_curBit, rxLatch_curBit]; exact h1
      · rw [rxStopBit_curBit, rxLatch_curBit]; exact h2
  · obtain ⟨t, ht, _⟩ := rxBits_total s c ⟨a1, a2, a3, a4, hB, h1, h2⟩
    exact ⟨t, ht⟩
  · unfold enableRx
    by_cases hv : s.m_rxValid = true
    · rw [if_pos hv]
      cases e
      · exact ⟨h1, h2⟩
      · exact ⟨show (-1 : Int) ≤ 8 by decide, show (8 : Int) ≤ 8 by decide⟩
    · rw [if_neg hv]
      exact ⟨h1, h2⟩
  · have hd := tdiv_pos_of_le hB hcy
    unfold rxHiddenBits
    simp only []
    split_ifs <;> omega

/-- Witness for `curBit_invariant`: a byte in assembly on the idle port. -/
theorem curBit_invariant_witness :
    (1 : Int) ≤ ({ idlePort with m_rxCurBit := 3 } : Port).m_bitCycles ∧
      (-1 : Int) ≤ ({ idlePort with m_rxCurBit := 3 } : Port).m_rxCurBit ∧
      ({ idlePort with m_rxCurBit := 3 } : Port).m_rxCurBit ≤ 8 ∧
      (rxHiddenBits { idlePort with m_rxCurBit := 3 } 100).1.m_rxCurBit = 7 ∧
      ((∀ t, rxBits { idlePort with m_rxCurBit := 3 } 1000 = some t →
          -1 ≤ t.m_rxCurBit ∧ t.m_rxCurBit ≤ 8) ∧
        (idlePort.m_inPos < idlePort.m_bufSize → idlePort.m_outPos < idlePort.m_bufSize →
          idlePort.m_isrInPos < idlePort.m_isrBufSize →
          idlePort.m_isrOutPos < idlePort.m_isrBufSize →
          ∃ t, rxBits { idlePort with m_rxCurBit := 3 } 1000 = some t) ∧
        (∀ e : Bool, -1 ≤ (enableRx { idlePort with m_rxCurBit := 3 } e).m_rxCurBit ∧
          (enableRx { idlePort with m_rxCurBit := 3 } e).m_rxCurBit ≤ 8) ∧
        (∀ cycles : Int, (3 : Int) < 7 → (16 : Int) ≤ cycles →
          1 ≤ (rxHiddenBits { idlePort with m_rxCurBit := 3 } cycles).1.m_rxCurBit - 3 ∧
            (rxHiddenBits { idlePort with m_rxCurBit := 3 } cycles).1.m_rxCurBit - 3 ≤ 7 - 3)) :=
  ⟨by decide, by decide, by decide, by decide,
    curBit_invariant { idlePort with m_rxCurBit := 3 } 1000 (by decide) (by decide) (by decide)⟩

/-- C20, as stated, fails: the timing arithmetic uses the edge word with its
level bit. With the last edge word 1001 and 16 cycles per bit, the words 1024
and 1025, which differ only in the low bit, give 15 and 16 elapsed cycles, so
none and one masked bit (`m_rxCurBit` goes from 0 to 1 and to 2), and
`m_lastCycle` becomes 1024 and 1025. -/
theorem level_bit_counterexample :
    eventCycles (oneEvent 1024) = 15 ∧ eventCycles (oneEvent 1025) = 16 ∧
      (rxEvent (oneEvent 1024)).map (fun t => (t.m_rxCurBit, t.m_lastCycle)) = some (1, 1024) ∧
      (rxEvent (oneEvent 1025)).map (fun t => (t.m_rxCurBit, t.m_lastCycle)) = some (2, 1025) := by
  decide

/-- C20 (amended): the level bit stays in the timing arithmetic. For the edge
word at the head of the queue, `rxBits` runs the decode loop with the level
obtained by comparing the low bit of the word with `m_invert`, with the
elapsed cycles `word - m_lastCycle - m_bitCycles / 2` computed on the whole
word, and with `m_lastCycle` set to the whole word, which the loop keeps.
Two words that differ only in the low bit, `2 * k` and `2 * k + 1`, give
opposite levels and elapsed cycles that differ by one (as signed 32 bit
values); and on a well-formed port the event is processed and `m_lastCycle`
ends as the word itself. -/
theorem level_bit_in_timing (s : Port) (k w : Nat) :
    rxEvent s = rxBitLoop (eventLevel s) loopFuel (eventCycles s)
        { s with m_isrOutPos := (s.m_isrOutPos + 1) % s.m_isrBufSize,
                 m_lastCycle := s.m_isrBuffer s.m_isrOutPos } ∧
      eventLevel (s.withHead w) = (w % 2 == b2n s.m_invert) ∧
      eventLevel (s.withHead (2 * k + 1)) = !eventLevel (s.withHead (2 * k)) ∧
      eventCycles (s.withHead (2 * k + 1)) = toI32 (eventCycles (s.withHead (2 * k)) + 1) ∧
      (∀ t, rxEvent (s.withHead w) = some t → t.m_lastCycle = w) ∧
      (s.wf → ∃ t, rxEvent (s.withHead w) = some t ∧ t.m_lastCycle = w) := by
  have hl : ∀ t, rxEvent (s.withHead w) = some t → t.m_lastCycle = w := by
    intro t ht
    rw [rxEvent_lastCycle ht, withHead_head]
  refine ⟨rfl, ?_, ?_, ?_, hl, ?_⟩
  · unfold eventLevel
    rw [withHead_head, Nat.and_one_is_mod]
    rfl
  · unfold eventLevel
    rw [withHead_head, withHead_head, Nat.and_one_is_mod, Nat.and_one_is_mod]
    have e1 : (2 * k + 1) % 2 = 1 := by omega
    have e2 : (2 * k) % 2 = 0 := by omega
    rw [e1, e2]
    show ((1 : Nat) == b2n s.m_invert) = !((0 : Nat) == b2n s.m_invert)
    cases s.m_invert <;> rfl
  · unfold eventCycles
    rw [withHead_head, withHead_head]
    show toI32 (((2 * k + 1 : Nat) : Int) - s.m_lastCycle - Int.tdiv s.m_bitCycles 2)
      = toI32 (toI32 (((2 * k : Nat) : Int) - s.m_lastCycle - Int.tdiv s.m_bitCycles 2) + 1)
    unfold toI32
    omega
  · intro hwf
    have hwf2 : (s.withHead w).wf := hwf
    obtain ⟨t, ht, _⟩ := rxEvent_total _ hwf2
    exact ⟨t, ht, hl t ht⟩

/-- Witness for `level_bit_in_timing`: the words 1024 and 1025 after a last edge
word of 1001. -/
theorem level_bit_in_timing_witness :
    (oneEvent 1024).wf ∧
      eventLevel ((oneEvent 1024).withHead 1025) = !eventLevel ((oneEvent 1024).withHead 1024) ∧
      eventCycles ((oneEvent 1024).withHead 1025)
        = toI32 (eventCycles ((oneEvent 1024).withHead 1024) + 1) ∧
      ∃ t, rxEvent ((oneEvent 1024).withHead 1025) = some t ∧ t.m_lastCycle = 1025 :=
  ⟨by decide, (level_bit_in_timing (oneEvent 1024) 512 1025).2.2.1,
    (level_bit_in_timing (oneEvent 1024) 512 1025).2.2.2.1,
    (level_bit_in_timing (oneEvent 1024) 512 1025).2.2.2.2.2 (by decide)⟩

end SoftwareSerial
